import Mathlib

set_option maxHeartbeats 1000000

/-!
Verification of the graph model and shortest-path engine of the Algo-Visuals
repository: the intrusive-list graph store (`graphs_common`), the randomized
connected-graph generator (`createRandomGraph`), the step-recording Dijkstra
implementation (`dijkstras`), and the grid dynamic-programming engine
(`dynamic_common`).  The intrusive doubly-linked edge lists of the source are
embedded as the lists they represent (traversal order preserved); JS `Map`s
and `Set`s are embedded as insertion-ordered association lists and lists, and
the numeric `Infinity` sentinel as `⊤ : WithTop Nat`.
-/

/-- Edge record of the graph store (`graphs_common.Edge`): endpoints are the
ids of `from_node` / `to_node`, `data` is the numeric weight, and `id` is the
direction-independent identifier produced by `_getEdgeId`. -/
structure Edge where
  from_id : String
  to_id : String
  data : Nat
  id : String
deriving DecidableEq, Repr

/-- Node record of the graph store (`graphs_common.Node`): the two intrusive
edge lists are embedded as the lists of edges they enumerate, head first. -/
structure Node where
  id : String
  value : Int
  outgoing_edges : List Edge
  incoming_edges : List Edge
deriving DecidableEq, Repr

/-- The graph store (`graphs_common.Graph`): `nodes` is the id-keyed record of
nodes, kept in insertion order. -/
structure Graph where
  nodes : List Node
deriving DecidableEq, Repr

/-- Lookup `this.nodes[node_id]`. -/
def Graph.find? (g : Graph) (node_id : String) : Option Node :=
  g.nodes.find? (fun n => n.id = node_id)

/-- `node_id` is a key of `this.nodes`. -/
def Graph.hasNode (g : Graph) (node_id : String) : Prop :=
  ∃ n ∈ g.nodes, n.id = node_id

instance (g : Graph) (node_id : String) : Decidable (g.hasNode node_id) := by
  unfold Graph.hasNode; infer_instance

/-- `Graph.add_node`: insert a fresh node unless the id is already present. -/
def Graph.add_node (g : Graph) (node_id : String) (value : Int) : Graph :=
  match g.find? node_id with
  | some _ => g
  | none =>
    { nodes := g.nodes ++ [{ id := node_id, value := value,
                             outgoing_edges := [], incoming_edges := [] }] }

/-- Lexicographic comparison of character sequences: the default string
comparator used by the JS `Array.sort` call inside `_getEdgeId`. -/
def charListLe (a b : List Char) : Bool :=
  match a, b with
  | [], _ => true
  | _ :: _, [] => false
  | c :: cs, d :: ds =>
    c.toNat < d.toNat || (c.toNat = d.toNat && charListLe cs ds)

/-- String comparison used to sort the endpoint pair of `_getEdgeId`. -/
def strLe (a b : String) : Bool := charListLe a.data b.data

/-- `Graph._getEdgeId`: join the two endpoint ids in sorted order, so the edge
id is independent of the direction of storage. -/
def getEdgeId (nodeId1 nodeId2 : String) : String :=
  if strLe nodeId1 nodeId2 then nodeId1 ++ "-" ++ nodeId2
  else nodeId2 ++ "-" ++ nodeId1

/-- `Graph.hasEdge`: walk the outgoing list of each endpoint, looking for an
edge to the other one (existence is direction-independent). -/
def Graph.hasEdge (g : Graph) (nodeId1 nodeId2 : String) : Bool :=
  match g.find? nodeId1, g.find? nodeId2 with
  | some node1, some node2 =>
    node1.outgoing_edges.any (fun e => e.to_id = nodeId2) ||
      node2.outgoing_edges.any (fun e => e.to_id = nodeId1)
  | _, _ => false

/-- Apply `f` to the node with the given id (if present), leaving all other
nodes untouched; embeds in-place mutation of one node of `this.nodes`. -/
def Graph.updateNode (g : Graph) (node_id : String) (f : Node → Node) : Graph :=
  { nodes := g.nodes.map (fun n => if n.id = node_id then f n else n) }

/-- `Graph._add_to_list(node, edge, 'outgoing')`: append at the tail. -/
def Node.pushOutgoing (n : Node) (e : Edge) : Node :=
  { n with outgoing_edges := n.outgoing_edges ++ [e] }

/-- `Graph._add_to_list(node, edge, 'incoming')`: append at the tail. -/
def Node.pushIncoming (n : Node) (e : Edge) : Node :=
  { n with incoming_edges := n.incoming_edges ++ [e] }

/-- `Graph.add_edge`: `none` (and the untouched graph) when an endpoint is
missing or the unordered pair is already connected; otherwise the created
edge, appended at the tail of `from_id`'s outgoing list and of `to_id`'s
incoming list. -/
def Graph.add_edge (g : Graph) (from_id to_id : String) (weight : Nat) :
    Option Edge × Graph :=
  match g.find? from_id, g.find? to_id with
  | some _, some _ =>
    if g.hasEdge from_id to_id then (none, g)
    else
      let e : Edge := { from_id := from_id, to_id := to_id, data := weight,
                        id := getEdgeId from_id to_id }
      (some e, (g.updateNode from_id (fun n => n.pushOutgoing e)).updateNode to_id
                  (fun n => n.pushIncoming e))
  | _, _ => (none, g)

/-- `Graph._remove_from_list(node, other, 'outgoing')`: splice out the first
edge whose target is `other`. -/
def removeFirstTo (l : List Edge) (other : String) : List Edge :=
  match l with
  | [] => []
  | e :: rest => if e.to_id = other then rest else e :: removeFirstTo rest other

/-- `Graph._remove_from_list(node, other, 'incoming')`: splice out the first
edge whose source is `other`. -/
def removeFirstFrom (l : List Edge) (other : String) : List Edge :=
  match l with
  | [] => []
  | e :: rest => if e.from_id = other then rest else e :: removeFirstFrom rest other

/-- `Graph.remove_edge`: when both endpoints exist, splice the first matching
edge out of `from_id`'s outgoing list and out of `to_id`'s incoming list. -/
def Graph.remove_edge (g : Graph) (from_id to_id : String) : Graph :=
  match g.find? from_id, g.find? to_id with
  | some _, some _ =>
    (g.updateNode from_id
        (fun n => { n with outgoing_edges := removeFirstTo n.outgoing_edges to_id })).updateNode
      to_id (fun n => { n with incoming_edges := removeFirstFrom n.incoming_edges from_id })
  | _, _ => g

/-- All edge records stored in outgoing lists, in node order; every edge of a
well-formed graph is stored in exactly its source node's outgoing list. -/
def storedEdges (g : Graph) : List Edge :=
  (g.nodes.map Node.outgoing_edges).flatten

/-- The dedup-by-id pass of `Graph.get_all_edges`: keep each edge whose id was
not seen before, accumulating seen ids. -/
def dedupById (l : List Edge) (seen : List String) : List Edge :=
  match l with
  | [] => []
  | e :: rest =>
    if e.id ∈ seen then dedupById rest seen else e :: dedupById rest (e.id :: seen)

/-- `Graph.get_all_edges`: walk every node's outgoing list in order, pushing
each edge whose id has not been visited yet. -/
def Graph.get_all_edges (g : Graph) : List Edge :=
  dedupById (storedEdges g) []

/-! ## Well-formedness of the graph store -/

/-- Two edge records connect the same unordered pair of node ids. -/
def pairEq (e1 e2 : Edge) : Prop :=
  (e1.from_id = e2.from_id ∧ e1.to_id = e2.to_id) ∨
    (e1.from_id = e2.to_id ∧ e1.to_id = e2.from_id)

/-- The endpoint pair of an edge, sorted: a canonical key for the unordered
pair of endpoints. -/
def pairKey (e : Edge) : String × String :=
  if strLe e.from_id e.to_id then (e.from_id, e.to_id) else (e.to_id, e.from_id)

/-- Some stored edge connects the unordered pair `{a, b}` (in either stored
direction). -/
def connectsPair (g : Graph) (a b : String) : Prop :=
  ∃ e ∈ storedEdges g, (e.from_id = a ∧ e.to_id = b) ∨ (e.from_id = b ∧ e.to_id = a)

/-- Invariant of graph-store states reachable through the `Graph` API:
unique node ids, every stored edge sits in its source's outgoing list and is
mirrored in its target's incoming list, endpoints exist, edge ids are the
canonical sorted join, at most one edge connects each unordered pair. -/
structure WF (g : Graph) : Prop where
  nodupIds : (g.nodes.map Node.id).Nodup
  out_from : ∀ n ∈ g.nodes, ∀ e ∈ n.outgoing_edges, e.from_id = n.id
  in_to : ∀ n ∈ g.nodes, ∀ e ∈ n.incoming_edges, e.to_id = n.id
  endpointTo : ∀ e ∈ storedEdges g, g.hasNode e.to_id
  mirror_out : ∀ n ∈ g.nodes, ∀ e ∈ n.outgoing_edges, ∀ m ∈ g.nodes,
    m.id = e.to_id → e ∈ m.incoming_edges
  mirror_in : ∀ m ∈ g.nodes, ∀ e ∈ m.incoming_edges,
    ∃ n ∈ g.nodes, n.id = e.from_id ∧ e ∈ n.outgoing_edges
  pairsNodup : ((storedEdges g).map pairKey).Nodup
  in_nodup : ∀ n ∈ g.nodes, n.incoming_edges.Nodup
  eids : ∀ e ∈ storedEdges g, e.id = getEdgeId e.from_id e.to_id

/-! ## Elementary lemmas about lookups and `strLe` -/

theorem find?_isSome_iff (g : Graph) (x : String) :
    (g.find? x).isSome ↔ g.hasNode x := by
  unfold Graph.find? Graph.hasNode
  constructor
  · intro h
    obtain ⟨n, hn⟩ := Option.isSome_iff_exists.mp h
    refine ⟨n, List.mem_of_find?_eq_some hn, ?_⟩
    have := List.find?_some hn
    simpa using this
  · rintro ⟨n, hn, hid⟩
    cases hfind : g.nodes.find? (fun m => m.id = x) with
    | some m => simp
    | none =>
      rw [List.find?_eq_none] at hfind
      exact absurd (by simpa using hfind n hn) (by simp [hid])

theorem find?_mem_id (g : Graph) (x : String) (n : Node) (h : g.find? x = some n) :
    n ∈ g.nodes ∧ n.id = x := by
  refine ⟨List.mem_of_find?_eq_some h, ?_⟩
  have := List.find?_some h
  simpa using this

theorem list_find?_of_mem (l : List Node) (hn : (l.map Node.id).Nodup)
    (n : Node) (hmem : n ∈ l) : l.find? (fun m => m.id = n.id) = some n := by
  induction l with
  | nil => cases hmem
  | cons m rest ih =>
    rcases hmem with _ | ⟨_, h⟩
    · simp [List.find?_cons]
    · simp only [List.map_cons, List.nodup_cons] at hn
      have hne : m.id ≠ n.id := by
        intro he
        exact hn.1 (he ▸ List.mem_map_of_mem Node.id h)
      rw [List.find?_cons]
      have hd : decide (m.id = n.id) = false := by simpa using hne
      rw [hd]
      exact ih hn.2 h

theorem find?_of_mem (g : Graph) (hn : (g.nodes.map Node.id).Nodup)
    (n : Node) (hmem : n ∈ g.nodes) : g.find? n.id = some n :=
  list_find?_of_mem g.nodes hn n hmem

theorem storedEdges_mem (g : Graph) (e : Edge) :
    e ∈ storedEdges g ↔ ∃ n ∈ g.nodes, e ∈ n.outgoing_edges := by
  unfold storedEdges
  simp [List.mem_flatten]

theorem charListLe_total (a b : List Char) : charListLe a b = true ∨ charListLe b a = true := by
  induction a generalizing b with
  | nil => left; rfl
  | cons c cs ih =>
    cases b with
    | nil => right; rfl
    | cons d ds =>
      rcases Nat.lt_trichotomy c.toNat d.toNat with h | h | h
      · left; simp [charListLe, h]
      · rcases ih ds with h2 | h2
        · left; simp [charListLe, h, h2]
        · right; simp [charListLe, h.symm, h2]
      · right; simp [charListLe, h]

theorem charListLe_antisymm (a b : List Char)
    (h1 : charListLe a b = true) (h2 : charListLe b a = true) : a = b := by
  induction a generalizing b with
  | nil =>
    cases b with
    | nil => rfl
    | cons d ds => simp [charListLe] at h2
  | cons c cs ih =>
    cases b with
    | nil => simp [charListLe] at h1
    | cons d ds =>
      simp only [charListLe, Bool.or_eq_true, Bool.and_eq_true, decide_eq_true_eq] at h1 h2
      rcases h1 with h1 | ⟨hcd, h1⟩
      · rcases h2 with h2 | ⟨hdc, h2⟩
        · omega
        · omega
      · rcases h2 with h2 | ⟨hdc, h2⟩
        · omega
        · have hc : c = d := by
            apply Char.eq_of_val_eq
            apply UInt32.eq_of_toBitVec_eq
            unfold Char.toNat at hcd
            exact BitVec.toNat_injective (by simpa [UInt32.toNat] using hcd)
          subst hc
          rw [ih ds h1 h2]

theorem strLe_total (a b : String) : strLe a b = true ∨ strLe b a = true :=
  charListLe_total a.data b.data

theorem strLe_antisymm (a b : String) (h1 : strLe a b = true) (h2 : strLe b a = true) :
    a = b := by
  apply String.ext
  exact charListLe_antisymm a.data b.data h1 h2

/-- The sorted endpoint pair: the order-independent key behind `_getEdgeId`. -/
def sortPair (a b : String) : String × String :=
  if strLe a b then (a, b) else (b, a)

theorem pairKey_def (e : Edge) : pairKey e = sortPair e.from_id e.to_id := rfl

theorem getEdgeId_eq_sortPair (a b : String) :
    getEdgeId a b = (sortPair a b).1 ++ "-" ++ (sortPair a b).2 := by
  unfold getEdgeId sortPair
  split <;> rfl

theorem sortPair_comm (a b : String) : sortPair a b = sortPair b a := by
  unfold sortPair
  rcases h1 : strLe a b with _ | _ <;> rcases h2 : strLe b a with _ | _ <;> simp
  · rcases strLe_total a b with h | h
    · rw [h1] at h; cases h
    · rw [h2] at h; cases h
  · exact ⟨strLe_antisymm a b h1 h2, strLe_antisymm b a h2 h1⟩

theorem sortPair_eq_iff (a b c d : String) :
    sortPair a b = sortPair c d ↔ (a = c ∧ b = d) ∨ (a = d ∧ b = c) := by
  constructor
  · intro h
    unfold sortPair at h
    split at h <;> split at h <;>
      simp only [Prod.mk.injEq] at h <;> tauto
  · rintro (⟨rfl, rfl⟩ | ⟨rfl, rfl⟩)
    · rfl
    · exact sortPair_comm a b

theorem pairEq_iff_pairKey (e1 e2 : Edge) : pairEq e1 e2 ↔ pairKey e1 = pairKey e2 := by
  rw [pairKey_def, pairKey_def, sortPair_eq_iff]
  unfold pairEq
  tauto

theorem connectsPair_comm (g : Graph) (a b : String) :
    connectsPair g a b ↔ connectsPair g b a := by
  unfold connectsPair
  constructor <;> rintro ⟨e, he, h | h⟩
  · exact ⟨e, he, Or.inr h⟩
  · exact ⟨e, he, Or.inl h⟩
  · exact ⟨e, he, Or.inr h⟩
  · exact ⟨e, he, Or.inl h⟩

theorem hasEdge_iff (g : Graph) (hwf : WF g) (a b : String) :
    g.hasEdge a b = true ↔ (g.hasNode a ∧ g.hasNode b ∧ connectsPair g a b) := by
  unfold Graph.hasEdge
  cases hfa : g.find? a with
  | none =>
    have hna : ¬ g.hasNode a := by
      rw [← find?_isSome_iff, hfa]; simp
    simp [hna]
  | some na =>
    cases hfb : g.find? b with
    | none =>
      have hnb : ¬ g.hasNode b := by
        rw [← find?_isSome_iff, hfb]; simp
      simp [hnb]
    | some nb =>
      have hna : g.hasNode a := by rw [← find?_isSome_iff, hfa]; simp
      have hnb : g.hasNode b := by rw [← find?_isSome_iff, hfb]; simp
      obtain ⟨hmemA, hidA⟩ := find?_mem_id g a na hfa
      obtain ⟨hmemB, hidB⟩ := find?_mem_id g b nb hfb
      simp only [hna, hnb, true_and, List.any_eq_true, decide_eq_true_eq,
        Bool.or_eq_true]
      constructor
      · rintro (⟨e, he, hto⟩ | ⟨e, he, hto⟩)
        · refine ⟨e, (storedEdges_mem g e).mpr ⟨na, hmemA, he⟩, Or.inl ⟨?_, hto⟩⟩
          rw [hwf.out_from na hmemA e he, hidA]
        · refine ⟨e, (storedEdges_mem g e).mpr ⟨nb, hmemB, he⟩, Or.inr ⟨?_, hto⟩⟩
          rw [hwf.out_from nb hmemB e he, hidB]
      · rintro ⟨e, he, ⟨hfrom, hto⟩ | ⟨hfrom, hto⟩⟩
        · obtain ⟨n, hn, hen⟩ := (storedEdges_mem g e).mp he
          have hnid : n.id = a := by rw [← hwf.out_from n hn e hen, hfrom]
          have : g.find? a = some n := by
            rw [← hnid]; exact find?_of_mem g hwf.nodupIds n hn
          rw [hfa] at this
          cases this
          exact Or.inl ⟨e, hen, hto⟩
        · obtain ⟨n, hn, hen⟩ := (storedEdges_mem g e).mp he
          have hnid : n.id = b := by rw [← hwf.out_from n hn e hen, hfrom]
          have : g.find? b = some n := by
            rw [← hnid]; exact find?_of_mem g hwf.nodupIds n hn
          rw [hfb] at this
          cases this
          exact Or.inr ⟨e, hen, hto⟩

/-! ## Decomposition of `updateNode` -/

theorem nodes_decomp (g : Graph) (hnd : (g.nodes.map Node.id).Nodup) {a : String}
    {na : Node} (hfind : g.find? a = some na) :
    ∃ A B, g.nodes = A ++ na :: B ∧ (∀ m ∈ A, m.id ≠ a) ∧ (∀ m ∈ B, m.id ≠ a) := by
  obtain ⟨hmem, hid⟩ := find?_mem_id g a na hfind
  obtain ⟨A, B, hAB⟩ := List.append_of_mem hmem
  refine ⟨A, B, hAB, ?_, ?_⟩
  · intro m hm he
    rw [hAB, List.map_append, List.map_cons] at hnd
    have h1 := (List.nodup_append.mp hnd).2.2
    exact h1 (List.mem_map_of_mem Node.id hm) (by simp [he, hid])
  · intro m hm he
    rw [hAB, List.map_append, List.map_cons] at hnd
    have h2 := (List.nodup_append.mp hnd).2.1
    rw [List.nodup_cons] at h2
    exact h2.1 (by rw [hid, ← he]; exact List.mem_map_of_mem Node.id hm)

theorem map_ite_id (l : List Node) (a : String) (f : Node → Node)
    (h : ∀ m ∈ l, m.id ≠ a) :
    l.map (fun n => if n.id = a then f n else n) = l := by
  induction l with
  | nil => rfl
  | cons m rest ih =>
    simp only [List.map_cons, if_neg (h m (by simp))]
    rw [ih (fun x hx => h x (by simp [hx]))]

theorem updateNode_nodes (g : Graph) (a : String) (f : Node → Node) {na : Node}
    {A B : List Node} (hAB : g.nodes = A ++ na :: B) (hida : na.id = a)
    (hA : ∀ m ∈ A, m.id ≠ a) (hB : ∀ m ∈ B, m.id ≠ a) :
    (g.updateNode a f).nodes = A ++ f na :: B := by
  unfold Graph.updateNode
  simp only [hAB, List.map_append, List.map_cons]
  rw [map_ite_id A a f hA, map_ite_id B a f hB, if_pos hida]

theorem updateNode_find? (g : Graph) (a : String) (f : Node → Node)
    (hpres : ∀ n, (f n).id = n.id) (x : String) :
    (g.updateNode a f).find? x =
      (g.find? x).map (fun n => if n.id = a then f n else n) := by
  unfold Graph.updateNode Graph.find?
  induction g.nodes with
  | nil => rfl
  | cons n rest ih =>
    simp only [List.map_cons]
    have hsame : decide ((if n.id = a then f n else n).id = x) = decide (n.id = x) := by
      by_cases ha : n.id = a
      · rw [if_pos ha, hpres n]
      · rw [if_neg ha]
    rw [List.find?_cons, List.find?_cons, hsame]
    cases hd : decide (n.id = x) with
    | true => simp
    | false => simpa using ih

theorem storedEdges_update_pres (g : Graph) (a : String) (f : Node → Node)
    (h : ∀ n, (f n).outgoing_edges = n.outgoing_edges) :
    storedEdges (g.updateNode a f) = storedEdges g := by
  unfold storedEdges Graph.updateNode
  simp only [List.map_map]
  congr 1
  apply List.map_congr_left
  intro n _
  by_cases ha : n.id = a <;> simp [ha, h]

theorem updateNode_idmap (g : Graph) (a : String) (f : Node → Node)
    (hpres : ∀ n, (f n).id = n.id) :
    (g.updateNode a f).nodes.map Node.id = g.nodes.map Node.id := by
  unfold Graph.updateNode
  simp only [List.map_map]
  apply List.map_congr_left
  intro n _
  by_cases ha : n.id = a <;> simp [ha, hpres]

theorem hasNode_iff_map (g : Graph) (x : String) :
    g.hasNode x ↔ x ∈ g.nodes.map Node.id := by
  unfold Graph.hasNode
  simp [List.mem_map]


/-- The per-node transformation applied by a successful `add_edge`: append the
new edge to its source's outgoing list and its target's incoming list. -/
def addEdgeUpd (a b : String) (e : Edge) (n : Node) : Node :=
  (fun m => if m.id = b then m.pushIncoming e else m)
    (if n.id = a then n.pushOutgoing e else n)

theorem add_edge_cases (g : Graph) (a b : String) (w : Nat) :
    (g.add_edge a b w = (none, g) ∧
      ((g.find? a).isSome = false ∨ (g.find? b).isSome = false ∨ g.hasEdge a b = true)) ∨
    (g.hasEdge a b = false ∧ (g.find? a).isSome ∧ (g.find? b).isSome ∧
      g.add_edge a b w =
        (some { from_id := a, to_id := b, data := w, id := getEdgeId a b },
         { nodes := g.nodes.map (addEdgeUpd a b
              { from_id := a, to_id := b, data := w, id := getEdgeId a b }) })) := by
  unfold Graph.add_edge
  cases hfa : g.find? a with
  | none =>
    cases hfb : g.find? b with
    | none => exact Or.inl ⟨rfl, Or.inl (by simp)⟩
    | some nb => exact Or.inl ⟨rfl, Or.inl (by simp)⟩
  | some na =>
    cases hfb : g.find? b with
    | none => exact Or.inl ⟨rfl, Or.inr (Or.inl (by simp))⟩
    | some nb =>
      by_cases hed : g.hasEdge a b
      · exact Or.inl ⟨by simp [hed], Or.inr (Or.inr hed)⟩
      · refine Or.inr ⟨by simp [hed], by simp, by simp, ?_⟩
        simp only [hed, Bool.false_eq_true, if_false]
        unfold Graph.updateNode addEdgeUpd
        simp [List.map_map, Function.comp_def]

theorem add_edge_isSome_iff (g : Graph) (a b : String) (w : Nat) :
    (g.add_edge a b w).1.isSome ↔
      ((g.find? a).isSome ∧ (g.find? b).isSome ∧ g.hasEdge a b = false) := by
  rcases add_edge_cases g a b w with ⟨heq, hfail⟩ | ⟨hed, hfa, hfb, heq⟩
  · rw [heq]
    simp only [Option.isSome_none, Bool.false_eq_true, false_iff]
    rintro ⟨h1, h2, h3⟩
    rcases hfail with h | h | h
    · rw [h1] at h; cases h
    · rw [h2] at h; cases h
    · rw [h3] at h; cases h
  · rw [heq]
    simp [hfa, hfb, hed]

theorem add_edge_some_eq (g : Graph) (a b : String) (w : Nat) {e : Edge}
    (h : (g.add_edge a b w).1 = some e) :
    e = { from_id := a, to_id := b, data := w, id := getEdgeId a b } := by
  rcases add_edge_cases g a b w with ⟨heq, _⟩ | ⟨_, _, _, heq⟩
  · rw [heq] at h; cases h
  · rw [heq] at h
    cases h
    rfl

theorem add_edge_none_graph (g : Graph) (a b : String) (w : Nat)
    (h : (g.add_edge a b w).1 = none) : (g.add_edge a b w).2 = g := by
  rcases add_edge_cases g a b w with ⟨heq, _⟩ | ⟨_, _, _, heq⟩
  · rw [heq]
  · rw [heq] at h; cases h

theorem add_edge_nodes (g : Graph) (a b : String) (w : Nat) {e : Edge}
    (h : (g.add_edge a b w).1 = some e) :
    (g.add_edge a b w).2.nodes = g.nodes.map (addEdgeUpd a b e) := by
  rcases add_edge_cases g a b w with ⟨heq, _⟩ | ⟨_, _, _, heq⟩
  · rw [heq] at h; cases h
  · have he : e = { from_id := a, to_id := b, data := w, id := getEdgeId a b } := by
      rw [heq] at h; cases h; rfl
    rw [heq, he]

theorem pushOutgoing_id (n : Node) (e : Edge) : (n.pushOutgoing e).id = n.id := rfl

theorem pushIncoming_id (n : Node) (e : Edge) : (n.pushIncoming e).id = n.id := rfl

theorem pushOutgoing_out (n : Node) (e : Edge) :
    (n.pushOutgoing e).outgoing_edges = n.outgoing_edges ++ [e] := rfl

theorem pushIncoming_out (n : Node) (e : Edge) :
    (n.pushIncoming e).outgoing_edges = n.outgoing_edges := rfl

theorem pushOutgoing_in (n : Node) (e : Edge) :
    (n.pushOutgoing e).incoming_edges = n.incoming_edges := rfl

theorem pushIncoming_in (n : Node) (e : Edge) :
    (n.pushIncoming e).incoming_edges = n.incoming_edges ++ [e] := rfl

theorem pushOutgoing_value (n : Node) (e : Edge) : (n.pushOutgoing e).value = n.value := rfl

theorem pushIncoming_value (n : Node) (e : Edge) : (n.pushIncoming e).value = n.value := rfl

theorem addEdgeUpd_id (a b : String) (e : Edge) (n : Node) :
    (addEdgeUpd a b e n).id = n.id := by
  unfold addEdgeUpd
  by_cases ha : n.id = a
  · subst ha
    by_cases hb : n.id = b
    · subst hb
      simp [pushOutgoing_id, pushIncoming_id, pushOutgoing_out, pushIncoming_out,
        pushOutgoing_in, pushIncoming_in, pushOutgoing_value, pushIncoming_value]
    · simp [hb, pushOutgoing_id, pushIncoming_id, pushOutgoing_out, pushIncoming_out,
        pushOutgoing_in, pushIncoming_in, pushOutgoing_value, pushIncoming_value]
  · by_cases hb : n.id = b
    · subst hb
      simp [ha, pushOutgoing_id, pushIncoming_id, pushOutgoing_out, pushIncoming_out,
        pushOutgoing_in, pushIncoming_in, pushOutgoing_value, pushIncoming_value]
    · simp [ha, hb, pushOutgoing_id, pushIncoming_id, pushOutgoing_out, pushIncoming_out,
        pushOutgoing_in, pushIncoming_in, pushOutgoing_value, pushIncoming_value]

theorem addEdgeUpd_out (a b : String) (e : Edge) (n : Node) :
    (addEdgeUpd a b e n).outgoing_edges =
      n.outgoing_edges ++ (if n.id = a then [e] else []) := by
  unfold addEdgeUpd
  by_cases ha : n.id = a
  · subst ha
    by_cases hb : n.id = b
    · subst hb
      simp [pushOutgoing_id, pushIncoming_id, pushOutgoing_out, pushIncoming_out,
        pushOutgoing_in, pushIncoming_in, pushOutgoing_value, pushIncoming_value]
    · simp [hb, pushOutgoing_id, pushIncoming_id, pushOutgoing_out, pushIncoming_out,
        pushOutgoing_in, pushIncoming_in, pushOutgoing_value, pushIncoming_value]
  · by_cases hb : n.id = b
    · subst hb
      simp [ha, pushOutgoing_id, pushIncoming_id, pushOutgoing_out, pushIncoming_out,
        pushOutgoing_in, pushIncoming_in, pushOutgoing_value, pushIncoming_value]
    · simp [ha, hb, pushOutgoing_id, pushIncoming_id, pushOutgoing_out, pushIncoming_out,
        pushOutgoing_in, pushIncoming_in, pushOutgoing_value, pushIncoming_value]

theorem addEdgeUpd_in (a b : String) (e : Edge) (n : Node) :
    (addEdgeUpd a b e n).incoming_edges =
      n.incoming_edges ++ (if n.id = b then [e] else []) := by
  unfold addEdgeUpd
  by_cases ha : n.id = a
  · subst ha
    by_cases hb : n.id = b
    · subst hb
      simp [pushOutgoing_id, pushIncoming_id, pushOutgoing_out, pushIncoming_out,
        pushOutgoing_in, pushIncoming_in, pushOutgoing_value, pushIncoming_value]
    · simp [hb, pushOutgoing_id, pushIncoming_id, pushOutgoing_out, pushIncoming_out,
        pushOutgoing_in, pushIncoming_in, pushOutgoing_value, pushIncoming_value]
  · by_cases hb : n.id = b
    · subst hb
      simp [ha, pushOutgoing_id, pushIncoming_id, pushOutgoing_out, pushIncoming_out,
        pushOutgoing_in, pushIncoming_in, pushOutgoing_value, pushIncoming_value]
    · simp [ha, hb, pushOutgoing_id, pushIncoming_id, pushOutgoing_out, pushIncoming_out,
        pushOutgoing_in, pushIncoming_in, pushOutgoing_value, pushIncoming_value]

theorem addEdgeUpd_value (a b : String) (e : Edge) (n : Node) :
    (addEdgeUpd a b e n).value = n.value := by
  unfold addEdgeUpd
  by_cases ha : n.id = a
  · subst ha
    by_cases hb : n.id = b
    · subst hb
      simp [pushOutgoing_id, pushIncoming_id, pushOutgoing_out, pushIncoming_out,
        pushOutgoing_in, pushIncoming_in, pushOutgoing_value, pushIncoming_value]
    · simp [hb, pushOutgoing_id, pushIncoming_id, pushOutgoing_out, pushIncoming_out,
        pushOutgoing_in, pushIncoming_in, pushOutgoing_value, pushIncoming_value]
  · by_cases hb : n.id = b
    · subst hb
      simp [ha, pushOutgoing_id, pushIncoming_id, pushOutgoing_out, pushIncoming_out,
        pushOutgoing_in, pushIncoming_in, pushOutgoing_value, pushIncoming_value]
    · simp [ha, hb, pushOutgoing_id, pushIncoming_id, pushOutgoing_out, pushIncoming_out,
        pushOutgoing_in, pushIncoming_in, pushOutgoing_value, pushIncoming_value]

/-! ## Permutation structure of `storedEdges` under edge insertion -/

theorem flatten_map_append (l : List Node) (f h : Node → List Edge) :
    ((l.map (fun x => f x ++ h x)).flatten).Perm
      ((l.map f).flatten ++ (l.map h).flatten) := by
  induction l with
  | nil => simp
  | cons x xs ih =>
    simp only [List.map_cons, List.flatten_cons]
    have p1 : ((f x ++ h x) ++ (xs.map (fun y => f y ++ h y)).flatten).Perm
        ((f x ++ h x) ++ ((xs.map f).flatten ++ (xs.map h).flatten)) :=
      List.Perm.append_left _ ih
    have p2 : (h x ++ ((xs.map f).flatten ++ (xs.map h).flatten)).Perm
        ((xs.map f).flatten ++ (h x ++ (xs.map h).flatten)) := by
      have hc : (h x ++ (xs.map f).flatten).Perm ((xs.map f).flatten ++ h x) :=
        List.perm_append_comm
      have : ((h x ++ (xs.map f).flatten) ++ (xs.map h).flatten).Perm
          (((xs.map f).flatten ++ h x) ++ (xs.map h).flatten) :=
        List.Perm.append_right _ hc
      simpa [List.append_assoc] using this
    have p3 : ((f x ++ h x) ++ ((xs.map f).flatten ++ (xs.map h).flatten)).Perm
        ((f x ++ (xs.map f).flatten) ++ (h x ++ (xs.map h).flatten)) := by
      have := List.Perm.append_left (f x) p2
      simpa [List.append_assoc] using this
    exact p1.trans p3

theorem flatten_ite_single (a : String) (e : Edge) (l : List Node)
    (hone : ∃ n ∈ l, n.id = a) (hnd : (l.map Node.id).Nodup) :
    (l.map (fun n => if n.id = a then [e] else [])).flatten = [e] := by
  induction l with
  | nil => simp at hone
  | cons m rest ih =>
    simp only [List.map_cons, List.nodup_cons] at hnd
    simp only [List.map_cons, List.flatten_cons]
    by_cases hm : m.id = a
    · rw [if_pos hm]
      have hrest : (rest.map (fun n => if n.id = a then [e] else [])).flatten = [] := by
        have hall : ∀ n ∈ rest, n.id ≠ a := by
          intro n hn he
          exact hnd.1 ((hm.trans he.symm) ▸ List.mem_map_of_mem Node.id hn)
        clear ih hone hnd
        induction rest with
        | nil => rfl
        | cons y ys ihy =>
          simp only [List.map_cons, List.flatten_cons, if_neg (hall y (by simp))]
          exact ihy (fun n hn => hall n (by simp [hn]))
      rw [hrest]
      rfl
    · rw [if_neg hm]
      have hone2 : ∃ n ∈ rest, n.id = a := by
        rcases hone with ⟨n, hn, hid⟩
        rcases List.mem_cons.mp hn with rfl | hn2
        · exact absurd hid hm
        · exact ⟨n, hn2, hid⟩
      simp [ih hone2 hnd.2]

/-- A successful `add_edge` inserts exactly the created edge: the stored edge
list of the result is a permutation of the old one with the new edge. -/
theorem storedEdges_add_edge (g : Graph) (hnd : (g.nodes.map Node.id).Nodup)
    (a b : String) (w : Nat) {e : Edge} (h : (g.add_edge a b w).1 = some e) :
    (storedEdges (g.add_edge a b w).2).Perm (storedEdges g ++ [e]) := by
  have hn := add_edge_nodes g a b w h
  have hsome : (g.find? a).isSome :=
    ((add_edge_isSome_iff g a b w).mp (by simp [h])).1
  obtain ⟨na, hna⟩ := Option.isSome_iff_exists.mp hsome
  obtain ⟨hmemA, hidA⟩ := find?_mem_id g a na hna
  unfold storedEdges
  rw [hn, List.map_map]
  have hmapped : g.nodes.map (Node.outgoing_edges ∘ addEdgeUpd a b e) =
      g.nodes.map (fun n => n.outgoing_edges ++ (if n.id = a then [e] else [])) := by
    apply List.map_congr_left
    intro n _
    exact addEdgeUpd_out a b e n
  rw [hmapped]
  have p1 := flatten_map_append g.nodes Node.outgoing_edges
    (fun n => if n.id = a then [e] else [])
  have p2 : (g.nodes.map (fun n => if n.id = a then [e] else [])).flatten = [e] :=
    flatten_ite_single a e g.nodes ⟨na, hmemA, hidA⟩ hnd
  rw [p2] at p1
  exact p1

/-! ## Preservation of well-formedness by the store operations -/

theorem find?_none_iff (g : Graph) (x : String) :
    g.find? x = none ↔ ∀ n ∈ g.nodes, n.id ≠ x := by
  unfold Graph.find?
  rw [List.find?_eq_none]
  simp

theorem WF.nodes_inj (hwf : WF g) {m n : Node} (hm : m ∈ g.nodes) (hn : n ∈ g.nodes)
    (h : m.id = n.id) : m = n :=
  List.inj_on_of_nodup_map hwf.nodupIds hm hn h

theorem WF.edge_from_node {g : Graph} (hwf : WF g) {e : Edge}
    (he : e ∈ storedEdges g) : g.hasNode e.from_id := by
  obtain ⟨n, hn, hen⟩ := (storedEdges_mem g e).mp he
  exact ⟨n, hn, (hwf.out_from n hn e hen).symm⟩

theorem WF.out_complete {g : Graph} (hwf : WF g) {e : Edge} (he : e ∈ storedEdges g)
    {n : Node} (hn : n ∈ g.nodes) (hid : n.id = e.from_id) : e ∈ n.outgoing_edges := by
  obtain ⟨m, hm, hem⟩ := (storedEdges_mem g e).mp he
  have : m = n := hwf.nodes_inj hm hn ((hwf.out_from m hm e hem).symm.trans hid.symm)
  exact this ▸ hem

theorem WF.empty : WF { nodes := [] } := by
  constructor <;> simp [storedEdges]

theorem storedEdges_add_node (g : Graph) (i : String) (v : Int) :
    storedEdges (g.add_node i v) = storedEdges g := by
  unfold Graph.add_node
  cases h : g.find? i with
  | some n => rfl
  | none => simp [storedEdges]

theorem add_node_mem_iff (g : Graph) (i : String) (v : Int) (hnone : g.find? i = none)
    (n : Node) :
    n ∈ (g.add_node i v).nodes ↔ n ∈ g.nodes ∨
      n = { id := i, value := v, outgoing_edges := [], incoming_edges := [] } := by
  unfold Graph.add_node
  rw [hnone]
  simp

theorem WF.add_node {g : Graph} (hwf : WF g) (i : String) (v : Int) :
    WF (g.add_node i v) := by
  cases hfind : g.find? i with
  | some n =>
    have : g.add_node i v = g := by unfold Graph.add_node; rw [hfind]
    rw [this]
    exact hwf
  | none =>
    have hfresh : ∀ n ∈ g.nodes, n.id ≠ i := (find?_none_iff g i).mp hfind
    have hnodes : (g.add_node i v).nodes =
        g.nodes ++ [{ id := i, value := v, outgoing_edges := [], incoming_edges := [] }] := by
      unfold Graph.add_node
      rw [hfind]
    have hstored := storedEdges_add_node g i v
    have hmem : ∀ n : Node, n ∈ (g.add_node i v).nodes ↔ n ∈ g.nodes ∨
        n = { id := i, value := v, outgoing_edges := [], incoming_edges := [] } :=
      add_node_mem_iff g i v hfind
    constructor
    · rw [hnodes]
      simp only [List.map_append, List.map_cons, List.map_nil]
      rw [List.nodup_append]
      refine ⟨hwf.nodupIds, by simp, ?_⟩
      intro x hx hx2
      simp only [List.mem_singleton] at hx2
      obtain ⟨n, hn, hid⟩ := List.mem_map.mp hx
      exact hfresh n hn (by rw [hid, hx2])
    · intro n hn e he
      rcases (hmem n).mp hn with h | h
      · exact hwf.out_from n h e he
      · rw [h] at he; cases he
    · intro n hn e he
      rcases (hmem n).mp hn with h | h
      · exact hwf.in_to n h e he
      · rw [h] at he; cases he
    · intro e he
      rw [hstored] at he
      obtain ⟨n, hn, hid⟩ := hwf.endpointTo e he
      exact ⟨n, (hmem n).mpr (Or.inl hn), hid⟩
    · intro n hn e he m hm hid
      rcases (hmem n).mp hn with h | h
      · rcases (hmem m).mp hm with h2 | h2
        · exact hwf.mirror_out n h e he m h2 hid
        · exfalso
          have hto : g.hasNode e.to_id := by
            apply hwf.endpointTo
            exact (storedEdges_mem g e).mpr ⟨n, h, he⟩
          obtain ⟨m2, hm2, hid2⟩ := hto
          apply hfresh m2 hm2
          rw [hid2, ← hid, h2]
      · rw [h] at he; cases he
    · intro m hm e he
      rcases (hmem m).mp hm with h | h
      · obtain ⟨n, hn, hid, hout⟩ := hwf.mirror_in m h e he
        exact ⟨n, (hmem n).mpr (Or.inl hn), hid, hout⟩
      · rw [h] at he; cases he
    · rw [hstored]
      exact hwf.pairsNodup
    · intro n hn
      rcases (hmem n).mp hn with h | h
      · exact hwf.in_nodup n h
      · rw [h]; simp
    · rw [hstored]
      exact hwf.eids

theorem add_edge_idmap (g : Graph) (a b : String) (w : Nat) :
    (g.add_edge a b w).2.nodes.map Node.id = g.nodes.map Node.id := by
  rcases h : (g.add_edge a b w).1 with _ | e
  · rw [add_edge_none_graph g a b w h]
  · rw [add_edge_nodes g a b w h, List.map_map]
    apply List.map_congr_left
    intro n _
    exact addEdgeUpd_id a b e n

theorem add_edge_hasNode (g : Graph) (a b : String) (w : Nat) (x : String) :
    (g.add_edge a b w).2.hasNode x ↔ g.hasNode x := by
  rw [hasNode_iff_map, hasNode_iff_map, add_edge_idmap]

theorem WF.add_edge {g : Graph} (hwf : WF g) (a b : String) (w : Nat) :
    WF (g.add_edge a b w).2 := by
  rcases h : (g.add_edge a b w).1 with _ | e
  · rw [add_edge_none_graph g a b w h]
    exact hwf
  · have he := add_edge_some_eq g a b w h
    have hn := add_edge_nodes g a b w h
    have hsome := (add_edge_isSome_iff g a b w).mp (by simp [h])
    have hna0 : g.hasNode a := (find?_isSome_iff g a).mp hsome.1
    have hnb0 : g.hasNode b := (find?_isSome_iff g b).mp hsome.2.1
    have hnc : ¬ connectsPair g a b := by
      intro hc
      have hT := (hasEdge_iff g hwf a b).mpr ⟨hna0, hnb0, hc⟩
      rw [hsome.2.2] at hT
      cases hT
    have efrom : e.from_id = a := by rw [he]
    have eto : e.to_id = b := by rw [he]
    obtain ⟨na, hgna, hidna⟩ := hna0
    have hperm := storedEdges_add_edge g hwf.nodupIds a b w h
    have hmemE : ∀ x : Edge, x ∈ storedEdges (g.add_edge a b w).2 ↔
        x ∈ storedEdges g ∨ x = e := by
      intro x
      rw [hperm.mem_iff]
      simp
    have hmemN : ∀ n' : Node, n' ∈ (g.add_edge a b w).2.nodes ↔
        ∃ n ∈ g.nodes, n' = addEdgeUpd a b e n := by
      intro n'
      rw [hn]
      simp only [List.mem_map]
      constructor
      · rintro ⟨n, hn2, rfl⟩; exact ⟨n, hn2, rfl⟩
      · rintro ⟨n, hn2, rfl⟩; exact ⟨n, hn2, rfl⟩
    have hEpair : ∀ x ∈ storedEdges g, ¬ pairEq x e := by
      intro x hx hp
      apply hnc
      unfold pairEq at hp
      rw [efrom, eto] at hp
      exact ⟨x, hx, hp⟩
    constructor
    · rw [hn, List.map_map]
      have : g.nodes.map (Node.id ∘ addEdgeUpd a b e) = g.nodes.map Node.id :=
        List.map_congr_left (fun n _ => addEdgeUpd_id a b e n)
      rw [this]
      exact hwf.nodupIds
    · intro n' hn' x hx
      obtain ⟨n, hgn, rfl⟩ := (hmemN n').mp hn'
      rw [addEdgeUpd_out] at hx
      rw [addEdgeUpd_id]
      rcases List.mem_append.mp hx with hold | hnew
      · exact hwf.out_from n hgn x hold
      · by_cases hid : n.id = a
        · rw [if_pos hid] at hnew
          simp only [List.mem_singleton] at hnew
          rw [hnew, efrom, hid]
        · rw [if_neg hid] at hnew
          cases hnew
    · intro n' hn' x hx
      obtain ⟨n, hgn, rfl⟩ := (hmemN n').mp hn'
      rw [addEdgeUpd_in] at hx
      rw [addEdgeUpd_id]
      rcases List.mem_append.mp hx with hold | hnew
      · exact hwf.in_to n hgn x hold
      · by_cases hid : n.id = b
        · rw [if_pos hid] at hnew
          simp only [List.mem_singleton] at hnew
          rw [hnew, eto, hid]
        · rw [if_neg hid] at hnew
          cases hnew
    · intro x hx
      rcases (hmemE x).mp hx with hold | rfl
      · exact (add_edge_hasNode g a b w x.to_id).mpr (hwf.endpointTo x hold)
      · rw [eto]
        exact (add_edge_hasNode g a b w b).mpr hnb0
    · intro n' hn' x hx m' hm' hid
      obtain ⟨n, hgn, rfl⟩ := (hmemN n').mp hn'
      obtain ⟨m, hgm, rfl⟩ := (hmemN m').mp hm'
      rw [addEdgeUpd_out] at hx
      rw [addEdgeUpd_id] at hid
      rw [addEdgeUpd_in]
      rcases List.mem_append.mp hx with hold | hnew
      · exact List.mem_append_left _ (hwf.mirror_out n hgn x hold m hgm hid)
      · by_cases hna2 : n.id = a
        · rw [if_pos hna2] at hnew
          simp only [List.mem_singleton] at hnew
          subst hnew
          have hmb : m.id = b := by rw [hid, eto]
          rw [if_pos hmb]
          exact List.mem_append_right _ (by simp)
        · rw [if_neg hna2] at hnew
          cases hnew
    · intro m' hm' x hx
      obtain ⟨m, hgm, rfl⟩ := (hmemN m').mp hm'
      rw [addEdgeUpd_in] at hx
      rcases List.mem_append.mp hx with hold | hnew
      · obtain ⟨n, hgn, hid, hout⟩ := hwf.mirror_in m hgm x hold
        refine ⟨addEdgeUpd a b e n, (hmemN _).mpr ⟨n, hgn, rfl⟩, ?_, ?_⟩
        · rw [addEdgeUpd_id, hid]
        · rw [addEdgeUpd_out]
          exact List.mem_append_left _ hout
      · by_cases hmb : m.id = b
        · rw [if_pos hmb] at hnew
          simp only [List.mem_singleton] at hnew
          refine ⟨addEdgeUpd a b e na, (hmemN _).mpr ⟨na, hgna, rfl⟩, ?_, ?_⟩
          · rw [addEdgeUpd_id, hidna, hnew, efrom]
          · rw [addEdgeUpd_out, if_pos hidna, hnew]
            exact List.mem_append_right _ (by simp)
        · rw [if_neg hmb] at hnew
          cases hnew
    · have hkeys := hperm.map pairKey
      rw [hkeys.nodup_iff]
      rw [List.map_append]
      rw [List.nodup_append]
      refine ⟨hwf.pairsNodup, by simp, ?_⟩
      intro k hk hk2
      simp only [List.map_cons, List.map_nil, List.mem_singleton] at hk2
      obtain ⟨x, hx, hkx⟩ := List.mem_map.mp hk
      apply hEpair x hx
      rw [pairEq_iff_pairKey, hkx, hk2]
    · intro n' hn'
      obtain ⟨n, hgn, rfl⟩ := (hmemN n').mp hn'
      rw [addEdgeUpd_in]
      by_cases hmb : n.id = b
      · rw [if_pos hmb]
        rw [List.nodup_append]
        refine ⟨hwf.in_nodup n hgn, by simp, ?_⟩
        intro x hx hx2
        simp only [List.mem_singleton] at hx2
        subst hx2
        obtain ⟨ m2, hm2, _, hout2⟩ := hwf.mirror_in n hgn x hx
        apply hEpair x ((storedEdges_mem g x).mpr ⟨m2, hm2, hout2⟩)
        unfold pairEq
        exact Or.inl ⟨rfl, rfl⟩
      · rw [if_neg hmb, List.append_nil]
        exact hwf.in_nodup n hgn
    · intro x hx
      rcases (hmemE x).mp hx with hold | rfl
      · exact hwf.eids x hold
      · rw [he]

/-! ## Characterization of `remove_edge` -/

theorem removeFirstTo_subset (l : List Edge) (b : String) :
    ∀ x ∈ removeFirstTo l b, x ∈ l := by
  induction l with
  | nil => intro x hx; cases hx
  | cons e rest ih =>
    intro x hx
    unfold removeFirstTo at hx
    by_cases hb : e.to_id = b
    · rw [if_pos hb] at hx
      exact List.mem_cons_of_mem e hx
    · rw [if_neg hb] at hx
      rcases List.mem_cons.mp hx with rfl | hx2
      · exact List.mem_cons_self x rest
      · exact List.mem_cons_of_mem e (ih x hx2)

theorem removeFirstFrom_subset (l : List Edge) (a : String) :
    ∀ x ∈ removeFirstFrom l a, x ∈ l := by
  induction l with
  | nil => intro x hx; cases hx
  | cons e rest ih =>
    intro x hx
    unfold removeFirstFrom at hx
    by_cases hb : e.from_id = a
    · rw [if_pos hb] at hx
      exact List.mem_cons_of_mem e hx
    · rw [if_neg hb] at hx
      rcases List.mem_cons.mp hx with rfl | hx2
      · exact List.mem_cons_self x rest
      · exact List.mem_cons_of_mem e (ih x hx2)

theorem removeFirstTo_eq_self (l : List Edge) (b : String)
    (h : ∀ e ∈ l, e.to_id ≠ b) : removeFirstTo l b = l := by
  induction l with
  | nil => rfl
  | cons e rest ih =>
    unfold removeFirstTo
    rw [if_neg (h e (by simp)), ih (fun x hx => h x (by simp [hx]))]

theorem removeFirstFrom_eq_self (l : List Edge) (a : String)
    (h : ∀ e ∈ l, e.from_id ≠ a) : removeFirstFrom l a = l := by
  induction l with
  | nil => rfl
  | cons e rest ih =>
    unfold removeFirstFrom
    rw [if_neg (h e (by simp)), ih (fun x hx => h x (by simp [hx]))]

theorem removeFirstTo_cons (e : Edge) (rest : List Edge) (b : String) :
    removeFirstTo (e :: rest) b =
      if e.to_id = b then rest else e :: removeFirstTo rest b := rfl

theorem removeFirstFrom_cons (e : Edge) (rest : List Edge) (a : String) :
    removeFirstFrom (e :: rest) a =
      if e.from_id = a then rest else e :: removeFirstFrom rest a := rfl

theorem removeFirstTo_split (X Y : List Edge) (b : String) (e : Edge)
    (hX : ∀ y ∈ X, y.to_id ≠ b) (he : e.to_id = b) :
    removeFirstTo (X ++ e :: Y) b = X ++ Y := by
  induction X with
  | nil =>
    simp only [List.nil_append]
    rw [removeFirstTo_cons, if_pos he]
  | cons x rest ih =>
    simp only [List.cons_append]
    rw [removeFirstTo_cons, if_neg (hX x (by simp)), ih (fun y hy => hX y (by simp [hy]))]

theorem removeFirstFrom_split (X Y : List Edge) (a : String) (e : Edge)
    (hX : ∀ y ∈ X, y.from_id ≠ a) (he : e.from_id = a) :
    removeFirstFrom (X ++ e :: Y) a = X ++ Y := by
  induction X with
  | nil =>
    simp only [List.nil_append]
    rw [removeFirstFrom_cons, if_pos he]
  | cons x rest ih =>
    simp only [List.cons_append]
    rw [removeFirstFrom_cons, if_neg (hX x (by simp)), ih (fun y hy => hX y (by simp [hy]))]

theorem exists_first_to (l : List Edge) (b : String) (h : ∃ e ∈ l, e.to_id = b) :
    ∃ X e0 Y, l = X ++ e0 :: Y ∧ e0.to_id = b ∧ ∀ y ∈ X, y.to_id ≠ b := by
  induction l with
  | nil => simp at h
  | cons x rest ih =>
    by_cases hx : x.to_id = b
    · exact ⟨[], x, rest, by simp, hx, by simp⟩
    · have h2 : ∃ e ∈ rest, e.to_id = b := by
        rcases h with ⟨e, he, heb⟩
        rcases List.mem_cons.mp he with rfl | he2
        · exact absurd heb hx
        · exact ⟨e, he2, heb⟩
      obtain ⟨X, e0, Y, hsplit, he0, hX⟩ := ih h2
      refine ⟨x :: X, e0, Y, by simp [hsplit], he0, ?_⟩
      intro y hy
      rcases List.mem_cons.mp hy with rfl | hy2
      · exact hx
      · exact hX y hy2

theorem exists_first_from (l : List Edge) (a : String) (h : ∃ e ∈ l, e.from_id = a) :
    ∃ X e0 Y, l = X ++ e0 :: Y ∧ e0.from_id = a ∧ ∀ y ∈ X, y.from_id ≠ a := by
  induction l with
  | nil => simp at h
  | cons x rest ih =>
    by_cases hx : x.from_id = a
    · exact ⟨[], x, rest, by simp, hx, by simp⟩
    · have h2 : ∃ e ∈ rest, e.from_id = a := by
        rcases h with ⟨e, he, heb⟩
        rcases List.mem_cons.mp he with rfl | he2
        · exact absurd heb hx
        · exact ⟨e, he2, heb⟩
      obtain ⟨X, e0, Y, hsplit, he0, hX⟩ := ih h2
      refine ⟨x :: X, e0, Y, by simp [hsplit], he0, ?_⟩
      intro y hy
      rcases List.mem_cons.mp hy with rfl | hy2
      · exact hx
      · exact hX y hy2

theorem WF.storedNodup {g : Graph} (hwf : WF g) : (storedEdges g).Nodup :=
  hwf.pairsNodup.of_map

theorem WF.pair_unique {g : Graph} (hwf : WF g) {x y : Edge}
    (hx : x ∈ storedEdges g) (hy : y ∈ storedEdges g) (h : pairEq x y) : x = y :=
  List.inj_on_of_nodup_map hwf.pairsNodup hx hy ((pairEq_iff_pairKey x y).mp h)

theorem WF.out_sublist {g : Graph} (hwf : WF g) {n : Node} (hn : n ∈ g.nodes) :
    n.outgoing_edges.Sublist (storedEdges g) := by
  clear hwf
  exact List.sublist_flatten_of_mem (List.mem_map_of_mem Node.outgoing_edges hn)

theorem WF.out_nodup {g : Graph} (hwf : WF g) {n : Node} (hn : n ∈ g.nodes) :
    n.outgoing_edges.Nodup :=
  hwf.storedNodup.sublist (hwf.out_sublist hn)

theorem updateNode_eq_self (g : Graph) (i : String) (f : Node → Node)
    (h : ∀ n ∈ g.nodes, n.id = i → f n = n) : g.updateNode i f = g := by
  unfold Graph.updateNode
  have hmap : g.nodes.map (fun n => if n.id = i then f n else n) =
      g.nodes.map (fun n => n) := by
    apply List.map_congr_left
    intro n hn
    by_cases hni : n.id = i
    · simp [hni, h n hn hni]
    · simp [hni]
  rw [hmap, List.map_id']

/-- The per-node transformation applied by `remove_edge` when both endpoints
exist: drop the first matching edge from `from_id`'s outgoing list and from
`to_id`'s incoming list. -/
def remUpd (a b : String) (n : Node) : Node :=
  (fun m => if m.id = b then
      { m with incoming_edges := removeFirstFrom m.incoming_edges a } else m)
    (if n.id = a then
      { n with outgoing_edges := removeFirstTo n.outgoing_edges b } else n)

theorem remUpd_id (a b : String) (n : Node) : (remUpd a b n).id = n.id := by
  unfold remUpd
  by_cases ha : n.id = a
  · subst ha
    by_cases hb : n.id = b
    · subst hb; simp
    · simp [hb]
  · by_cases hb : n.id = b
    · subst hb; simp [ha]
    · simp [ha, hb]

theorem remUpd_out (a b : String) (n : Node) :
    (remUpd a b n).outgoing_edges =
      if n.id = a then removeFirstTo n.outgoing_edges b else n.outgoing_edges := by
  unfold remUpd
  by_cases ha : n.id = a
  · subst ha
    by_cases hb : n.id = b
    · subst hb; simp
    · simp [hb]
  · by_cases hb : n.id = b
    · subst hb; simp [ha]
    · simp [ha, hb]

theorem remUpd_in (a b : String) (n : Node) :
    (remUpd a b n).incoming_edges =
      if n.id = b then removeFirstFrom n.incoming_edges a else n.incoming_edges := by
  unfold remUpd
  by_cases ha : n.id = a
  · subst ha
    by_cases hb : n.id = b
    · subst hb; simp
    · simp [hb]
  · by_cases hb : n.id = b
    · subst hb; simp [ha]
    · simp [ha, hb]

theorem remUpd_value (a b : String) (n : Node) : (remUpd a b n).value = n.value := by
  unfold remUpd
  by_cases ha : n.id = a
  · subst ha
    by_cases hb : n.id = b
    · subst hb; simp
    · simp [hb]
  · by_cases hb : n.id = b
    · subst hb; simp [ha]
    · simp [ha, hb]

theorem remove_edge_cases (g : Graph) (a b : String) :
    (g.remove_edge a b = g ∧
      ((g.find? a).isSome = false ∨ (g.find? b).isSome = false)) ∨
    ((g.find? a).isSome ∧ (g.find? b).isSome ∧
      (g.remove_edge a b).nodes = g.nodes.map (remUpd a b)) := by
  unfold Graph.remove_edge
  cases hfa : g.find? a with
  | none =>
    cases hfb : g.find? b with
    | none => exact Or.inl ⟨rfl, Or.inl (by simp)⟩
    | some nb => exact Or.inl ⟨rfl, Or.inl (by simp)⟩
  | some na =>
    cases hfb : g.find? b with
    | none => exact Or.inl ⟨rfl, Or.inr (by simp)⟩
    | some nb =>
      refine Or.inr ⟨by simp, by simp, ?_⟩
      unfold Graph.updateNode remUpd
      simp [List.map_map, Function.comp_def]

theorem remove_edge_idmap (g : Graph) (a b : String) :
    (g.remove_edge a b).nodes.map Node.id = g.nodes.map Node.id := by
  rcases remove_edge_cases g a b with ⟨heq, _⟩ | ⟨_, _, hn⟩
  · rw [heq]
  · rw [hn, List.map_map]
    exact List.map_congr_left (fun n _ => remUpd_id a b n)

theorem remove_edge_hasNode (g : Graph) (a b x : String) :
    (g.remove_edge a b).hasNode x ↔ g.hasNode x := by
  rw [hasNode_iff_map, hasNode_iff_map, remove_edge_idmap]

/-- Removing an edge that is not stored in the direction `a → b` leaves a
well-formed graph unchanged. -/
theorem remove_edge_no_stored (g : Graph) (hwf : WF g) (a b : String)
    (hno : ¬ ∃ e ∈ storedEdges g, e.from_id = a ∧ e.to_id = b) :
    g.remove_edge a b = g := by
  unfold Graph.remove_edge
  cases hfa : g.find? a with
  | none => rfl
  | some na =>
    cases hfb : g.find? b with
    | none => rfl
    | some nb =>
      have hup : g.updateNode a (fun n =>
          { n with outgoing_edges := removeFirstTo n.outgoing_edges b }) = g := by
        apply updateNode_eq_self
        intro m hm hmid
        have hmatch : ∀ e ∈ m.outgoing_edges, e.to_id ≠ b := by
          intro e he hto
          apply hno
          refine ⟨e, (storedEdges_mem g e).mpr ⟨m, hm, he⟩, ?_, hto⟩
          rw [hwf.out_from m hm e he, hmid]
        rw [removeFirstTo_eq_self m.outgoing_edges b hmatch]
      rw [hup]
      apply updateNode_eq_self
      intro n hn hid
      have hmatch2 : ∀ e ∈ n.incoming_edges, e.from_id ≠ a := by
        intro e he hfrom
        apply hno
        obtain ⟨m, hm, hmid, hout⟩ := hwf.mirror_in n hn e he
        refine ⟨e, (storedEdges_mem g e).mpr ⟨m, hm, hout⟩, hfrom, ?_⟩
        rw [hwf.in_to n hn e he, hid]
      rw [removeFirstFrom_eq_self n.incoming_edges a hmatch2]

/-- Membership in an outgoing list after `remove_edge`, when the stored edge
`e : a → b` exists: only that single record disappears from `a`'s list. -/
theorem remUpd_out_mem (g : Graph) (hwf : WF g) (a b : String) {e : Edge}
    (he : e ∈ storedEdges g) (hfrom : e.from_id = a) (hto : e.to_id = b)
    {n : Node} (hn : n ∈ g.nodes) (x : Edge) :
    x ∈ (remUpd a b n).outgoing_edges ↔
      x ∈ n.outgoing_edges ∧ ¬ (n.id = a ∧ x = e) := by
  rw [remUpd_out]
  by_cases ha : n.id = a
  · rw [if_pos ha]
    have hemem : e ∈ n.outgoing_edges :=
      hwf.out_complete he hn (ha.trans hfrom.symm)
    obtain ⟨X, e0, Y, hsplit, he0, hX⟩ :=
      exists_first_to n.outgoing_edges b ⟨e, hemem, hto⟩
    have he0e : e0 = e := by
      have he0mem : e0 ∈ storedEdges g := by
        refine (storedEdges_mem g e0).mpr ⟨n, hn, ?_⟩
        rw [hsplit]
        exact List.mem_append_right X (by simp)
      apply hwf.pair_unique he0mem he
      unfold pairEq
      left
      constructor
      · rw [hwf.out_from n hn e0 (by rw [hsplit]; exact List.mem_append_right X (by simp)),
          ha, hfrom]
      · rw [he0, hto]
    subst he0e
    have hnd : n.outgoing_edges.Nodup := hwf.out_nodup hn
    rw [hsplit] at hnd ⊢
    rw [removeFirstTo_split X Y b e0 hX he0]
    have hne : e0 ∉ X ∧ e0 ∉ Y := by
      rw [List.nodup_append] at hnd
      constructor
      · intro hmem
        exact hnd.2.2 hmem (by simp)
      · rcases List.nodup_cons.mp hnd.2.1 with ⟨h1, _⟩
        exact h1
    constructor
    · intro hx
      rcases List.mem_append.mp hx with h1 | h2
      · refine ⟨List.mem_append_left _ h1, ?_⟩
        rintro ⟨_, rfl⟩
        exact hne.1 h1
      · refine ⟨List.mem_append_right _ (by simp [h2]), ?_⟩
        rintro ⟨_, rfl⟩
        exact hne.2 h2
    · rintro ⟨hx, hnot⟩
      have hxe : x ≠ e0 := fun hcontra => hnot ⟨ha, hcontra⟩
      rcases List.mem_append.mp hx with h1 | h2
      · exact List.mem_append_left _ h1
      · rcases List.mem_cons.mp h2 with rfl | h3
        · exact absurd rfl hxe
        · exact List.mem_append_right _ h3
  · rw [if_neg ha]
    constructor
    · intro hx
      exact ⟨hx, fun hc => ha hc.1⟩
    · intro hx
      exact hx.1

/-- Membership in an incoming list after `remove_edge`, when the stored edge
`e : a → b` exists: only its mirror occurrence disappears from `b`'s list. -/
theorem remUpd_in_mem (g : Graph) (hwf : WF g) (a b : String) {e : Edge}
    (he : e ∈ storedEdges g) (hfrom : e.from_id = a) (hto : e.to_id = b)
    {n : Node} (hn : n ∈ g.nodes) (x : Edge) :
    x ∈ (remUpd a b n).incoming_edges ↔
      x ∈ n.incoming_edges ∧ ¬ (n.id = b ∧ x = e) := by
  rw [remUpd_in]
  by_cases hb : n.id = b
  · rw [if_pos hb]
    have hemem : e ∈ n.incoming_edges := by
      obtain ⟨m, hm, hout⟩ := (storedEdges_mem g e).mp he
      exact hwf.mirror_out m hm e hout n hn (hb.trans hto.symm)
    obtain ⟨X, e0, Y, hsplit, he0, hX⟩ :=
      exists_first_from n.incoming_edges a ⟨e, hemem, hfrom⟩
    have he0mem2 : e0 ∈ n.incoming_edges := by
      rw [hsplit]
      exact List.mem_append_right X (by simp)
    have he0e : e0 = e := by
      obtain ⟨m, hm, hmid, hout⟩ := hwf.mirror_in n hn e0 he0mem2
      have he0mem : e0 ∈ storedEdges g := (storedEdges_mem g e0).mpr ⟨m, hm, hout⟩
      apply hwf.pair_unique he0mem he
      unfold pairEq
      left
      constructor
      · rw [he0, hfrom]
      · rw [hwf.in_to n hn e0 he0mem2, hb, hto]
    subst he0e
    have hnd : n.incoming_edges.Nodup := hwf.in_nodup n hn
    rw [hsplit] at hnd ⊢
    rw [removeFirstFrom_split X Y a e0 hX he0]
    have hne : e0 ∉ X ∧ e0 ∉ Y := by
      rw [List.nodup_append] at hnd
      constructor
      · intro hmem
        exact hnd.2.2 hmem (by simp)
      · rcases List.nodup_cons.mp hnd.2.1 with ⟨h1, _⟩
        exact h1
    constructor
    · intro hx
      rcases List.mem_append.mp hx with h1 | h2
      · refine ⟨List.mem_append_left _ h1, ?_⟩
        rintro ⟨_, rfl⟩
        exact hne.1 h1
      · refine ⟨List.mem_append_right _ (by simp [h2]), ?_⟩
        rintro ⟨_, rfl⟩
        exact hne.2 h2
    · rintro ⟨hx, hnot⟩
      have hxe : x ≠ e0 := fun hcontra => hnot ⟨hb, hcontra⟩
      rcases List.mem_append.mp hx with h1 | h2
      · exact List.mem_append_left _ h1
      · rcases List.mem_cons.mp h2 with rfl | h3
        · exact absurd rfl hxe
        · exact List.mem_append_right _ h3
  · rw [if_neg hb]
    constructor
    · intro hx
      exact ⟨hx, fun hc => hb hc.1⟩
    · intro hx
      exact hx.1

theorem removeFirstTo_sublist (l : List Edge) (b : String) :
    (removeFirstTo l b).Sublist l := by
  induction l with
  | nil => simp [removeFirstTo]
  | cons e rest ih =>
    rw [removeFirstTo_cons]
    by_cases hb : e.to_id = b
    · rw [if_pos hb]
      exact List.Sublist.cons e (List.Sublist.refl rest)
    · rw [if_neg hb]
      exact List.Sublist.cons₂ e ih

theorem removeFirstFrom_sublist (l : List Edge) (a : String) :
    (removeFirstFrom l a).Sublist l := by
  induction l with
  | nil => simp [removeFirstFrom]
  | cons e rest ih =>
    rw [removeFirstFrom_cons]
    by_cases hb : e.from_id = a
    · rw [if_pos hb]
      exact List.Sublist.cons e (List.Sublist.refl rest)
    · rw [if_neg hb]
      exact List.Sublist.cons₂ e ih

/-- Splitting the outgoing list of the `a` node around the unique stored edge
`a → b`. -/
theorem a_out_split (g : Graph) (hwf : WF g) (a b : String) {e : Edge}
    (he : e ∈ storedEdges g) (hfrom : e.from_id = a) (hto : e.to_id = b)
    {na : Node} (hna : na ∈ g.nodes) (hid : na.id = a) :
    ∃ X Y, na.outgoing_edges = X ++ e :: Y ∧ (∀ y ∈ X, y.to_id ≠ b) ∧
      removeFirstTo na.outgoing_edges b = X ++ Y := by
  have hemem : e ∈ na.outgoing_edges := hwf.out_complete he hna (hid.trans hfrom.symm)
  obtain ⟨X, e0, Y, hsplit, he0, hX⟩ :=
    exists_first_to na.outgoing_edges b ⟨e, hemem, hto⟩
  have he0mem2 : e0 ∈ na.outgoing_edges := by
    rw [hsplit]
    exact List.mem_append_right X (by simp)
  have he0e : e0 = e := by
    have he0mem : e0 ∈ storedEdges g := (storedEdges_mem g e0).mpr ⟨na, hna, he0mem2⟩
    apply hwf.pair_unique he0mem he
    unfold pairEq
    left
    exact ⟨by rw [hwf.out_from na hna e0 he0mem2, hid, hfrom], by rw [he0, hto]⟩
  subst he0e
  exact ⟨X, Y, hsplit, hX, by rw [hsplit, removeFirstTo_split X Y b e0 hX he0]⟩

/-- A `remove_edge` hitting a stored edge deletes exactly that record from the
stored edge list, up to permutation. -/
theorem storedEdges_remove_edge (g : Graph) (hwf : WF g) (a b : String) {e : Edge}
    (he : e ∈ storedEdges g) (hfrom : e.from_id = a) (hto : e.to_id = b) :
    (e :: storedEdges (g.remove_edge a b)).Perm (storedEdges g) := by
  have hna : g.hasNode a := hfrom ▸ hwf.edge_from_node he
  have hnb : g.hasNode b := hto ▸ hwf.endpointTo e he
  have hfa := (find?_isSome_iff g a).mpr hna
  have hfb := (find?_isSome_iff g b).mpr hnb
  rcases remove_edge_cases g a b with ⟨_, hbad⟩ | ⟨_, _, hn⟩
  · rcases hbad with h | h
    · rw [hfa] at h; cases h
    · rw [hfb] at h; cases h
  · obtain ⟨na, hfna⟩ := Option.isSome_iff_exists.mp hfa
    obtain ⟨hmemA, hidA⟩ := find?_mem_id g a na hfna
    obtain ⟨A, B, hAB, hAne, hBne⟩ := nodes_decomp g hwf.nodupIds hfna
    obtain ⟨X, Y, hsplit, hX, hrem⟩ :=
      a_out_split g hwf a b he hfrom hto hmemA hidA
    have hmapA : A.map (fun n => (remUpd a b n).outgoing_edges) =
        A.map Node.outgoing_edges := by
      apply List.map_congr_left
      intro n hnn
      rw [remUpd_out, if_neg (hAne n hnn)]
    have hmapB : B.map (fun n => (remUpd a b n).outgoing_edges) =
        B.map Node.outgoing_edges := by
      apply List.map_congr_left
      intro n hnn
      rw [remUpd_out, if_neg (hBne n hnn)]
    have hs2 : storedEdges (g.remove_edge a b) =
        (A.map Node.outgoing_edges).flatten ++ (X ++ Y) ++
          (B.map Node.outgoing_edges).flatten := by
      unfold storedEdges
      rw [hn, List.map_map]
      have : g.nodes.map (Node.outgoing_edges ∘ remUpd a b) =
          g.nodes.map (fun n => (remUpd a b n).outgoing_edges) := rfl
      rw [this, hAB, List.map_append, List.map_cons, hmapA, hmapB,
        List.flatten_append, List.flatten_cons]
      rw [remUpd_out, if_pos hidA, hrem]
      simp [List.append_assoc]
    have hs1 : storedEdges g =
        (A.map Node.outgoing_edges).flatten ++ (X ++ e :: Y) ++
          (B.map Node.outgoing_edges).flatten := by
      unfold storedEdges
      rw [hAB, List.map_append, List.map_cons, List.flatten_append, List.flatten_cons,
        hsplit]
      simp [List.append_assoc]
    rw [hs1, hs2]
    have hmid : ((((A.map Node.outgoing_edges).flatten ++ X) ++
          e :: (Y ++ (B.map Node.outgoing_edges).flatten))).Perm
        (e :: (((A.map Node.outgoing_edges).flatten ++ X) ++
          (Y ++ (B.map Node.outgoing_edges).flatten))) := List.perm_middle
    simp only [List.append_assoc] at hmid ⊢
    exact hmid.symm

theorem WF.remove_edge {g : Graph} (hwf : WF g) (a b : String) :
    WF (g.remove_edge a b) := by
  by_cases hex : ∃ e ∈ storedEdges g, e.from_id = a ∧ e.to_id = b
  · obtain ⟨e, he, hfrom, hto⟩ := hex
    have hna : g.hasNode a := hfrom ▸ hwf.edge_from_node he
    have hnb : g.hasNode b := hto ▸ hwf.endpointTo e he
    have hfa := (find?_isSome_iff g a).mpr hna
    have hfb := (find?_isSome_iff g b).mpr hnb
    rcases remove_edge_cases g a b with ⟨_, hbad⟩ | ⟨_, _, hn⟩
    · rcases hbad with h | h
      · rw [hfa] at h; cases h
      · rw [hfb] at h; cases h
    · have hperm := storedEdges_remove_edge g hwf a b he hfrom hto
      have hmemN : ∀ n' : Node, n' ∈ (g.remove_edge a b).nodes ↔
          ∃ n ∈ g.nodes, n' = remUpd a b n := by
        intro n'
        rw [hn]
        simp only [List.mem_map]
        constructor
        · rintro ⟨n, hn2, rfl⟩; exact ⟨n, hn2, rfl⟩
        · rintro ⟨n, hn2, rfl⟩; exact ⟨n, hn2, rfl⟩
      have hsub : ∀ x : Edge, x ∈ storedEdges (g.remove_edge a b) → x ∈ storedEdges g := by
        intro x hx
        exact hperm.mem_iff.mp (List.mem_cons_of_mem e hx)
      constructor
      · rw [hn, List.map_map]
        have : g.nodes.map (Node.id ∘ remUpd a b) = g.nodes.map Node.id :=
          List.map_congr_left (fun n _ => remUpd_id a b n)
        rw [this]
        exact hwf.nodupIds
      · intro n' hn' x hx
        obtain ⟨n, hgn, rfl⟩ := (hmemN n').mp hn'
        rw [remUpd_id]
        have := (remUpd_out_mem g hwf a b he hfrom hto hgn x).mp hx
        exact hwf.out_from n hgn x this.1
      · intro n' hn' x hx
        obtain ⟨n, hgn, rfl⟩ := (hmemN n').mp hn'
        rw [remUpd_id]
        have := (remUpd_in_mem g hwf a b he hfrom hto hgn x).mp hx
        exact hwf.in_to n hgn x this.1
      · intro x hx
        exact (remove_edge_hasNode g a b x.to_id).mpr (hwf.endpointTo x (hsub x hx))
      · intro n' hn' x hx m' hm' hid
        obtain ⟨n, hgn, rfl⟩ := (hmemN n').mp hn'
        obtain ⟨m, hgm, rfl⟩ := (hmemN m').mp hm'
        rw [remUpd_id] at hid
        obtain ⟨hxout, hxnot⟩ := (remUpd_out_mem g hwf a b he hfrom hto hgn x).mp hx
        have hxe : x ≠ e := by
          intro hcontra
          subst hcontra
          exact hxnot ⟨by rw [← hwf.out_from n hgn x hxout, hfrom], rfl⟩
        rw [remUpd_in_mem g hwf a b he hfrom hto hgm x]
        refine ⟨hwf.mirror_out n hgn x hxout m hgm hid, ?_⟩
        rintro ⟨_, hcontra⟩
        exact hxe hcontra
      · intro m' hm' x hx
        obtain ⟨m, hgm, rfl⟩ := (hmemN m').mp hm'
        obtain ⟨hxin, hxnot⟩ := (remUpd_in_mem g hwf a b he hfrom hto hgm x).mp hx
        have hxe : x ≠ e := by
          intro hcontra
          subst hcontra
          exact hxnot ⟨by rw [← hwf.in_to m hgm x hxin, hto], rfl⟩
        obtain ⟨n, hgn, hid, hout⟩ := hwf.mirror_in m hgm x hxin
        refine ⟨remUpd a b n, (hmemN _).mpr ⟨n, hgn, rfl⟩, by rw [remUpd_id, hid], ?_⟩
        rw [remUpd_out_mem g hwf a b he hfrom hto hgn x]
        exact ⟨hout, fun hc => hxe hc.2⟩
      · have hk := hperm.map pairKey
        have : (pairKey e :: (storedEdges (g.remove_edge a b)).map pairKey).Nodup := by
          rw [List.map_cons] at hk
          exact hk.nodup_iff.mpr hwf.pairsNodup
        exact (List.nodup_cons.mp this).2
      · intro n' hn'
        obtain ⟨n, hgn, rfl⟩ := (hmemN n').mp hn'
        rw [remUpd_in]
        by_cases hb2 : n.id = b
        · rw [if_pos hb2]
          exact (hwf.in_nodup n hgn).sublist (removeFirstFrom_sublist n.incoming_edges a)
        · rw [if_neg hb2]
          exact hwf.in_nodup n hgn
      · intro x hx
        exact hwf.eids x (hsub x hx)
  · rw [remove_edge_no_stored g hwf a b hex]
    exact hwf

theorem find?_map_graph (g : Graph) (f : Node → Node)
    (hpres : ∀ n, (f n).id = n.id) (x : String) :
    Graph.find? { nodes := g.nodes.map f } x = (g.find? x).map f := by
  unfold Graph.find?
  induction g.nodes with
  | nil => rfl
  | cons n rest ih =>
    simp only [List.map_cons]
    have hsame : decide ((f n).id = x) = decide (n.id = x) := by rw [hpres n]
    rw [List.find?_cons, List.find?_cons, hsame]
    cases hd : decide (n.id = x) with
    | true => simp
    | false => simpa using ih

theorem add_edge_find? (g : Graph) (a b : String) (w : Nat) {e : Edge}
    (h : (g.add_edge a b w).1 = some e) (x : String) :
    (g.add_edge a b w).2.find? x = (g.find? x).map (addEdgeUpd a b e) := by
  have hn := add_edge_nodes g a b w h
  have h2 : (g.add_edge a b w).2 = { nodes := g.nodes.map (addEdgeUpd a b e) } := by
    rw [← hn]
  rw [h2]
  exact find?_map_graph g (addEdgeUpd a b e) (addEdgeUpd_id a b e) x

/-- C4: `add_edge(from, to, weight)` returns null exactly when an endpoint is
missing or the unordered pair `{from, to}` is already connected in either
stored direction, leaving the graph unchanged; on success it creates exactly
one edge carrying the given weight, appended at the tail of `from`'s outgoing
list and at the tail of `to`'s incoming list, leaving every other node and the
relative order of all previously inserted edges unchanged, and returns it. -/
theorem C4_add_edge_spec (g : Graph) (hwf : WF g) (a b : String) (w : Nat) :
    ((g.add_edge a b w).1 = none ↔
      (¬ g.hasNode a ∨ ¬ g.hasNode b ∨ connectsPair g a b)) ∧
    ((g.add_edge a b w).1 = none → (g.add_edge a b w).2 = g) ∧
    (∀ e, (g.add_edge a b w).1 = some e →
      e.from_id = a ∧ e.to_id = b ∧ e.data = w ∧
      (g.add_edge a b w).2.nodes.map Node.id = g.nodes.map Node.id ∧
      (∀ x n', (g.add_edge a b w).2.find? x = some n' →
        ∃ n, g.find? x = some n ∧ n'.id = n.id ∧ n'.value = n.value ∧
          n'.outgoing_edges = n.outgoing_edges ++ (if x = a then [e] else []) ∧
          n'.incoming_edges = n.incoming_edges ++ (if x = b then [e] else []))) := by
  refine ⟨?_, add_edge_none_graph g a b w, ?_⟩
  · have h1 := add_edge_isSome_iff g a b w
    have h2 := hasEdge_iff g hwf a b
    rw [find?_isSome_iff, find?_isSome_iff] at h1
    constructor
    · intro hnone
      have : ¬ (g.add_edge a b w).1.isSome = true := by simp [hnone]
      rw [h1] at this
      by_cases hA : g.hasNode a
      · by_cases hB : g.hasNode b
        · right; right
          have hedge : g.hasEdge a b = true := by
            by_cases hE : g.hasEdge a b = true
            · exact hE
            · exact absurd ⟨by simp [hA], by simp [hB],
                by simpa using hE⟩ this
          exact (h2.mp hedge).2.2
        · exact Or.inr (Or.inl hB)
      · exact Or.inl hA
    · intro hc
      cases hnone : (g.add_edge a b w).1 with
      | none => rfl
      | some e =>
        exfalso
        have hs := h1.mp (by simp [hnone])
        rcases hc with h | h | h
        · exact h hs.1
        · exact h hs.2.1
        · have : g.hasEdge a b = true := h2.mpr ⟨hs.1, hs.2.1, h⟩
          rw [hs.2.2] at this
          cases this
  · intro e he
    have heq := add_edge_some_eq g a b w he
    refine ⟨by rw [heq], by rw [heq], by rw [heq], add_edge_idmap g a b w, ?_⟩
    intro x n' hn'
    rw [add_edge_find? g a b w he x] at hn'
    cases hfx : g.find? x with
    | none => rw [hfx] at hn'; cases hn'
    | some n =>
      rw [hfx] at hn'
      rw [Option.map_some'] at hn'
      have hnx : n.id = x := (find?_mem_id g x n hfx).2
      cases hn'
      refine ⟨n, rfl, addEdgeUpd_id a b e n, addEdgeUpd_value a b e n, ?_, ?_⟩
      · rw [addEdgeUpd_out, hnx]
      · rw [addEdgeUpd_in, hnx]

/-- C9: the permissive graph-store mutators are no-ops on invalid input:
re-adding an existing node id leaves the graph (hence that node's stored value
and edge lists) unchanged, and `remove_edge` on a missing endpoint or on a
pair with no stored `a → b` edge leaves the entire graph unchanged. -/
theorem C9_permissive_noops (g : Graph) (hwf : WF g) :
    (∀ i v, g.hasNode i → g.add_node i v = g) ∧
    (∀ a b, (¬ g.hasNode a ∨ ¬ g.hasNode b) → g.remove_edge a b = g) ∧
    (∀ a b, ¬ (∃ e ∈ storedEdges g, e.from_id = a ∧ e.to_id = b) →
      g.remove_edge a b = g) := by
  refine ⟨?_, ?_, fun a b h => remove_edge_no_stored g hwf a b h⟩
  · intro i v hi
    unfold Graph.add_node
    have : (g.find? i).isSome := (find?_isSome_iff g i).mpr hi
    obtain ⟨n, hn⟩ := Option.isSome_iff_exists.mp this
    rw [hn]
  · intro a b h
    rcases remove_edge_cases g a b with ⟨heq, _⟩ | ⟨hfa, hfb, _⟩
    · exact heq
    · exfalso
      rcases h with h | h
      · exact h ((find?_isSome_iff g a).mp hfa)
      · exact h ((find?_isSome_iff g b).mp hfb)

/-- C10: edge removal is direction-sensitive although existence is undirected:
when the only edge connecting distinct `a` and `b` is stored as `a → b`,
`remove_edge(b, a)` leaves the whole graph (hence every outgoing and incoming
list) unchanged while `hasEdge` keeps reporting the pair in both orders, and
`remove_edge(a, b)` genuinely disconnects the pair. -/
theorem C10_remove_edge_direction (g : Graph) (hwf : WF g) (a b : String)
    (hne : a ≠ b) {e : Edge} (he : e ∈ storedEdges g)
    (hfrom : e.from_id = a) (hto : e.to_id = b) :
    g.remove_edge b a = g ∧
    g.hasEdge a b = true ∧ g.hasEdge b a = true ∧
    ¬ connectsPair (g.remove_edge a b) a b := by
  have hna : g.hasNode a := hfrom ▸ hwf.edge_from_node he
  have hnb : g.hasNode b := hto ▸ hwf.endpointTo e he
  have hconn : connectsPair g a b := ⟨e, he, Or.inl ⟨hfrom, hto⟩⟩
  refine ⟨?_, ?_, ?_, ?_⟩
  · apply remove_edge_no_stored g hwf b a
    rintro ⟨y, hy, hyfrom, hyto⟩
    have : y = e := by
      apply hwf.pair_unique hy he
      unfold pairEq
      right
      exact ⟨by rw [hyfrom, hto], by rw [hyto, hfrom]⟩
    rw [this] at hyfrom
    exact hne (hfrom.symm.trans hyfrom)
  · exact (hasEdge_iff g hwf a b).mpr ⟨hna, hnb, hconn⟩
  · exact (hasEdge_iff g hwf b a).mpr ⟨hnb, hna, (connectsPair_comm g a b).mp hconn⟩
  · rintro ⟨y, hy, hpair⟩
    have hperm := storedEdges_remove_edge g hwf a b he hfrom hto
    have hyg : y ∈ storedEdges g := hperm.mem_iff.mp (List.mem_cons_of_mem e hy)
    have hye : y = e := by
      apply hwf.pair_unique hyg he
      unfold pairEq
      rcases hpair with ⟨h1, h2⟩ | ⟨h1, h2⟩
      · exact Or.inl ⟨by rw [h1, hfrom], by rw [h2, hto]⟩
      · exact Or.inr ⟨by rw [h1, hto], by rw [h2, hfrom]⟩
    have hnodup : (e :: storedEdges (g.remove_edge a b)).Nodup :=
      hperm.nodup_iff.mpr hwf.storedNodup
    rw [hye] at hy
    exact (List.nodup_cons.mp hnodup).1 hy

/-! ## Concrete witness graph -/

/-- Three nodes `a`, `b`, `c` and a single edge `a → b` of weight 2. -/
def gw1 : Graph :=
  (((((Graph.mk []).add_node "a" 1).add_node "b" 2).add_node "c" 3).add_edge "a" "b" 2).2

theorem gw1_wf : WF gw1 :=
  (((WF.empty.add_node "a" 1).add_node "b" 2).add_node "c" 3).add_edge "a" "b" 2

theorem C4_add_edge_spec_witness :
    (gw1.add_edge "b" "c" 5).1 = none ↔
      (¬ gw1.hasNode "b" ∨ ¬ gw1.hasNode "c" ∨ connectsPair gw1 "b" "c") :=
  (C4_add_edge_spec gw1 gw1_wf "b" "c" 5).1

theorem C9_permissive_noops_witness :
    gw1.add_node "a" 9 = gw1 ∧ gw1.remove_edge "b" "a" = gw1 :=
  ⟨(C9_permissive_noops gw1 gw1_wf).1 "a" 9 (by decide),
   (C9_permissive_noops gw1 gw1_wf).2.2 "b" "a" (by decide)⟩

theorem C10_remove_edge_direction_witness :
    gw1.remove_edge "b" "a" = gw1 ∧
    gw1.hasEdge "a" "b" = true ∧ gw1.hasEdge "b" "a" = true ∧
    ¬ connectsPair (gw1.remove_edge "a" "b") "a" "b" :=
  C10_remove_edge_direction gw1 gw1_wf "a" "b" (by decide)
    (show ({ from_id := "a", to_id := "b", data := 2, id := "a-b" } : Edge) ∈
        storedEdges gw1 by decide)
    rfl rfl

/-! ## Edge-id injectivity and `get_all_edges` -/

/-- A string with no hyphen character; edge-id joins of such strings split
unambiguously. -/
def hyphenFree (s : String) : Prop := ('-' : Char) ∉ s.data

instance (s : String) : Decidable (hyphenFree s) := by
  unfold hyphenFree; infer_instance

theorem append_hyphen_inj (a : List Char) (c : List Char) (b d : List Char)
    (ha : ('-' : Char) ∉ a) (hc : ('-' : Char) ∉ c)
    (h : a ++ '-' :: b = c ++ '-' :: d) : a = c ∧ b = d := by
  induction a generalizing c with
  | nil =>
    cases c with
    | nil => simpa using h
    | cons x xs =>
      simp only [List.nil_append, List.cons_append, List.cons.injEq] at h
      exact absurd (h.1 ▸ List.mem_cons_self x xs) hc
  | cons x xs ih =>
    cases c with
    | nil =>
      simp only [List.cons_append, List.nil_append, List.cons.injEq] at h
      exact absurd (h.1 ▸ List.mem_cons_self x xs) ha
    | cons y ys =>
      simp only [List.cons_append, List.cons.injEq] at h
      have hx : ('-' : Char) ∉ xs := fun hm => ha (List.mem_cons_of_mem x hm)
      have hy : ('-' : Char) ∉ ys := fun hm => hc (List.mem_cons_of_mem y hm)
      obtain ⟨h1, h2⟩ := ih ys hx hy h.2
      exact ⟨by rw [h.1, h1], h2⟩

theorem string_glue_inj (x1 y1 x2 y2 : String) (h1 : hyphenFree x1) (h2 : hyphenFree x2)
    (h : x1 ++ "-" ++ y1 = x2 ++ "-" ++ y2) : x1 = x2 ∧ y1 = y2 := by
  have hd : x1.data ++ '-' :: y1.data = x2.data ++ '-' :: y2.data := by
    have := congrArg String.data h
    simpa [String.data_append] using this
  obtain ⟨ha, hb⟩ := append_hyphen_inj x1.data x2.data y1.data y2.data h1 h2 hd
  exact ⟨String.ext ha, String.ext hb⟩

theorem getEdgeId_inj (a b c d : String) (h1 : hyphenFree a) (h2 : hyphenFree b)
    (h3 : hyphenFree c) (h4 : hyphenFree d)
    (h : getEdgeId a b = getEdgeId c d) : sortPair a b = sortPair c d := by
  rw [getEdgeId_eq_sortPair, getEdgeId_eq_sortPair] at h
  have hp1 : hyphenFree (sortPair a b).1 := by
    unfold sortPair
    split
    · exact h1
    · exact h2
  have hp2 : hyphenFree (sortPair c d).1 := by
    unfold sortPair
    split
    · exact h3
    · exact h4
  obtain ⟨hx, hy⟩ := string_glue_inj _ _ _ _ hp1 hp2 h
  exact Prod.ext hx hy

theorem dedupById_eq_self (l : List Edge) (seen : List String)
    (hnd : (l.map Edge.id).Nodup) (hseen : ∀ e ∈ l, e.id ∉ seen) :
    dedupById l seen = l := by
  induction l generalizing seen with
  | nil => rfl
  | cons e rest ih =>
    unfold dedupById
    rw [if_neg (hseen e (by simp))]
    simp only [List.map_cons, List.nodup_cons] at hnd
    rw [ih (e.id :: seen) hnd.2]
    intro x hx
    simp only [List.mem_cons]
    rintro (hxe | hxs)
    · exact hnd.1 (hxe ▸ List.mem_map_of_mem Edge.id hx)
    · exact hseen x (by simp [hx]) hxs

/-- All node ids of `g` are hyphen-free. -/
def cleanIds (g : Graph) : Prop := ∀ n ∈ g.nodes, hyphenFree n.id

/-- In a well-formed graph with hyphen-free node ids, the stored edge ids are
pairwise distinct, so the dedup pass of `get_all_edges` removes nothing. -/
theorem edgeIds_nodup {g : Graph} (hwf : WF g) (hclean : cleanIds g) :
    ((storedEdges g).map Edge.id).Nodup := by
  have hedge_clean : ∀ e ∈ storedEdges g, hyphenFree e.from_id ∧ hyphenFree e.to_id := by
    intro e he
    obtain ⟨n1, hn1, hid1⟩ := hwf.edge_from_node he
    obtain ⟨n2, hn2, hid2⟩ := hwf.endpointTo e he
    exact ⟨hid1 ▸ hclean n1 hn1, hid2 ▸ hclean n2 hn2⟩
  have hmap : (storedEdges g).map Edge.id =
      ((storedEdges g).map pairKey).map (fun p => p.1 ++ "-" ++ p.2) := by
    rw [List.map_map]
    apply List.map_congr_left
    intro e he
    rw [hwf.eids e he, getEdgeId_eq_sortPair]
    simp only [Function.comp_apply, pairKey_def]
  rw [hmap]
  apply List.Nodup.map_on _ hwf.pairsNodup
  intro p hp q hq hpq
  obtain ⟨e1, he1, hk1⟩ := List.mem_map.mp hp
  obtain ⟨e2, he2, hk2⟩ := List.mem_map.mp hq
  have hc1 := hedge_clean e1 he1
  have hc2 := hedge_clean e2 he2
  have hp1 : hyphenFree p.1 := by
    rw [← hk1, pairKey_def]
    unfold sortPair
    split
    · exact hc1.1
    · exact hc1.2
  have hq1 : hyphenFree q.1 := by
    rw [← hk2, pairKey_def]
    unfold sortPair
    split
    · exact hc2.1
    · exact hc2.2
  obtain ⟨ha, hb⟩ := string_glue_inj p.1 p.2 q.1 q.2 hp1 hq1 hpq
  exact Prod.ext ha hb

theorem get_all_edges_eq {g : Graph} (hwf : WF g) (hclean : cleanIds g) :
    g.get_all_edges = storedEdges g := by
  unfold Graph.get_all_edges
  exact dedupById_eq_self (storedEdges g) [] (edgeIds_nodup hwf hclean) (by simp)

/-! ## Call traces over the graph store -/

/-- One call of the graph-store mutator API. -/
inductive Op where
  | addN (node_id : String) (value : Int)
  | addE (from_id to_id : String) (weight : Nat)
  | remE (from_id to_id : String)
deriving DecidableEq, Repr

/-- Execute one call. -/
def applyOp (g : Graph) : Op → Graph
  | .addN i v => g.add_node i v
  | .addE a b w => (g.add_edge a b w).2
  | .remE a b => g.remove_edge a b

/-- Execute a trace of calls against the empty store. -/
def runOps (ops : List Op) : Graph := ops.foldl applyOp (Graph.mk [])

/-- `remove_edge(a, b)` actually removes an edge exactly when an edge stored
in the direction `a → b` is present. -/
def remHits (g : Graph) (a b : String) : Bool :=
  (storedEdges g).any (fun e => e.from_id = a ∧ e.to_id = b)

/-- Contribution of one call to the count of successful `add_edge` calls. -/
def opAddHit (g : Graph) : Op → Nat
  | .addE a b w => if (g.add_edge a b w).1.isSome then 1 else 0
  | _ => 0

/-- Contribution of one call to the count of effective `remove_edge` calls. -/
def opRemHit (g : Graph) : Op → Nat
  | .remE a b => if remHits g a b then 1 else 0
  | _ => 0

/-- Number of `add_edge` calls of the trace that return a created edge. -/
def countAdds (g : Graph) : List Op → Nat
  | [] => 0
  | op :: rest => opAddHit g op + countAdds (applyOp g op) rest

/-- Number of `remove_edge` calls of the trace that actually remove an edge. -/
def countRems (g : Graph) : List Op → Nat
  | [] => 0
  | op :: rest => opRemHit g op + countRems (applyOp g op) rest

theorem applyOp_addN (g : Graph) (i : String) (v : Int) :
    applyOp g (.addN i v) = g.add_node i v := rfl

theorem applyOp_addE (g : Graph) (a b : String) (w : Nat) :
    applyOp g (.addE a b w) = (g.add_edge a b w).2 := rfl

theorem applyOp_remE (g : Graph) (a b : String) :
    applyOp g (.remE a b) = g.remove_edge a b := rfl

theorem countAdds_cons (g : Graph) (op : Op) (rest : List Op) :
    countAdds g (op :: rest) = opAddHit g op + countAdds (applyOp g op) rest := rfl

theorem countRems_cons (g : Graph) (op : Op) (rest : List Op) :
    countRems g (op :: rest) = opRemHit g op + countRems (applyOp g op) rest := rfl

/-- The node ids an operation can introduce are hyphen-free. -/
def opClean : Op → Prop
  | .addN i _ => hyphenFree i
  | _ => True

instance (op : Op) : Decidable (opClean op) := by
  cases op with
  | addN i v => unfold opClean; infer_instance
  | addE a b w => unfold opClean; infer_instance
  | remE a b => unfold opClean; infer_instance

theorem WF.applyOp {g : Graph} (hwf : WF g) (op : Op) : WF (applyOp g op) := by
  cases op with
  | addN i v => exact hwf.add_node i v
  | addE a b w => exact hwf.add_edge a b w
  | remE a b => exact hwf.remove_edge a b

theorem cleanIds_applyOp {g : Graph} (hc : cleanIds g) (op : Op) (hop : opClean op) :
    cleanIds (applyOp g op) := by
  cases op with
  | addN i v =>
    intro n hn
    rw [applyOp_addN] at hn
    unfold Graph.add_node at hn
    cases hf : g.find? i with
    | some m => rw [hf] at hn; exact hc n hn
    | none =>
      rw [hf] at hn
      simp only [List.mem_append, List.mem_singleton] at hn
      rcases hn with h | h
      · exact hc n h
      · rw [h]
        exact hop
  | addE a b w =>
    intro n hn
    have hmap := add_edge_idmap g a b w
    have : n.id ∈ g.nodes.map Node.id := by
      rw [← hmap]
      exact List.mem_map_of_mem Node.id hn
    obtain ⟨m, hm, hid⟩ := List.mem_map.mp this
    rw [← hid]
    exact hc m hm
  | remE a b =>
    intro n hn
    have hmap := remove_edge_idmap g a b
    have : n.id ∈ g.nodes.map Node.id := by
      rw [← hmap]
      exact List.mem_map_of_mem Node.id hn
    obtain ⟨m, hm, hid⟩ := List.mem_map.mp this
    rw [← hid]
    exact hc m hm

theorem count_balance (ops : List Op) (g : Graph) (hwf : WF g) :
    countAdds g ops + (storedEdges g).length =
      countRems g ops + (storedEdges (ops.foldl applyOp g)).length := by
  induction ops generalizing g with
  | nil => simp [countAdds, countRems]
  | cons op rest ih =>
    have ihg := ih (applyOp g op) (hwf.applyOp op)
    rw [countAdds_cons, countRems_cons, List.foldl_cons]
    cases op with
    | addN i v =>
      have hst : storedEdges (applyOp g (.addN i v)) = storedEdges g := by
        rw [applyOp_addN]
        exact storedEdges_add_node g i v
      have h1 : opAddHit g (.addN i v) = 0 := rfl
      have h2 : opRemHit g (.addN i v) = 0 := rfl
      rw [hst] at ihg
      rw [h1, h2]
      omega
    | addE a b w =>
      have h2 : opRemHit g (.addE a b w) = 0 := rfl
      rw [h2]
      by_cases hs : (g.add_edge a b w).1.isSome
      · obtain ⟨e, he⟩ := Option.isSome_iff_exists.mp hs
        have hperm := storedEdges_add_edge g hwf.nodupIds a b w he
        have hlen : (storedEdges (applyOp g (.addE a b w))).length =
            (storedEdges g).length + 1 := by
          rw [applyOp_addE, hperm.length_eq]
          simp
        have h1 : opAddHit g (.addE a b w) = 1 := by
          simp [opAddHit, hs]
        rw [h1]
        omega
      · have hnone : (g.add_edge a b w).1 = none := by
          cases h : (g.add_edge a b w).1 with
          | none => rfl
          | some e => rw [h] at hs; simp at hs
        have hst : applyOp g (.addE a b w) = g := by
          rw [applyOp_addE]
          exact add_edge_none_graph g a b w hnone
        have h1 : opAddHit g (.addE a b w) = 0 := by
          simp [opAddHit, hs]
        rw [hst] at ihg ⊢
        rw [h1]
        omega
    | remE a b =>
      have h1 : opAddHit g (.remE a b) = 0 := rfl
      rw [h1]
      by_cases hh : remHits g a b
      · have hex : ∃ e ∈ storedEdges g, e.from_id = a ∧ e.to_id = b := by
          unfold remHits at hh
          simpa using hh
        obtain ⟨e, he, hfrom, hto⟩ := hex
        have hperm := storedEdges_remove_edge g hwf a b he hfrom hto
        have hlen : (storedEdges g).length =
            (storedEdges (applyOp g (.remE a b))).length + 1 := by
          rw [applyOp_remE, ← hperm.length_eq]
          simp
        have h2 : opRemHit g (.remE a b) = 1 := by
          simp [opRemHit, hh]
        rw [h2]
        omega
      · have hno : ¬ ∃ e ∈ storedEdges g, e.from_id = a ∧ e.to_id = b := by
          unfold remHits at hh
          simpa using hh
        have hst : applyOp g (.remE a b) = g := by
          rw [applyOp_remE]
          exact remove_edge_no_stored g hwf a b hno
        have h2 : opRemHit g (.remE a b) = 0 := by
          simp [opRemHit, hh]
        rw [hst] at ihg ⊢
        rw [h2]
        omega

theorem edge_origin (ops : List Op) (g : Graph) (hwf : WF g) :
    ∀ e ∈ storedEdges (ops.foldl applyOp g),
      e ∈ storedEdges g ∨ Op.addE e.from_id e.to_id e.data ∈ ops := by
  induction ops generalizing g with
  | nil =>
    intro e he
    exact Or.inl (by simpa using he)
  | cons op rest ih =>
    intro e he
    simp only [List.foldl_cons] at he
    have hstep : ∀ x ∈ storedEdges (applyOp g op),
        x ∈ storedEdges g ∨ Op.addE x.from_id x.to_id x.data = op := by
      intro x hx
      cases op with
      | addN i v =>
        left
        unfold applyOp at hx
        rwa [storedEdges_add_node g i v] at hx
      | addE a b w =>
        rcases hs : (g.add_edge a b w).1 with _ | e2
        · left
          have heq : applyOp g (.addE a b w) = g := by
            unfold applyOp
            exact add_edge_none_graph g a b w hs
          rwa [heq] at hx
        · have hperm := storedEdges_add_edge g hwf.nodupIds a b w hs
          have hx2 : x ∈ storedEdges g ++ [e2] := by
            rw [← hperm.mem_iff]
            exact hx
          rcases List.mem_append.mp hx2 with h | h
          · exact Or.inl h
          · right
            simp only [List.mem_singleton] at h
            subst h
            rw [add_edge_some_eq g a b w hs]
      | remE a b =>
        left
        by_cases hex : ∃ y ∈ storedEdges g, y.from_id = a ∧ y.to_id = b
        · obtain ⟨e3, he3, hf3, ht3⟩ := hex
          have hperm := storedEdges_remove_edge g hwf a b he3 hf3 ht3
          apply hperm.mem_iff.mp
          unfold applyOp at hx
          exact List.mem_cons_of_mem e3 hx
        · have heq : applyOp g (.remE a b) = g := by
            unfold applyOp
            exact remove_edge_no_stored g hwf a b hex
          rwa [heq] at hx
    rcases ih (applyOp g op) (hwf.applyOp op) e he with h | h
    · rcases hstep e h with h2 | h2
      · exact Or.inl h2
      · exact Or.inr (h2 ▸ List.mem_cons_self _ rest)
    · exact Or.inr (List.mem_cons_of_mem op h)

theorem WF_foldl (ops : List Op) (g : Graph) (hwf : WF g) :
    WF (ops.foldl applyOp g) := by
  induction ops generalizing g with
  | nil => exact hwf
  | cons op rest ih => exact ih (applyOp g op) (hwf.applyOp op)

theorem WF_runOps (ops : List Op) : WF (runOps ops) :=
  WF_foldl ops (Graph.mk []) WF.empty

theorem cleanIds_foldl (ops : List Op) (hclean : ∀ op ∈ ops, opClean op)
    (g : Graph) (hg : cleanIds g) : cleanIds (ops.foldl applyOp g) := by
  induction ops generalizing g with
  | nil => exact hg
  | cons op rest ih =>
    exact ih (fun o ho => hclean o (by simp [ho])) (applyOp g op)
      (cleanIds_applyOp hg op (hclean op (by simp)))

theorem cleanIds_runOps (ops : List Op) (hclean : ∀ op ∈ ops, opClean op) :
    cleanIds (runOps ops) :=
  cleanIds_foldl ops hclean (Graph.mk []) (by intro n hn; cases hn)

/-- C8 (amended): after any sequence of `add_node` / `add_edge` /
`remove_edge` calls whose node ids contain no hyphen (so that the sorted-join
edge ids cannot collide), `get_all_edges` returns exactly the stored edges,
each exactly once; its length is the number of successful `add_edge` calls
minus the number of `remove_edge` calls that actually removed an edge; and
every returned edge carries the endpoints and weight of the `add_edge` call
that created it. -/
theorem C8_get_all_edges_amended (ops : List Op) (hclean : ∀ op ∈ ops, opClean op) :
    (runOps ops).get_all_edges = storedEdges (runOps ops) ∧
    ((runOps ops).get_all_edges).Nodup ∧
    countAdds (Graph.mk []) ops =
      countRems (Graph.mk []) ops + ((runOps ops).get_all_edges).length ∧
    (∀ e ∈ (runOps ops).get_all_edges, Op.addE e.from_id e.to_id e.data ∈ ops) := by
  have hwf := WF_runOps ops
  have hcl := cleanIds_runOps ops hclean
  have hga := get_all_edges_eq hwf hcl
  refine ⟨hga, ?_, ?_, ?_⟩
  · rw [hga]
    exact hwf.storedNodup
  · have hb := count_balance ops (Graph.mk []) WF.empty
    have h0 : (storedEdges (Graph.mk [])).length = 0 := rfl
    rw [hga]
    unfold runOps
    omega
  · intro e he
    rw [hga] at he
    rcases edge_origin ops (Graph.mk []) WF.empty e he with h | h
    · cases h
    · exact h

/-- The collision trace: node ids `a`, `b-c`, `a-b`, `c`, then edges
`{a, b-c}` and `{a-b, c}`, whose sorted-join ids are both `a-b-c`. -/
def c8ops : List Op :=
  [Op.addN "a" 0, Op.addN "b-c" 0, Op.addN "a-b" 0, Op.addN "c" 0,
   Op.addE "a" "b-c" 1, Op.addE "a-b" "c" 1]

/-- C8 counterexample: on `c8ops`, two `add_edge` calls succeed and nothing is
removed, yet `get_all_edges` returns only one edge — its dedup-by-id pass
collapses the two distinct edges whose ids collide as `a-b-c`, so the claimed
count equation fails. -/
theorem C8_counterexample :
    countAdds (Graph.mk []) c8ops = 2 ∧ countRems (Graph.mk []) c8ops = 0 ∧
    ((runOps c8ops).get_all_edges).length = 1 ∧
    ¬ ((runOps c8ops).get_all_edges).length =
        countAdds (Graph.mk []) c8ops - countRems (Graph.mk []) c8ops :=
  ⟨rfl, rfl, rfl, by decide⟩

/-- A clean trace exercising the amended C8 statement. -/
def c8wops : List Op :=
  [Op.addN "a" 0, Op.addN "b" 0, Op.addN "c" 0,
   Op.addE "a" "b" 3, Op.addE "b" "c" 4, Op.remE "a" "b"]

theorem C8_get_all_edges_amended_witness :
    countAdds (Graph.mk []) c8wops =
      countRems (Graph.mk []) c8wops + ((runOps c8wops).get_all_edges).length :=
  (C8_get_all_edges_amended c8wops (by decide)).2.2.1

/-! ## Undirected reachability -/

/-- Two node ids joined by a stored edge, traversed in either direction. -/
def adjacent (g : Graph) (u v : String) : Prop :=
  ∃ e ∈ storedEdges g, (e.from_id = u ∧ e.to_id = v) ∨ (e.from_id = v ∧ e.to_id = u)

/-- Undirected reachability along stored edges. -/
def Reach (g : Graph) : String → String → Prop :=
  Relation.ReflTransGen (adjacent g)

theorem adjacent_symm (g : Graph) {u v : String} (h : adjacent g u v) :
    adjacent g v u := by
  obtain ⟨e, he, h1 | h2⟩ := h
  · exact ⟨e, he, Or.inr h1⟩
  · exact ⟨e, he, Or.inl h2⟩

theorem Reach.refl (g : Graph) (u : String) : Reach g u u :=
  Relation.ReflTransGen.refl

theorem Reach.symm {g : Graph} {u v : String} (h : Reach g u v) : Reach g v u :=
  Relation.ReflTransGen.symmetric (fun _ _ hadj => adjacent_symm g hadj) h

theorem Reach.trans {g : Graph} {u v w : String} (h1 : Reach g u v)
    (h2 : Reach g v w) : Reach g u w :=
  Relation.ReflTransGen.trans h1 h2

theorem Reach.of_adjacent {g : Graph} {u v : String} (h : adjacent g u v) :
    Reach g u v :=
  Relation.ReflTransGen.single h

theorem Reach.mono {g g2 : Graph}
    (hsub : ∀ e ∈ storedEdges g, e ∈ storedEdges g2) {u v : String}
    (h : Reach g u v) : Reach g2 u v := by
  apply Relation.ReflTransGen.mono _ h
  intro x y hadj
  obtain ⟨e, he, hor⟩ := hadj
  exact ⟨e, hsub e he, hor⟩

/-! ## Decimal node ids of the random graph generator -/

/-- Decimal digits (most significant first) of `n`, by structural fuel. -/
def natCharsAux : Nat → Nat → List Char
  | 0, _ => []
  | _ + 1, 0 => []
  | fuel + 1, n + 1 =>
    natCharsAux fuel ((n + 1) / 10) ++ [Char.ofNat (48 + (n + 1) % 10)]

/-- The decimal string of `n`, as produced by the template `${i}`. -/
def natChars (n : Nat) : List Char :=
  if n = 0 then ['0'] else natCharsAux (n + 1) n

/-- `node-${i}`: the id of the i-th generated node. -/
def genNodeId (i : Nat) : String := "node-" ++ String.mk (natChars i)

/-- Numeric value of a digit string, for the round-trip proof. -/
def charsVal (l : List Char) : Nat :=
  l.foldl (fun acc c => acc * 10 + (c.toNat - 48)) 0

theorem charsVal_append (l : List Char) (c : Char) :
    charsVal (l ++ [c]) = charsVal l * 10 + (c.toNat - 48) := by
  unfold charsVal
  rw [List.foldl_append]
  rfl

theorem digitChar_toNat (d : Nat) (hd : d < 10) :
    (Char.ofNat (48 + d)).toNat = 48 + d := by
  interval_cases d <;> decide

theorem natCharsAux_val (fuel n : Nat) (h : n < fuel) :
    charsVal (natCharsAux fuel n) = n := by
  induction fuel generalizing n with
  | zero => omega
  | succ fuel ih =>
    cases n with
    | zero => rfl
    | succ m =>
      unfold natCharsAux
      rw [charsVal_append]
      have hdiv : (m + 1) / 10 < fuel := by
        have := Nat.div_le_self (m + 1) 10
        have h10 : (m + 1) / 10 < m + 1 := Nat.div_lt_self (by omega) (by omega)
        omega
      rw [ih ((m + 1) / 10) hdiv, digitChar_toNat ((m + 1) % 10) (Nat.mod_lt _ (by omega))]
      omega

theorem natChars_val (n : Nat) : charsVal (natChars n) = n := by
  unfold natChars
  by_cases h : n = 0
  · rw [if_pos h, h]
    rfl
  · rw [if_neg h]
    exact natCharsAux_val (n + 1) n (by omega)

theorem natChars_inj {m n : Nat} (h : natChars m = natChars n) : m = n := by
  have := natChars_val m
  rw [h, natChars_val n] at this
  exact this.symm

theorem natCharsAux_no_hyphen (fuel n : Nat) :
    ('-' : Char) ∉ natCharsAux fuel n := by
  induction fuel generalizing n with
  | zero => simp [natCharsAux]
  | succ fuel ih =>
    cases n with
    | zero => simp [natCharsAux]
    | succ m =>
      unfold natCharsAux
      intro hmem
      rcases List.mem_append.mp hmem with h | h
      · exact ih ((m + 1) / 10) h
      · simp only [List.mem_singleton] at h
        have hlt : (m + 1) % 10 < 10 := Nat.mod_lt _ (by omega)
        have := digitChar_toNat ((m + 1) % 10) hlt
        have hh : ('-' : Char).toNat = 45 := by decide
        rw [h] at hh
        omega

theorem natChars_no_hyphen (n : Nat) : ('-' : Char) ∉ natChars n := by
  unfold natChars
  by_cases h : n = 0
  · rw [if_pos h]
    decide
  · rw [if_neg h]
    exact natCharsAux_no_hyphen (n + 1) n

theorem genNodeId_inj {m n : Nat} (h : genNodeId m = genNodeId n) : m = n := by
  apply natChars_inj
  have hd := congrArg String.data h
  unfold genNodeId at hd
  simp only [String.data_append] at hd
  exact List.append_cancel_left hd

theorem glue_genNodeId_inj (i1 j1 i2 j2 : Nat)
    (h : genNodeId i1 ++ "-" ++ genNodeId j1 = genNodeId i2 ++ "-" ++ genNodeId j2) :
    i1 = i2 ∧ j1 = j2 := by
  have hd := congrArg String.data h
  unfold genNodeId at hd
  simp only [String.data_append, List.append_assoc] at hd
  have hd2 := List.append_cancel_left hd
  obtain ⟨h1, h2⟩ := append_hyphen_inj (natChars i1) (natChars i2)
    ("node-".data ++ natChars j1) ("node-".data ++ natChars j2)
    (natChars_no_hyphen i1) (natChars_no_hyphen i2) hd2
  exact ⟨natChars_inj h1, natChars_inj (List.append_cancel_left h2)⟩

/-- Edge ids are collision-free in well-formed graphs whose node ids all come
from the generator's `node-${i}` scheme. -/
theorem edgeIds_nodup_gen {g : Graph} (hwf : WF g)
    (hids : ∀ n ∈ g.nodes, ∃ i, n.id = genNodeId i) :
    ((storedEdges g).map Edge.id).Nodup := by
  have hnode_gen : ∀ x : String, g.hasNode x → ∃ i, x = genNodeId i := by
    rintro x ⟨n, hn, rfl⟩
    exact hids n hn
  have hmap : (storedEdges g).map Edge.id =
      ((storedEdges g).map pairKey).map (fun p => p.1 ++ "-" ++ p.2) := by
    rw [List.map_map]
    apply List.map_congr_left
    intro e he
    rw [hwf.eids e he, getEdgeId_eq_sortPair]
    simp only [Function.comp_apply, pairKey_def]
  rw [hmap]
  apply List.Nodup.map_on _ hwf.pairsNodup
  intro p hp q hq hpq
  obtain ⟨e1, he1, hk1⟩ := List.mem_map.mp hp
  obtain ⟨e2, he2, hk2⟩ := List.mem_map.mp hq
  have hgen : ∀ e : Edge, e ∈ storedEdges g →
      (∃ i, pairKey e = (genNodeId i, (pairKey e).2)) ∧
      (∃ j, pairKey e = ((pairKey e).1, genNodeId j)) := by
    intro e he
    obtain ⟨i, hi⟩ := hnode_gen e.from_id (hwf.edge_from_node he)
    obtain ⟨j, hj⟩ := hnode_gen e.to_id (hwf.endpointTo e he)
    rw [pairKey_def]
    unfold sortPair
    split
    · exact ⟨⟨i, by rw [hi]⟩, ⟨j, by rw [hj]⟩⟩
    · exact ⟨⟨j, by rw [hj]⟩, ⟨i, by rw [hi]⟩⟩
  obtain ⟨⟨i1, hi1⟩, ⟨j1, hj1⟩⟩ := hgen e1 he1
  obtain ⟨⟨i2, hi2⟩, ⟨j2, hj2⟩⟩ := hgen e2 he2
  have hp1 : p.1 = genNodeId i1 := by rw [← hk1, hi1]
  have hp2 : p.2 = genNodeId j1 := by rw [← hk1]; rw [hj1]
  have hq1 : q.1 = genNodeId i2 := by rw [← hk2, hi2]
  have hq2 : q.2 = genNodeId j2 := by rw [← hk2]; rw [hj2]
  rw [hp1, hp2, hq1, hq2] at hpq
  obtain ⟨ha, hb⟩ := glue_genNodeId_inj i1 j1 i2 j2 hpq
  apply Prod.ext
  · rw [hp1, hq1, ha]
  · rw [hp2, hq2, hb]

/-! ## The random graph generator -/

/-- The random draws consumed by `createRandomGraph`, one accessor per
`Math.random()` call site.  Each draw of `Math.floor(Math.random() * k)` is
modelled at its use site as an arbitrary natural reduced `% k`, which ranges
over exactly the outcomes of the original draw. -/
structure RandSrc where
  nodeValue : Nat → Nat
  startIdx : Nat
  fromIdx : Nat → Nat
  toIdx : Nat → Nat
  spanW : Nat → Nat
  shufIdx : Nat → Nat
  augW : Nat → Nat

/-- `Math.floor(Math.random() * (maxValue - minValue + 1)) + minValue`. -/
def genValue (rnd : RandSrc) (minValue maxValue : Int) (i : Nat) : Int :=
  if 0 < maxValue - minValue + 1 then
    minValue + Int.ofNat (rnd.nodeValue i % (maxValue - minValue + 1).toNat)
  else minValue

/-- The i-th node created by the generator. -/
def genNode (rnd : RandSrc) (minValue maxValue : Int) (i : Nat) : Node :=
  { id := genNodeId i, value := genValue rnd minValue maxValue i,
    outgoing_edges := [], incoming_edges := [] }

/-- `[array[i], array[j]] = [array[j], array[i]]` of the shuffle helper. -/
def swapAt (l : List (String × String)) (i j : Nat) : List (String × String) :=
  match l.get? i, l.get? j with
  | some x, some y => (l.set i y).set j x
  | _, _ => l

/-- The countdown loop of `shuffleArray` (Fisher–Yates). -/
def shuffleFrom (rnd : RandSrc) : Nat → List (String × String) → List (String × String)
  | 0, l => l
  | i + 1, l => shuffleFrom rnd i (swapAt l (i + 1) (rnd.shufIdx (i + 1) % (i + 2)))

/-- `shuffleArray`: uniform permutation of the candidate pair list. -/
def shuffleArray (rnd : RandSrc) (l : List (String × String)) : List (String × String) :=
  shuffleFrom rnd (l.length - 1) l

/-- All unordered candidate pairs `[nodeIds[i], nodeIds[j]]`, `i < j`, in the
order enumerated by the generator's nested loops. -/
def allPairs : List String → List (String × String)
  | [] => []
  | x :: rest => rest.map (fun y => (x, y)) ++ allPairs rest

/-- The connectivity pass: repeatedly join a random connected node to a random
unconnected one.  Fuel is the initial size of `unconnected`; since every
iteration removes the chosen target, the zero-fuel branch is never reached. -/
def spanTarget (rnd : RandSrc) (k : Nat) (u0 : String) (rest : List String) : String :=
  (u0 :: rest).get ⟨rnd.toIdx k % (u0 :: rest).length, Nat.mod_lt _ (Nat.succ_pos rest.length)⟩

def spanLoop (rnd : RandSrc) : Nat → Nat → Graph → List String → List String → Graph
  | _, _, g, _, [] => g
  | 0, _, g, _, _ :: _ => g
  | fuel + 1, k, g, connected, u0 :: rest =>
    spanLoop rnd fuel (k + 1)
      (g.add_edge (connected.getD (rnd.fromIdx k % connected.length) "")
        (spanTarget rnd k u0 rest) (rnd.spanW k % 10 + 1)).2
      (connected ++ [spanTarget rnd k u0 rest])
      ((u0 :: rest).erase (spanTarget rnd k u0 rest))

/-- The density-augmentation pass: walk the shuffled pair list, adding edges
until the density cap is hit, skipping pairs that are already connected. -/
def augLoop (rnd : RandSrc) : Graph → List (String × String) → Nat → Nat → Nat → Graph
  | g, [], _, _, _ => g
  | g, (a, b) :: rest, edgeCount, maxEdges, k =>
    if maxEdges ≤ edgeCount then g
    else if g.hasEdge a b then augLoop rnd g rest edgeCount maxEdges k
    else augLoop rnd (g.add_edge a b (rnd.augW k % 10 + 1)).2 rest
      (edgeCount + 1) maxEdges (k + 1)

/-- `nodeIds[Math.floor(Math.random() * nodeIds.length)]`: the random start
node of the spanning pass. -/
def startOf (rnd : RandSrc) (u : String) (us : List String) : String :=
  (u :: us).get ⟨rnd.startIdx % (u :: us).length, Nat.mod_lt _ (Nat.succ_pos us.length)⟩

/-- `createRandomGraph(nodeCount, edgeDensity, minValue, maxValue)`: create the
nodes, run the spanning pass from a random start node, then augment with
random extra pairs up to `maxEdges = floor(possibleEdgePairs * edgeDensity)`. -/
def createRandomGraph (rnd : RandSrc) (nodeCount : Nat) (edgeDensity : ℚ)
    (minValue maxValue : Int) : Graph :=
  match (List.range nodeCount).map genNodeId with
  | [] => { nodes := (List.range nodeCount).map (genNode rnd minValue maxValue) }
  | u :: us =>
    augLoop rnd
      (spanLoop rnd ((u :: us).erase (startOf rnd u us)).length 0
        { nodes := (List.range nodeCount).map (genNode rnd minValue maxValue) }
        [startOf rnd u us] ((u :: us).erase (startOf rnd u us)))
      (shuffleArray rnd (allPairs (u :: us)))
      (nodeCount - 1)
      (⌊(((nodeCount * (nodeCount - 1) / 2 : Nat)) : ℚ) * edgeDensity⌋).toNat 0

theorem spanLoop_nil (rnd : RandSrc) (fuel k : Nat) (g : Graph) (connected : List String) :
    spanLoop rnd fuel k g connected [] = g := by
  cases fuel <;> rfl

theorem spanLoop_cons (rnd : RandSrc) (fuel k : Nat) (g : Graph)
    (connected : List String) (u0 : String) (rest : List String) :
    spanLoop rnd (fuel + 1) k g connected (u0 :: rest) =
      spanLoop rnd fuel (k + 1)
        (g.add_edge (connected.getD (rnd.fromIdx k % connected.length) "")
          (spanTarget rnd k u0 rest) (rnd.spanW k % 10 + 1)).2
        (connected ++ [spanTarget rnd k u0 rest])
        ((u0 :: rest).erase (spanTarget rnd k u0 rest)) := rfl

theorem spanTarget_mem (rnd : RandSrc) (k : Nat) (u0 : String) (rest : List String) :
    spanTarget rnd k u0 rest ∈ u0 :: rest :=
  List.get_mem _ _ _

theorem getD_mod_mem (l : List String) (i : Nat) (d : String) (h : l ≠ []) :
    l.getD (i % l.length) d ∈ l := by
  have hlen : 0 < l.length := List.length_pos.mpr h
  have hidx : i % l.length < l.length := Nat.mod_lt _ hlen
  rw [List.getD_eq_getElem l d hidx]
  exact List.getElem_mem hidx

theorem spanLoop_spec (rnd : RandSrc) (fuel : Nat) :
    ∀ (k : Nat) (g : Graph) (connected unconnected : List String),
    unconnected.length ≤ fuel →
    WF g →
    (∀ x ∈ connected, g.hasNode x) →
    (∀ x ∈ unconnected, g.hasNode x) →
    connected ≠ [] →
    unconnected.Nodup →
    (∀ x ∈ connected, x ∉ unconnected) →
    (∀ x ∈ unconnected, ∀ e ∈ storedEdges g, e.from_id ≠ x ∧ e.to_id ≠ x) →
    (∀ x ∈ connected, ∀ y ∈ connected, Reach g x y) →
    WF (spanLoop rnd fuel k g connected unconnected) ∧
    (spanLoop rnd fuel k g connected unconnected).nodes.map Node.id =
      g.nodes.map Node.id ∧
    (storedEdges (spanLoop rnd fuel k g connected unconnected)).length =
      (storedEdges g).length + unconnected.length ∧
    (∀ x y, (x ∈ connected ∨ x ∈ unconnected) → (y ∈ connected ∨ y ∈ unconnected) →
      Reach (spanLoop rnd fuel k g connected unconnected) x y) ∧
    (∀ e ∈ storedEdges (spanLoop rnd fuel k g connected unconnected),
      e ∈ storedEdges g ∨ e.from_id ≠ e.to_id) := by
  induction fuel with
  | zero =>
    intro k g connected unconnected hlen hwf hcn hun hcne hnd hdisj htouch hmut
    cases unconnected with
    | cons u0 rest => simp at hlen
    | nil =>
      rw [spanLoop_nil]
      refine ⟨hwf, rfl, by simp, ?_, fun e he => Or.inl he⟩
      intro x y hx hy
      rcases hx with hx | hx
      · rcases hy with hy | hy
        · exact hmut x hx y hy
        · cases hy
      · cases hx
  | succ fuel ih =>
    intro k g connected unconnected hlen hwf hcn hun hcne hnd hdisj htouch hmut
    cases unconnected with
    | nil =>
      rw [spanLoop_nil]
      refine ⟨hwf, rfl, by simp, ?_, fun e he => Or.inl he⟩
      intro x y hx hy
      rcases hx with hx | hx
      · rcases hy with hy | hy
        · exact hmut x hx y hy
        · cases hy
      · cases hx
    | cons u0 rest =>
      rw [spanLoop_cons]
      have htoMem : spanTarget rnd k u0 rest ∈ u0 :: rest := spanTarget_mem rnd k u0 rest
      have hfromMem : connected.getD (rnd.fromIdx k % connected.length) "" ∈ connected :=
        getD_mod_mem connected (rnd.fromIdx k) "" hcne
      have hfne : connected.getD (rnd.fromIdx k % connected.length) "" ≠
          spanTarget rnd k u0 rest := by
        intro hcontra
        exact hdisj _ hfromMem (hcontra ▸ htoMem)
      have hhe : g.hasEdge (connected.getD (rnd.fromIdx k % connected.length) "")
          (spanTarget rnd k u0 rest) = false := by
        by_cases hE : g.hasEdge (connected.getD (rnd.fromIdx k % connected.length) "")
            (spanTarget rnd k u0 rest) = true
        · exfalso
          obtain ⟨_, _, e, he, hor⟩ := (hasEdge_iff g hwf _ _).mp hE
          have htch := htouch _ htoMem e he
          rcases hor with ⟨h1, h2⟩ | ⟨h1, h2⟩
          · exact htch.2 h2
          · exact htch.1 h1
        · simpa using hE
      have hsome : (g.add_edge (connected.getD (rnd.fromIdx k % connected.length) "")
          (spanTarget rnd k u0 rest) (rnd.spanW k % 10 + 1)).1.isSome := by
        apply (add_edge_isSome_iff g _ _ _).mpr
        exact ⟨(find?_isSome_iff g _).mpr (hcn _ hfromMem),
          (find?_isSome_iff g _).mpr (hun _ htoMem), hhe⟩
      obtain ⟨eNew, heNew⟩ := Option.isSome_iff_exists.mp hsome
      have heq := add_edge_some_eq g _ _ _ heNew
      have hperm := storedEdges_add_edge g hwf.nodupIds _ _ _ heNew
      have hmemE : ∀ x : Edge,
          x ∈ storedEdges (g.add_edge (connected.getD (rnd.fromIdx k % connected.length) "")
            (spanTarget rnd k u0 rest) (rnd.spanW k % 10 + 1)).2 ↔
          x ∈ storedEdges g ∨ x = eNew := by
        intro x
        rw [hperm.mem_iff]
        simp
      have hwf2 : WF (g.add_edge (connected.getD (rnd.fromIdx k % connected.length) "")
          (spanTarget rnd k u0 rest) (rnd.spanW k % 10 + 1)).2 := hwf.add_edge _ _ _
      have hHasNode2 := add_edge_hasNode g
        (connected.getD (rnd.fromIdx k % connected.length) "")
        (spanTarget rnd k u0 rest) (rnd.spanW k % 10 + 1)
      have hAdj : adjacent (g.add_edge (connected.getD (rnd.fromIdx k % connected.length) "")
          (spanTarget rnd k u0 rest) (rnd.spanW k % 10 + 1)).2
          (connected.getD (rnd.fromIdx k % connected.length) "")
          (spanTarget rnd k u0 rest) := by
        refine ⟨eNew, (hmemE eNew).mpr (Or.inr rfl), Or.inl ⟨?_, ?_⟩⟩
        · rw [heq]
        · rw [heq]
      have hsub : ∀ x ∈ storedEdges g,
          x ∈ storedEdges (g.add_edge (connected.getD (rnd.fromIdx k % connected.length) "")
            (spanTarget rnd k u0 rest) (rnd.spanW k % 10 + 1)).2 :=
        fun x hx => (hmemE x).mpr (Or.inl hx)
      have hlen2 : ((u0 :: rest).erase (spanTarget rnd k u0 rest)).length = rest.length := by
        rw [List.length_erase_of_mem htoMem]
        simp
      have hmut2 : ∀ x ∈ connected ++ [spanTarget rnd k u0 rest],
          ∀ y ∈ connected ++ [spanTarget rnd k u0 rest],
          Reach (g.add_edge (connected.getD (rnd.fromIdx k % connected.length) "")
            (spanTarget rnd k u0 rest) (rnd.spanW k % 10 + 1)).2 x y := by
        intro x hx y hy
        have hstep : ∀ z ∈ connected,
            Reach (g.add_edge (connected.getD (rnd.fromIdx k % connected.length) "")
              (spanTarget rnd k u0 rest) (rnd.spanW k % 10 + 1)).2 z
              (spanTarget rnd k u0 rest) := by
          intro z hz
          exact Reach.trans (Reach.mono hsub (hmut z hz _ hfromMem))
            (Reach.of_adjacent hAdj)
        rcases List.mem_append.mp hx with hx2 | hx2
        · rcases List.mem_append.mp hy with hy2 | hy2
          · exact Reach.mono hsub (hmut x hx2 y hy2)
          · simp only [List.mem_singleton] at hy2
            rw [hy2]
            exact hstep x hx2
        · simp only [List.mem_singleton] at hx2
          rcases List.mem_append.mp hy with hy2 | hy2
          · rw [hx2]
            exact (hstep y hy2).symm
          · simp only [List.mem_singleton] at hy2
            rw [hx2, hy2]
            exact Reach.refl _ _
      obtain ⟨iWF, iID, iLEN, iREACH, iSELF⟩ := ih (k + 1)
        (g.add_edge (connected.getD (rnd.fromIdx k % connected.length) "")
          (spanTarget rnd k u0 rest) (rnd.spanW k % 10 + 1)).2
        (connected ++ [spanTarget rnd k u0 rest])
        ((u0 :: rest).erase (spanTarget rnd k u0 rest))
        (by rw [hlen2]; simpa using Nat.le_of_succ_le_succ hlen)
        hwf2
        (by
          intro x hx
          rcases List.mem_append.mp hx with h | h
          · exact (hHasNode2 x).mpr (hcn x h)
          · simp only [List.mem_singleton] at h
            exact (hHasNode2 x).mpr (h ▸ hun _ htoMem))
        (by
          intro x hx
          exact (hHasNode2 x).mpr (hun x (List.mem_of_mem_erase hx)))
        (by simp)
        (hnd.erase _)
        (by
          intro x hx
          rcases List.mem_append.mp hx with h | h
          · intro hmem
            exact hdisj x h (List.mem_of_mem_erase hmem)
          · simp only [List.mem_singleton] at h
            rw [h]
            intro hmem
            exact ((hnd.mem_erase_iff).mp hmem).1 rfl)
        (by
          intro x hx e he
          have hxu : x ∈ u0 :: rest := List.mem_of_mem_erase hx
          have hxne : x ≠ spanTarget rnd k u0 rest := ((hnd.mem_erase_iff).mp hx).1
          rcases (hmemE e).mp he with h | h
          · exact htouch x hxu e h
          · rw [h, heq]
            constructor
            · intro hcontra
              simp only [] at hcontra
              apply hdisj _ hfromMem
              have hgoal : connected.getD (rnd.fromIdx k % connected.length) "" ∈
                  u0 :: rest := by rw [hcontra]; exact hxu
              exact hgoal
            · intro hcontra
              simp only [] at hcontra
              exact hxne hcontra.symm)
        hmut2
      refine ⟨iWF, ?_, ?_, ?_, ?_⟩
      · rw [iID]
        exact add_edge_idmap g _ _ _
      · have h1 : (storedEdges (g.add_edge
            (connected.getD (rnd.fromIdx k % connected.length) "")
            (spanTarget rnd k u0 rest) (rnd.spanW k % 10 + 1)).2).length =
            (storedEdges g).length + 1 := by
          rw [hperm.length_eq, List.length_append, List.length_singleton]
        rw [iLEN, hlen2, h1]
        simp only [List.length_cons]
        omega
      · intro x y hx hy
        apply iREACH
        · rcases hx with h | h
          · exact Or.inl (List.mem_append_left _ h)
          · by_cases hx2 : x = spanTarget rnd k u0 rest
            · exact Or.inl (List.mem_append_right _ (by simp [hx2]))
            · exact Or.inr ((List.mem_erase_of_ne hx2).mpr h)
        · rcases hy with h | h
          · exact Or.inl (List.mem_append_left _ h)
          · by_cases hy2 : y = spanTarget rnd k u0 rest
            · exact Or.inl (List.mem_append_right _ (by simp [hy2]))
            · exact Or.inr ((List.mem_erase_of_ne hy2).mpr h)
      · intro e he
        rcases iSELF e he with h | h
        · rcases (hmemE e).mp h with h2 | h2
          · exact Or.inl h2
          · right
            rw [h2, heq]
            exact hfne
        · exact Or.inr h

theorem augLoop_nil (rnd : RandSrc) (g : Graph) (ec me k : Nat) :
    augLoop rnd g [] ec me k = g := rfl

theorem augLoop_cons (rnd : RandSrc) (g : Graph) (a b : String)
    (rest : List (String × String)) (ec me k : Nat) :
    augLoop rnd g ((a, b) :: rest) ec me k =
      if me ≤ ec then g
      else if g.hasEdge a b then augLoop rnd g rest ec me k
      else augLoop rnd (g.add_edge a b (rnd.augW k % 10 + 1)).2 rest
        (ec + 1) me (k + 1) := rfl

theorem add_edge_stored_facts (g : Graph) (hwf : WF g) (a b : String) (w : Nat) :
    (∀ e ∈ storedEdges g, e ∈ storedEdges (g.add_edge a b w).2) ∧
    (storedEdges g).length ≤ (storedEdges (g.add_edge a b w).2).length ∧
    (∀ e ∈ storedEdges (g.add_edge a b w).2,
      e ∈ storedEdges g ∨ (e.from_id = a ∧ e.to_id = b)) := by
  cases h : (g.add_edge a b w).1 with
  | none =>
    rw [add_edge_none_graph g a b w h]
    exact ⟨fun e he => he, le_refl _, fun e he => Or.inl he⟩
  | some e0 =>
    have hperm := storedEdges_add_edge g hwf.nodupIds a b w h
    have heq := add_edge_some_eq g a b w h
    refine ⟨?_, ?_, ?_⟩
    · intro e he
      exact hperm.mem_iff.mpr (List.mem_append_left _ he)
    · rw [hperm.length_eq, List.length_append]
      exact Nat.le_add_right _ _
    · intro e he
      rcases List.mem_append.mp (hperm.mem_iff.mp he) with h2 | h2
      · exact Or.inl h2
      · right
        simp only [List.mem_singleton] at h2
        rw [h2, heq]
        exact ⟨rfl, rfl⟩

theorem augLoop_spec (rnd : RandSrc) (pairs : List (String × String)) :
    ∀ (g : Graph) (ec me k : Nat),
    WF g →
    (∀ p ∈ pairs, p.1 ≠ p.2) →
    WF (augLoop rnd g pairs ec me k) ∧
    (augLoop rnd g pairs ec me k).nodes.map Node.id = g.nodes.map Node.id ∧
    (∀ e ∈ storedEdges g, e ∈ storedEdges (augLoop rnd g pairs ec me k)) ∧
    (storedEdges g).length ≤ (storedEdges (augLoop rnd g pairs ec me k)).length ∧
    (∀ e ∈ storedEdges (augLoop rnd g pairs ec me k),
      e ∈ storedEdges g ∨ e.from_id ≠ e.to_id) := by
  induction pairs with
  | nil =>
    intro g ec me k hwf hne
    rw [augLoop_nil]
    exact ⟨hwf, rfl, fun e he => he, le_refl _, fun e he => Or.inl he⟩
  | cons p rest ih =>
    intro g ec me k hwf hne
    obtain ⟨a, b⟩ := p
    rw [augLoop_cons]
    by_cases hcap : me ≤ ec
    · rw [if_pos hcap]
      exact ⟨hwf, rfl, fun e he => he, le_refl _, fun e he => Or.inl he⟩
    · rw [if_neg hcap]
      by_cases hE : g.hasEdge a b
      · rw [if_pos hE]
        exact ih g ec me k hwf (fun p hp => hne p (List.mem_cons_of_mem _ hp))
      · rw [if_neg hE]
        have hwf2 : WF (g.add_edge a b (rnd.augW k % 10 + 1)).2 := hwf.add_edge _ _ _
        obtain ⟨hsub, hlen, hchar⟩ :=
          add_edge_stored_facts g hwf a b (rnd.augW k % 10 + 1)
        obtain ⟨iWF, iID, iSUB, iLEN, iSELF⟩ :=
          ih (g.add_edge a b (rnd.augW k % 10 + 1)).2 (ec + 1) me (k + 1) hwf2
            (fun p hp => hne p (List.mem_cons_of_mem _ hp))
        refine ⟨iWF, ?_, ?_, ?_, ?_⟩
        · rw [iID]
          exact add_edge_idmap g _ _ _
        · intro e he
          exact iSUB e (hsub e he)
        · exact le_trans hlen iLEN
        · intro e he
          rcases iSELF e he with h | h
          · rcases hchar e h with h2 | h2
            · exact Or.inl h2
            · right
              rw [h2.1, h2.2]
              exact hne (a, b) (List.mem_cons_self _ _)
          · exact Or.inr h

theorem startOf_mem (rnd : RandSrc) (u : String) (us : List String) :
    startOf rnd u us ∈ u :: us :=
  List.get_mem _ _ _

theorem storedEdges_nil_of (l : List Node) (hout : ∀ n ∈ l, n.outgoing_edges = []) :
    storedEdges { nodes := l } = [] := by
  unfold storedEdges
  rw [List.flatten_eq_nil_iff]
  intro x hx
  obtain ⟨n, hn, rfl⟩ := List.mem_map.mp hx
  exact hout n hn

theorem WF_initial (l : List Node) (hnd : (l.map Node.id).Nodup)
    (hout : ∀ n ∈ l, n.outgoing_edges = []) (hin : ∀ n ∈ l, n.incoming_edges = []) :
    WF { nodes := l } := by
  have hst : storedEdges { nodes := l } = [] := storedEdges_nil_of l hout
  refine ⟨hnd, ?_, ?_, ?_, ?_, ?_, ?_, ?_, ?_⟩
  · intro n hn e he
    rw [hout n hn] at he
    cases he
  · intro n hn e he
    rw [hin n hn] at he
    cases he
  · intro e he
    rw [hst] at he
    cases he
  · intro n hn e he
    rw [hout n hn] at he
    cases he
  · intro m hm e he
    rw [hin m hm] at he
    cases he
  · rw [hst]
    simp
  · intro n hn
    rw [hin n hn]
    simp
  · intro e he
    rw [hst] at he
    cases he

theorem allPairs_ne {l : List String} (hnd : l.Nodup) :
    ∀ p ∈ allPairs l, p.1 ≠ p.2 := by
  induction l with
  | nil => intro p hp; cases hp
  | cons x rest ih =>
    intro p hp
    simp only [List.nodup_cons] at hnd
    unfold allPairs at hp
    rcases List.mem_append.mp hp with h | h
    · obtain ⟨y, hy, rfl⟩ := List.mem_map.mp h
      intro hc
      simp only [] at hc
      exact hnd.1 (hc ▸ hy)
    · exact ih hnd.2 p h

theorem swapAt_subset (l : List (String × String)) (i j : Nat) :
    ∀ p ∈ swapAt l i j, p ∈ l := by
  intro p hp
  unfold swapAt at hp
  cases hi : l.get? i with
  | none => rw [hi] at hp; exact hp
  | some x =>
    cases hj : l.get? j with
    | none => rw [hi, hj] at hp; exact hp
    | some y =>
      rw [hi, hj] at hp
      rcases List.mem_or_eq_of_mem_set hp with h | h
      · rcases List.mem_or_eq_of_mem_set h with h2 | h2
        · exact h2
        · exact h2 ▸ List.get?_mem hj
      · exact h ▸ List.get?_mem hi

theorem shuffleFrom_subset (rnd : RandSrc) (n : Nat) :
    ∀ (l : List (String × String)), ∀ p ∈ shuffleFrom rnd n l, p ∈ l := by
  induction n with
  | zero => intro l p hp; exact hp
  | succ n ih =>
    intro l p hp
    unfold shuffleFrom at hp
    exact swapAt_subset l _ _ p (ih _ p hp)

theorem shuffleArray_subset (rnd : RandSrc) (l : List (String × String)) :
    ∀ p ∈ shuffleArray rnd l, p ∈ l :=
  fun p hp => shuffleFrom_subset rnd _ l p hp

theorem get_all_edges_eq_gen {g : Graph} (hwf : WF g)
    (hids : ∀ n ∈ g.nodes, ∃ i, n.id = genNodeId i) :
    g.get_all_edges = storedEdges g := by
  unfold Graph.get_all_edges
  exact dedupById_eq_self (storedEdges g) [] (edgeIds_nodup_gen hwf hids) (by simp)

/-- C3: for every node count, edge density and outcome of the random draws,
`createRandomGraph` returns a graph on the generated node ids that is connected
under undirected traversal, has at least `nodeCount - 1` edges, contains no
self-loop and at most one edge per unordered node pair, and has no edges at all
when `nodeCount ≤ 1`; the spanning pass runs regardless of the density cap. -/
theorem C3_createRandomGraph (rnd : RandSrc) (nodeCount : Nat) (edgeDensity : ℚ)
    (minValue maxValue : Int) :
    WF (createRandomGraph rnd nodeCount edgeDensity minValue maxValue) ∧
    (createRandomGraph rnd nodeCount edgeDensity minValue maxValue).nodes.map Node.id =
      (List.range nodeCount).map genNodeId ∧
    (∀ x y, (createRandomGraph rnd nodeCount edgeDensity minValue maxValue).hasNode x →
      (createRandomGraph rnd nodeCount edgeDensity minValue maxValue).hasNode y →
      Reach (createRandomGraph rnd nodeCount edgeDensity minValue maxValue) x y) ∧
    nodeCount - 1 ≤
      (createRandomGraph rnd nodeCount edgeDensity minValue maxValue).get_all_edges.length ∧
    (∀ e ∈ (createRandomGraph rnd nodeCount edgeDensity minValue maxValue).get_all_edges,
      e.from_id ≠ e.to_id) ∧
    ((createRandomGraph rnd nodeCount edgeDensity minValue maxValue).get_all_edges.map
      pairKey).Nodup ∧
    (nodeCount ≤ 1 →
      (createRandomGraph rnd nodeCount edgeDensity minValue maxValue).get_all_edges = []) := by
  cases hm : (List.range nodeCount).map genNodeId with
  | nil =>
    have h0 : nodeCount = 0 := by
      cases nodeCount with
      | zero => rfl
      | succ m =>
        rw [List.range_succ_eq_map] at hm
        simp at hm
    subst h0
    have hG : createRandomGraph rnd 0 edgeDensity minValue maxValue =
        { nodes := [] } := rfl
    have hGA : ({ nodes := [] } : Graph).get_all_edges = [] := rfl
    rw [hG]
    refine ⟨WF.empty, rfl, ?_, by simp, ?_, by rw [hGA]; simp, fun _ => hGA⟩
    · intro x y hx hy
      exfalso
      obtain ⟨n, hn, -⟩ := hx
      cases hn
    · intro e he
      rw [hGA] at he
      cases he
  | cons u us =>
    have hG : createRandomGraph rnd nodeCount edgeDensity minValue maxValue =
        augLoop rnd
          (spanLoop rnd ((u :: us).erase (startOf rnd u us)).length 0
            { nodes := (List.range nodeCount).map (genNode rnd minValue maxValue) }
            [startOf rnd u us] ((u :: us).erase (startOf rnd u us)))
          (shuffleArray rnd (allPairs (u :: us)))
          (nodeCount - 1)
          (⌊(((nodeCount * (nodeCount - 1) / 2 : Nat)) : ℚ) * edgeDensity⌋).toNat 0 := by
      unfold createRandomGraph
      split
      · rename_i heq
        rw [hm] at heq
        simp at heq
      · rename_i u0 us0 heq
        rw [hm] at heq
        obtain ⟨h1, h2⟩ := List.cons.injEq .. ▸ heq
        subst h1
        subst h2
        rfl
    have hids0 : ({ nodes := (List.range nodeCount).map (genNode rnd minValue maxValue) } :
        Graph).nodes.map Node.id = (List.range nodeCount).map genNodeId := by
      show ((List.range nodeCount).map (genNode rnd minValue maxValue)).map Node.id = _
      rw [List.map_map]
      apply List.map_congr_left
      intro i _
      rfl
    have hnd_ids : ((List.range nodeCount).map genNodeId).Nodup :=
      (List.nodup_range nodeCount).map (fun _ _ h => genNodeId_inj h)
    have hnd_uus : (u :: us).Nodup := hm ▸ hnd_ids
    have hwf0 : WF { nodes := (List.range nodeCount).map (genNode rnd minValue maxValue) } := by
      apply WF_initial
      · have h2 : ((List.range nodeCount).map (genNode rnd minValue maxValue)).map Node.id =
            (List.range nodeCount).map genNodeId := hids0
        rw [h2]
        exact hnd_ids
      · intro n hn
        obtain ⟨i, -, rfl⟩ := List.mem_map.mp hn
        rfl
      · intro n hn
        obtain ⟨i, -, rfl⟩ := List.mem_map.mp hn
        rfl
    have hst0 : storedEdges
        { nodes := (List.range nodeCount).map (genNode rnd minValue maxValue) } = [] := by
      apply storedEdges_nil_of
      intro n hn
      obtain ⟨i, -, rfl⟩ := List.mem_map.mp hn
      rfl
    have hcount : nodeCount = us.length + 1 := by
      have hl := congrArg List.length hm
      simpa using hl
    have hsmem : startOf rnd u us ∈ u :: us := startOf_mem rnd u us
    have herase_len : ((u :: us).erase (startOf rnd u us)).length = us.length := by
      rw [List.length_erase_of_mem hsmem]
      simp
    have hnode0 : ∀ x ∈ u :: us,
        ({ nodes := (List.range nodeCount).map (genNode rnd minValue maxValue) } :
          Graph).hasNode x := by
      intro x hx
      rw [hasNode_iff_map, hids0, hm]
      exact hx
    obtain ⟨sWF, sID, sLEN, sREACH, sSELF⟩ :=
      spanLoop_spec rnd ((u :: us).erase (startOf rnd u us)).length 0
        { nodes := (List.range nodeCount).map (genNode rnd minValue maxValue) }
        [startOf rnd u us] ((u :: us).erase (startOf rnd u us))
        (le_refl _) hwf0
        (by
          intro x hx
          simp only [List.mem_singleton] at hx
          exact hx ▸ hnode0 _ hsmem)
        (fun x hx => hnode0 x (List.mem_of_mem_erase hx))
        (by simp)
        (hnd_uus.erase _)
        (by
          intro x hx
          simp only [List.mem_singleton] at hx
          subst hx
          intro hmem
          exact ((hnd_uus.mem_erase_iff).mp hmem).1 rfl)
        (by
          intro x hx e he
          rw [hst0] at he
          cases he)
        (by
          intro x hx y hy
          simp only [List.mem_singleton] at hx hy
          rw [hx, hy]
          exact Reach.refl _ _)
    have hpne : ∀ p ∈ shuffleArray rnd (allPairs (u :: us)), p.1 ≠ p.2 :=
      fun p hp => allPairs_ne hnd_uus p (shuffleArray_subset rnd _ p hp)
    obtain ⟨aWF, aID, aSUB, aLEN, aSELF⟩ :=
      augLoop_spec rnd (shuffleArray rnd (allPairs (u :: us)))
        (spanLoop rnd ((u :: us).erase (startOf rnd u us)).length 0
          { nodes := (List.range nodeCount).map (genNode rnd minValue maxValue) }
          [startOf rnd u us] ((u :: us).erase (startOf rnd u us)))
        (nodeCount - 1)
        (⌊(((nodeCount * (nodeCount - 1) / 2 : Nat)) : ℚ) * edgeDensity⌋).toNat 0
        sWF hpne
    rw [hG]
    have hgenids : ∀ n ∈ (augLoop rnd
        (spanLoop rnd ((u :: us).erase (startOf rnd u us)).length 0
          { nodes := (List.range nodeCount).map (genNode rnd minValue maxValue) }
          [startOf rnd u us] ((u :: us).erase (startOf rnd u us)))
        (shuffleArray rnd (allPairs (u :: us)))
        (nodeCount - 1)
        (⌊(((nodeCount * (nodeCount - 1) / 2 : Nat)) : ℚ) * edgeDensity⌋).toNat 0).nodes,
        ∃ i, n.id = genNodeId i := by
      intro n hn
      have hmem : n.id ∈ (augLoop rnd
          (spanLoop rnd ((u :: us).erase (startOf rnd u us)).length 0
            { nodes := (List.range nodeCount).map (genNode rnd minValue maxValue) }
            [startOf rnd u us] ((u :: us).erase (startOf rnd u us)))
          (shuffleArray rnd (allPairs (u :: us)))
          (nodeCount - 1)
          (⌊(((nodeCount * (nodeCount - 1) / 2 : Nat)) : ℚ) * edgeDensity⌋).toNat
          0).nodes.map Node.id :=
        List.mem_map_of_mem _ hn
      rw [aID, sID, hids0] at hmem
      obtain ⟨i, -, hi⟩ := List.mem_map.mp hmem
      exact ⟨i, hi.symm⟩
    have hga := get_all_edges_eq_gen aWF hgenids
    have hsplit : ∀ z ∈ u :: us,
        z ∈ [startOf rnd u us] ∨ z ∈ (u :: us).erase (startOf rnd u us) := by
      intro z hz
      by_cases hzs : z = startOf rnd u us
      · exact Or.inl (by simp [hzs])
      · exact Or.inr ((List.mem_erase_of_ne hzs).mpr hz)
    refine ⟨aWF, ?_, ?_, ?_, ?_, ?_, ?_⟩
    · rw [aID, sID, hids0]
      exact hm
    · intro x y hx hy
      rw [hasNode_iff_map, aID, sID, hids0, hm] at hx hy
      exact Reach.mono aSUB (sREACH x y (hsplit x hx) (hsplit y hy))
    · rw [hga]
      rw [hst0] at sLEN
      simp only [List.length_nil, Nat.zero_add] at sLEN
      omega
    · intro e he
      rw [hga] at he
      rcases aSELF e he with h | h
      · rcases sSELF e h with h2 | h2
        · rw [hst0] at h2
          cases h2
        · exact h2
      · exact h
    · rw [hga]
      exact aWF.pairsNodup
    · intro hle
      have hus : us = [] := List.eq_nil_of_length_eq_zero (by omega)
      subst hus
      have hstart : startOf rnd u [] = u := List.mem_singleton.mp (startOf_mem rnd u [])
      rw [hstart, List.erase_cons_head, spanLoop_nil]
      have hpairs : shuffleArray rnd (allPairs [u]) = [] := rfl
      rw [hpairs, augLoop_nil]
      unfold Graph.get_all_edges
      rw [hst0]
      rfl

def rnd0 : RandSrc :=
  { nodeValue := fun _ => 0, startIdx := 0, fromIdx := fun _ => 0, toIdx := fun _ => 0,
    spanW := fun _ => 0, shufIdx := fun _ => 0, augW := fun _ => 0 }

theorem C3_createRandomGraph_witness :
    Reach (createRandomGraph rnd0 3 (1 / 2) 0 5) (genNodeId 0) (genNodeId 2) ∧
    3 - 1 ≤ (createRandomGraph rnd0 3 (1 / 2) 0 5).get_all_edges.length := by
  obtain ⟨-, hid, hreach, hlen, -, -, -⟩ := C3_createRandomGraph rnd0 3 (1 / 2) 0 5
  refine ⟨hreach _ _ ?_ ?_, hlen⟩
  · rw [hasNode_iff_map, hid]
    decide
  · rw [hasNode_iff_map, hid]
    decide

/-! ## JS `Map` as an insertion-ordered association list -/

/-- `Map.get(k)`: the value of the first (unique) entry with key `k`. -/
def mapGet {α : Type} (m : List (String × α)) (k : String) : Option α :=
  (m.find? (fun p => p.1 = k)).map Prod.snd

/-- `Map.set(k, v)`: replace the value of an existing entry in place, or
append a new entry at the end. -/
def mapSet {α : Type} (m : List (String × α)) (k : String) (v : α) :
    List (String × α) :=
  if m.any (fun p => p.1 = k) then m.map (fun p => if p.1 = k then (k, v) else p)
  else m ++ [(k, v)]

theorem mapGet_eq_none_iff {α : Type} (m : List (String × α)) (k : String) :
    mapGet m k = none ↔ k ∉ m.map Prod.fst := by
  unfold mapGet
  rw [Option.map_eq_none', List.find?_eq_none]
  constructor
  · intro h hk
    obtain ⟨p, hp, hpk⟩ := List.mem_map.mp hk
    exact absurd (by simpa using h p hp) (by simp [hpk])
  · intro h p hp
    simp only [decide_eq_true_eq]
    intro hpk
    exact h (List.mem_map.mpr ⟨p, hp, hpk⟩)

theorem mapGet_isSome_iff {α : Type} (m : List (String × α)) (k : String) :
    (mapGet m k).isSome ↔ k ∈ m.map Prod.fst := by
  constructor
  · intro h
    obtain ⟨v, hv⟩ := Option.isSome_iff_exists.mp h
    unfold mapGet at hv
    obtain ⟨p, hfind, -⟩ : ∃ p, m.find? (fun p => p.1 = k) = some p ∧ p.2 = v := by
      cases hf : m.find? (fun p => p.1 = k) with
      | none => rw [hf] at hv; simp at hv
      | some p =>
        rw [hf] at hv
        simp only [Option.map_some', Option.some.injEq] at hv
        exact ⟨p, rfl, hv⟩
    have hp := List.mem_of_find?_eq_some hfind
    have hpk : p.1 = k := by simpa using List.find?_some hfind
    exact List.mem_map.mpr ⟨p, hp, hpk⟩
  · intro h
    by_contra h2
    rw [Option.not_isSome_iff_eq_none] at h2
    exact absurd h ((mapGet_eq_none_iff m k).mp h2)

theorem mapGet_mapSet_self {α : Type} (m : List (String × α)) (k : String) (v : α) :
    mapGet (mapSet m k v) k = some v := by
  unfold mapSet
  by_cases hany : m.any (fun p => p.1 = k)
  · rw [if_pos hany]
    obtain ⟨p0, hp0, hp0k⟩ : ∃ p ∈ m, p.1 = k := by
      simpa using hany
    clear hany
    unfold mapGet
    induction m with
    | nil => cases hp0
    | cons p rest ih =>
      by_cases hp : p.1 = k
      · simp only [List.map_cons, if_pos hp, List.find?_cons]
        simp
      · simp only [List.map_cons, if_neg hp, List.find?_cons]
        have hne : (decide (p.1 = k)) = false := by simp [hp]
        rw [hne]
        rcases List.mem_cons.mp hp0 with h | h
        · exact absurd (h ▸ hp0k) hp
        · exact ih h
  · rw [if_neg hany]
    unfold mapGet
    rw [List.find?_append]
    have hnone : m.find? (fun p => p.1 = k) = none := by
      rw [List.find?_eq_none]
      intro p hp
      simp only [List.any_eq_true, not_exists, not_and] at hany
      simpa using hany p hp
    rw [hnone]
    simp

theorem mapGet_mapSet_ne {α : Type} (m : List (String × α)) (k x : String) (v : α)
    (hne : x ≠ k) : mapGet (mapSet m k v) x = mapGet m x := by
  unfold mapSet
  by_cases hany : m.any (fun p => p.1 = k)
  · rw [if_pos hany]
    unfold mapGet
    clear hany
    induction m with
    | nil => rfl
    | cons p rest ih =>
      by_cases hp : p.1 = k
      · simp only [List.map_cons, if_pos hp, List.find?_cons]
        have h1 : (decide ((k, v).1 = x)) = false := by
          simp only [decide_eq_false_iff_not]
          exact fun h => hne h.symm
        have h2 : (decide (p.1 = x)) = false := by
          simp only [decide_eq_false_iff_not]
          rw [hp]
          exact fun h => hne h.symm
        rw [h1, h2]
        exact ih
      · simp only [List.map_cons, if_neg hp, List.find?_cons]
        cases hd : decide (p.1 = x) with
        | true => simp
        | false => exact ih
  · rw [if_neg hany]
    unfold mapGet
    rw [List.find?_append]
    have h1 : List.find? (fun p => p.1 = x) [(k, v)] = none := by
      simp only [List.find?_cons, List.find?_nil]
      have : (decide ((k, v).1 = x)) = false := by
        simp only [decide_eq_false_iff_not]
        exact fun h => hne h.symm
      rw [this]
    rw [h1]
    simp

theorem mapSet_keys {α : Type} (m : List (String × α)) (k : String) (v : α)
    (hk : k ∈ m.map Prod.fst) : (mapSet m k v).map Prod.fst = m.map Prod.fst := by
  unfold mapSet
  have hany : m.any (fun p => p.1 = k) = true := by
    obtain ⟨p, hp, hpk⟩ := List.mem_map.mp hk
    simp only [List.any_eq_true]
    exact ⟨p, hp, by simp [hpk]⟩
  rw [if_pos hany, List.map_map]
  apply List.map_congr_left
  intro p _
  by_cases hp : p.1 = k
  · simp [hp]
  · simp [hp]

/-! ## `findNodeWithSmallestDistance` -/

abbrev DistMap := List (String × WithTop Nat)
abbrev PrevMap := List (String × Option String)

/-- The `nodeSet.forEach` scan: keep the first node whose distance strictly
beats the running minimum (`minDistance` starts at `Infinity`). -/
def findAux (dist : DistMap) : List String → WithTop Nat → Option String → Option String
  | [], _, best => best
  | x :: rest, minD, best =>
    match mapGet dist x with
    | some dx => if dx < minD then findAux dist rest dx (some x)
                 else findAux dist rest minD best
    | none => findAux dist rest minD best

def findNodeWithSmallestDistance (nodeSet : List String) (dist : DistMap) :
    Option String :=
  match nodeSet with
  | [] => none
  | _ => findAux dist nodeSet ⊤ none

theorem findAux_cons_none (dist : DistMap) (x : String) (rest : List String)
    (minD : WithTop Nat) (best : Option String) (h : mapGet dist x = none) :
    findAux dist (x :: rest) minD best = findAux dist rest minD best := by
  have hstep : findAux dist (x :: rest) minD best =
      match mapGet dist x with
      | some dx => if dx < minD then findAux dist rest dx (some x)
                   else findAux dist rest minD best
      | none => findAux dist rest minD best := rfl
  rw [hstep, h]

theorem findAux_cons_some (dist : DistMap) (x : String) (rest : List String)
    (minD : WithTop Nat) (best : Option String) (dx : WithTop Nat)
    (h : mapGet dist x = some dx) :
    findAux dist (x :: rest) minD best =
      if dx < minD then findAux dist rest dx (some x)
      else findAux dist rest minD best := by
  have hstep : findAux dist (x :: rest) minD best =
      match mapGet dist x with
      | some dx0 => if dx0 < minD then findAux dist rest dx0 (some x)
                    else findAux dist rest minD best
      | none => findAux dist rest minD best := rfl
  rw [hstep, h]

theorem findSmallest_cons (dist : DistMap) (x : String) (rest : List String) :
    findNodeWithSmallestDistance (x :: rest) dist = findAux dist (x :: rest) ⊤ none := rfl

theorem findAux_spec (dist : DistMap) (l : List String) :
    ∀ (minD : WithTop Nat) (best : Option String),
    (findAux dist l minD best = best ∧
      ∀ u ∈ l, ∀ du, mapGet dist u = some du → minD ≤ du) ∨
    (∃ c ∈ l, ∃ dc, mapGet dist c = some dc ∧ findAux dist l minD best = some c ∧
      dc < minD ∧ ∀ u ∈ l, ∀ du, mapGet dist u = some du → dc ≤ du) := by
  induction l with
  | nil =>
    intro minD best
    left
    exact ⟨rfl, fun u hu => absurd hu (by simp)⟩
  | cons x rest ih =>
    intro minD best
    cases hx : mapGet dist x with
    | none =>
      rw [findAux_cons_none dist x rest minD best hx]
      rcases ih minD best with ⟨h1, h2⟩ | ⟨c, hc, dc, hdc, hres, hlt, hall⟩
      · left
        refine ⟨h1, ?_⟩
        intro u hu du hdu
        rcases List.mem_cons.mp hu with h | h
        · rw [h, hx] at hdu
          cases hdu
        · exact h2 u h du hdu
      · right
        refine ⟨c, List.mem_cons_of_mem _ hc, dc, hdc, hres, hlt, ?_⟩
        intro u hu du hdu
        rcases List.mem_cons.mp hu with h | h
        · rw [h, hx] at hdu
          cases hdu
        · exact hall u h du hdu
    | some dx =>
      rw [findAux_cons_some dist x rest minD best dx hx]
      by_cases hlt : dx < minD
      · rw [if_pos hlt]
        rcases ih dx (some x) with ⟨h1, h2⟩ | ⟨c, hc, dc, hdc, hres, hlt2, hall⟩
        · right
          refine ⟨x, List.mem_cons_self _ _, dx, hx, h1, hlt, ?_⟩
          intro u hu du hdu
          rcases List.mem_cons.mp hu with h | h
          · rw [h, hx] at hdu
            cases hdu
            exact le_refl _
          · exact h2 u h du hdu
        · right
          refine ⟨c, List.mem_cons_of_mem _ hc, dc, hdc, hres, lt_trans hlt2 hlt, ?_⟩
          intro u hu du hdu
          rcases List.mem_cons.mp hu with h | h
          · rw [h, hx] at hdu
            cases hdu
            exact le_of_lt hlt2
          · exact hall u h du hdu
      · rw [if_neg hlt]
        push_neg at hlt
        rcases ih minD best with ⟨h1, h2⟩ | ⟨c, hc, dc, hdc, hres, hlt2, hall⟩
        · left
          refine ⟨h1, ?_⟩
          intro u hu du hdu
          rcases List.mem_cons.mp hu with h | h
          · rw [h, hx] at hdu
            cases hdu
            exact hlt
          · exact h2 u h du hdu
        · right
          refine ⟨c, List.mem_cons_of_mem _ hc, dc, hdc, hres, hlt2, ?_⟩
          intro u hu du hdu
          rcases List.mem_cons.mp hu with h | h
          · rw [h, hx] at hdu
            cases hdu
            exact le_trans (le_of_lt hlt2) hlt
          · exact hall u h du hdu

theorem findSmallest_none (nodeSet : List String) (dist : DistMap)
    (h : findNodeWithSmallestDistance nodeSet dist = none) :
    ∀ u ∈ nodeSet, ∀ du, mapGet dist u = some du → du = ⊤ := by
  intro u hu du hdu
  cases nodeSet with
  | nil => cases hu
  | cons x rest =>
    rw [findSmallest_cons] at h
    rcases findAux_spec dist (x :: rest) ⊤ none with ⟨h1, h2⟩ | ⟨c, hc, dc, hdc, hres, hlt, hall⟩
    · exact top_le_iff.mp (h2 u hu du hdu)
    · rw [h] at hres
      cases hres

theorem findSmallest_some (nodeSet : List String) (dist : DistMap) (c : String)
    (h : findNodeWithSmallestDistance nodeSet dist = some c) :
    c ∈ nodeSet ∧ ∃ dc, mapGet dist c = some dc ∧ dc < ⊤ ∧
      ∀ u ∈ nodeSet, ∀ du, mapGet dist u = some du → dc ≤ du := by
  cases nodeSet with
  | nil => cases h
  | cons x rest =>
    rw [findSmallest_cons] at h
    rcases findAux_spec dist (x :: rest) ⊤ none with ⟨h1, h2⟩ | ⟨c0, hc0, dc, hdc, hres, hlt, hall⟩
    · rw [h] at h1
      cases h1
    · rw [h] at hres
      cases hres
      exact ⟨hc0, dc, hdc, hlt, hall⟩

/-! ## Weighted undirected walks -/

/-- A walk from `s` along stored edges, traversed in either direction, with the
total traversed weight; edges are appended at the end of the walk. -/
inductive WalkW (g : Graph) (s : String) : String → Nat → Prop where
  | refl : WalkW g s s 0
  | snoc {u v : String} {c : Nat} (e : Edge) (hw : WalkW g s u c)
      (he : e ∈ storedEdges g)
      (hor : (e.from_id = u ∧ e.to_id = v) ∨ (e.from_id = v ∧ e.to_id = u)) :
      WalkW g s v (c + e.data)

theorem reach_iff_walkW (g : Graph) (s v : String) :
    Reach g s v ↔ ∃ n, WalkW g s v n := by
  constructor
  · intro h
    induction h with
    | refl => exact ⟨0, WalkW.refl⟩
    | tail h1 h2 ih =>
      obtain ⟨n, hw⟩ := ih
      obtain ⟨e, he, hor⟩ := h2
      exact ⟨n + e.data, WalkW.snoc e hw he hor⟩
  · rintro ⟨n, hw⟩
    induction hw with
    | refl => exact Reach.refl g s
    | snoc e hw he hor ih =>
      exact Relation.ReflTransGen.tail ih ⟨e, he, hor⟩

/-! ## Dijkstra (part_009) -/

/-- The neighbor/weight pairs scanned by the relaxation step: the node's
outgoing list followed by its incoming list. -/
def neighborsOf (g : Graph) (c : String) : List (String × Nat) :=
  match g.find? c with
  | some n => n.outgoing_edges.map (fun e => (e.to_id, e.data)) ++
              n.incoming_edges.map (fun e => (e.from_id, e.data))
  | none => []

theorem neighborsOf_sound (g : Graph) (hwf : WF g) (c : String) :
    ∀ p ∈ neighborsOf g c, ∃ e ∈ storedEdges g,
      ((e.from_id = c ∧ e.to_id = p.1) ∨ (e.from_id = p.1 ∧ e.to_id = c)) ∧
      e.data = p.2 := by
  intro p hp
  unfold neighborsOf at hp
  cases hf : g.find? c with
  | none => rw [hf] at hp; cases hp
  | some n =>
    rw [hf] at hp
    obtain ⟨hn, hnid⟩ := find?_mem_id g c n hf
    rcases List.mem_append.mp hp with h | h
    · obtain ⟨e, he, rfl⟩ := List.mem_map.mp h
      refine ⟨e, (storedEdges_mem g e).mpr ⟨n, hn, he⟩, Or.inl ⟨?_, rfl⟩, rfl⟩
      rw [hwf.out_from n hn e he, hnid]
    · obtain ⟨e, he, rfl⟩ := List.mem_map.mp h
      obtain ⟨m, hm, hmid, hout⟩ := hwf.mirror_in n hn e he
      refine ⟨e, (storedEdges_mem g e).mpr ⟨m, hm, hout⟩, Or.inr ⟨rfl, ?_⟩, rfl⟩
      rw [hwf.in_to n hn e he, hnid]

theorem neighborsOf_complete (g : Graph) (hwf : WF g) (c : String)
    (e : Edge) (he : e ∈ storedEdges g) :
    (e.from_id = c → (e.to_id, e.data) ∈ neighborsOf g c) ∧
    (e.to_id = c → (e.from_id, e.data) ∈ neighborsOf g c) := by
  unfold neighborsOf
  constructor
  · intro hfrom
    obtain ⟨n, hn, hnid⟩ := hwf.edge_from_node he
    have hf : g.find? c = some n := by
      have hcn : n.id = c := by rw [hnid, hfrom]
      rw [← hcn]
      exact find?_of_mem g hwf.nodupIds n hn
    rw [hf]
    apply List.mem_append_left
    apply List.mem_map_of_mem
    apply hwf.out_complete he hn
    rw [hnid, hfrom]
  · intro hto
    obtain ⟨n, hn, hnid⟩ := hwf.endpointTo e he
    have hf : g.find? c = some n := by
      have hcn : n.id = c := by rw [hnid, hto]
      rw [← hcn]
      exact find?_of_mem g hwf.nodupIds n hn
    rw [hf]
    apply List.mem_append_right
    apply List.mem_map_of_mem
    obtain ⟨m, hm, hmout⟩ := (storedEdges_mem g e).mp he
    exact hwf.mirror_out m hm e hmout n hn (by rw [hnid, hto])

/-- `distances.has(n) ? distances.get(n)! : Infinity`. -/
def curDist (dist : DistMap) (nb : String) : WithTop Nat :=
  match mapGet dist nb with
  | some x => x
  | none => ⊤

/-- The `visited.has(neighborId) && distances.get(neighborId)! <= currentDistance`
skip guard of the relaxation loop. -/
def skipNb (visited : List String) (dist : DistMap) (nb : String)
    (d : WithTop Nat) : Bool :=
  visited.contains nb &&
    (match mapGet dist nb with
     | some x => decide (x ≤ d)
     | none => false)

/-- One edge-list relaxation pass of the main loop: for each neighbor, skip
visited nodes that are at least as close, otherwise update distance and
predecessor when the new candidate is strictly smaller. -/
def relaxList (c : String) (d : WithTop Nat) (visited : List String) :
    List (String × Nat) → DistMap × PrevMap → DistMap × PrevMap
  | [], st => st
  | (nb, w) :: rest, (dist, prev) =>
    if skipNb visited dist nb d then relaxList c d visited rest (dist, prev)
    else if d + (w : WithTop Nat) < curDist dist nb then
      relaxList c d visited rest
        (mapSet dist nb (d + (w : WithTop Nat)), mapSet prev nb (some c))
    else relaxList c d visited rest (dist, prev)

theorem relaxList_nil (c : String) (d : WithTop Nat) (visited : List String)
    (st : DistMap × PrevMap) : relaxList c d visited [] st = st := rfl

theorem relaxList_cons (c : String) (d : WithTop Nat) (visited : List String)
    (nb : String) (w : Nat) (rest : List (String × Nat)) (dist : DistMap)
    (prev : PrevMap) :
    relaxList c d visited ((nb, w) :: rest) (dist, prev) =
      if skipNb visited dist nb d then relaxList c d visited rest (dist, prev)
      else if d + (w : WithTop Nat) < curDist dist nb then
        relaxList c d visited rest
          (mapSet dist nb (d + (w : WithTop Nat)), mapSet prev nb (some c))
      else relaxList c d visited rest (dist, prev) := rfl

theorem contains_iff_mem (l : List String) (x : String) :
    l.contains x = true ↔ x ∈ l := by
  induction l with
  | nil => simp
  | cons a rest ih => simp [List.contains_cons]

theorem skipNb_true {visited : List String} {dist : DistMap} {nb : String}
    {d : WithTop Nat} (h : skipNb visited dist nb d = true) :
    nb ∈ visited ∧ ∃ x, mapGet dist nb = some x ∧ x ≤ d := by
  unfold skipNb at h
  rw [Bool.and_eq_true] at h
  refine ⟨(contains_iff_mem visited nb).mp h.1, ?_⟩
  have h2 := h.2
  cases hx : mapGet dist nb with
  | none => rw [hx] at h2; cases h2
  | some x =>
    rw [hx] at h2
    simp only [decide_eq_true_eq] at h2
    exact ⟨x, rfl, h2⟩

theorem skipNb_false_of_visited {visited : List String} {dist : DistMap}
    {nb : String} {d : WithTop Nat} (h : skipNb visited dist nb d = false)
    (hmem : nb ∈ visited) {x : WithTop Nat} (hx : mapGet dist nb = some x) :
    d < x := by
  unfold skipNb at h
  rw [Bool.and_eq_false_iff] at h
  rcases h with h | h
  · have hcontra := (contains_iff_mem visited nb).mpr hmem
    rw [h] at hcontra
    cases hcontra
  · rw [hx] at h
    simp only [decide_eq_false_iff_not, not_le] at h
    exact h

theorem relaxList_spec (c : String) (nc : Nat) (visited2 : List String)
    (pairs : List (String × Nat)) :
    ∀ (dist : DistMap) (prev : PrevMap) (res : DistMap × PrevMap),
    relaxList c (nc : WithTop Nat) visited2 pairs (dist, prev) = res →
    (∀ p ∈ pairs, p.1 ∈ dist.map Prod.fst) →
    (∀ p ∈ pairs, p.1 ∈ prev.map Prod.fst) →
    (∀ v ∈ visited2, ∀ dv, mapGet dist v = some dv → dv ≤ (nc : WithTop Nat)) →
    (res.1.map Prod.fst = dist.map Prod.fst ∧
     res.2.map Prod.fst = prev.map Prod.fst) ∧
    (∀ v ∈ visited2, mapGet res.1 v = mapGet dist v) ∧
    (∀ x, (mapGet res.1 x = mapGet dist x ∧ mapGet res.2 x = mapGet prev x) ∨
      (x ∉ visited2 ∧ mapGet res.2 x = some (some c) ∧
        ∃ p ∈ pairs, p.1 = x ∧
          mapGet res.1 x = some ((nc : WithTop Nat) + (p.2 : WithTop Nat)) ∧
          ∃ dx0, mapGet dist x = some dx0 ∧
            (nc : WithTop Nat) + (p.2 : WithTop Nat) < dx0)) ∧
    (∀ x dx2, mapGet res.1 x = some dx2 → ∃ dx, mapGet dist x = some dx ∧ dx2 ≤ dx) ∧
    (∀ p ∈ pairs, ∀ dnb, mapGet res.1 p.1 = some dnb →
      dnb ≤ (nc : WithTop Nat) + (p.2 : WithTop Nat)) := by
  induction pairs with
  | nil =>
    intro dist prev res hres hkd hkp hvle
    rw [relaxList_nil] at hres
    subst hres
    refine ⟨⟨rfl, rfl⟩, fun v _ => rfl, fun x => Or.inl ⟨rfl, rfl⟩, ?_, ?_⟩
    · intro x dx2 h
      exact ⟨dx2, h, le_refl _⟩
    · intro p hp
      cases hp
  | cons pw rest ih =>
    intro dist prev res hres hkd hkp hvle
    obtain ⟨nb, w⟩ := pw
    rw [relaxList_cons] at hres
    by_cases hskip : skipNb visited2 dist nb (nc : WithTop Nat) = true
    · rw [if_pos hskip] at hres
      obtain ⟨⟨k1, k2⟩, vst, upd, mono, bound⟩ := ih dist prev res hres
        (fun p hp => hkd p (List.mem_cons_of_mem _ hp))
        (fun p hp => hkp p (List.mem_cons_of_mem _ hp)) hvle
      refine ⟨⟨k1, k2⟩, vst, ?_, mono, ?_⟩
      · intro x
        rcases upd x with h | ⟨h1, h2, p, hp, h3⟩
        · exact Or.inl h
        · exact Or.inr ⟨h1, h2, p, List.mem_cons_of_mem _ hp, h3⟩
      · intro p hp dnb hdnb
        rcases List.mem_cons.mp hp with h | h
        · subst h
          obtain ⟨hmem, x0, hx0, hle⟩ := skipNb_true hskip
          rw [vst nb hmem, hx0] at hdnb
          cases hdnb
          exact le_trans hle (le_self_add)
        · exact bound p h dnb hdnb
    · rw [if_neg hskip] at hres
      rw [Bool.not_eq_true] at hskip
      have hnbkey : nb ∈ dist.map Prod.fst := hkd (nb, w) (List.mem_cons_self _ _)
      obtain ⟨dnb0, hdnb0⟩ : ∃ v, mapGet dist nb = some v :=
        Option.isSome_iff_exists.mp ((mapGet_isSome_iff dist nb).mpr hnbkey)
      have hcur : curDist dist nb = dnb0 := by
        unfold curDist
        rw [hdnb0]
      by_cases hlt : (nc : WithTop Nat) + (w : WithTop Nat) < curDist dist nb
      · rw [if_pos hlt] at hres
        rw [hcur] at hlt
        have hnbnv : nb ∉ visited2 := by
          intro hmem
          have := skipNb_false_of_visited hskip hmem hdnb0
          have h2 := hvle nb hmem dnb0 hdnb0
          exact absurd (lt_of_le_of_lt h2 (lt_of_le_of_lt le_self_add hlt)) (lt_irrefl _)
        have hkeys2 : (mapSet dist nb ((nc : WithTop Nat) + (w : WithTop Nat))).map
            Prod.fst = dist.map Prod.fst := mapSet_keys dist nb _ hnbkey
        have hkeys2p : (mapSet prev nb (some c)).map Prod.fst = prev.map Prod.fst :=
          mapSet_keys prev nb _ (hkp (nb, w) (List.mem_cons_self _ _))
        obtain ⟨⟨k1, k2⟩, vst, upd, mono, bound⟩ := ih
          (mapSet dist nb ((nc : WithTop Nat) + (w : WithTop Nat)))
          (mapSet prev nb (some c)) res hres
          (fun p hp => hkeys2 ▸ hkd p (List.mem_cons_of_mem _ hp))
          (fun p hp => hkeys2p ▸ hkp p (List.mem_cons_of_mem _ hp))
          (by
            intro v hv dv hdv
            have hvne : v ≠ nb := fun h => hnbnv (h ▸ hv)
            rw [mapGet_mapSet_ne dist nb v _ hvne] at hdv
            exact hvle v hv dv hdv)
        refine ⟨⟨k1.trans hkeys2, k2.trans hkeys2p⟩, ?_, ?_, ?_, ?_⟩
        · intro v hv
          have hvne : v ≠ nb := fun h => hnbnv (h ▸ hv)
          rw [vst v hv, mapGet_mapSet_ne dist nb v _ hvne]
        · intro x
          by_cases hx : x = nb
          · subst hx
            rcases upd x with ⟨h1, h2⟩ | ⟨h1, h2, p, hp, hpx, h3, dx0, hdx0, hlt0⟩
            · right
              refine ⟨hnbnv, ?_, (x, w), List.mem_cons_self _ _, rfl, ?_, dnb0, hdnb0, hlt⟩
              · rw [h2, mapGet_mapSet_self]
              · rw [h1, mapGet_mapSet_self]
            · right
              rw [mapGet_mapSet_self] at hdx0
              cases hdx0
              refine ⟨hnbnv, h2, p, List.mem_cons_of_mem _ hp, hpx, h3, dnb0, hdnb0, ?_⟩
              exact lt_trans hlt0 hlt
          · rcases upd x with ⟨h1, h2⟩ | ⟨h1, h2, p, hp, hpx, h3, dx0, hdx0, hlt0⟩
            · left
              rw [h1, h2, mapGet_mapSet_ne dist nb x _ hx,
                mapGet_mapSet_ne prev nb x _ hx]
              exact ⟨rfl, rfl⟩
            · right
              rw [mapGet_mapSet_ne dist nb x _ hx] at hdx0
              exact ⟨h1, h2, p, List.mem_cons_of_mem _ hp, hpx, h3, dx0, hdx0, hlt0⟩
        · intro x dx2 hdx2
          obtain ⟨dx, hdx, hle⟩ := mono x dx2 hdx2
          by_cases hx : x = nb
          · subst hx
            rw [mapGet_mapSet_self] at hdx
            cases hdx
            exact ⟨dnb0, hdnb0, le_trans hle (le_of_lt hlt)⟩
          · rw [mapGet_mapSet_ne dist nb x _ hx] at hdx
            exact ⟨dx, hdx, hle⟩
        · intro p hp dnb hdnb
          rcases List.mem_cons.mp hp with h | h
          · subst h
            obtain ⟨dx, hdx, hle⟩ := mono nb dnb hdnb
            rw [mapGet_mapSet_self] at hdx
            cases hdx
            exact hle
          · exact bound p h dnb hdnb
      · rw [if_neg hlt] at hres
        rw [hcur] at hlt
        push_neg at hlt
        obtain ⟨⟨k1, k2⟩, vst, upd, mono, bound⟩ := ih dist prev res hres
          (fun p hp => hkd p (List.mem_cons_of_mem _ hp))
          (fun p hp => hkp p (List.mem_cons_of_mem _ hp)) hvle
        refine ⟨⟨k1, k2⟩, vst, ?_, mono, ?_⟩
        · intro x
          rcases upd x with h | ⟨h1, h2, p, hp, h3⟩
          · exact Or.inl h
          · exact Or.inr ⟨h1, h2, p, List.mem_cons_of_mem _ hp, h3⟩
        · intro p hp dnb hdnb
          rcases List.mem_cons.mp hp with h | h
          · subst h
            obtain ⟨dx, hdx, hle⟩ := mono nb dnb hdnb
            rw [hdnb0] at hdx
            cases hdx
            exact le_trans hle hlt
          · exact bound p h dnb hdnb

theorem indexOf_append_fresh (a : String) (l : List String) (h : a ∉ l) :
    (l ++ [a]).indexOf a = l.length := by
  induction l with
  | nil => simp
  | cons x rest ih =>
    simp only [List.cons_append, List.indexOf_cons]
    have hne : (x == a) = false := by
      simp only [beq_eq_false_iff_ne, ne_eq]
      intro hh
      exact h (by simp [hh])
    rw [hne]
    simp only [cond_false, List.length_cons]
    rw [ih (fun hh => h (List.mem_cons_of_mem _ hh))]

/-- The mutable algorithm state of `dijkstra`. -/
structure DState where
  dist : DistMap
  prev : PrevMap
  visited : List String
  unvisited : List String

/-- The `while (unvisited.size > 0)` loop, fueled by the number of nodes. -/
def dijkstraLoop (g : Graph) : Nat → DState → DState
  | 0, st => st
  | fuel + 1, st =>
    if st.unvisited = [] then st
    else
      match findNodeWithSmallestDistance st.unvisited st.dist with
      | none => st
      | some c =>
        if curDist st.dist c = ⊤ then st
        else
          dijkstraLoop g fuel
            { dist := (relaxList c (curDist st.dist c) (st.visited ++ [c])
                (neighborsOf g c) (st.dist, st.prev)).1,
              prev := (relaxList c (curDist st.dist c) (st.visited ++ [c])
                (neighborsOf g c) (st.dist, st.prev)).2,
              visited := st.visited ++ [c],
              unvisited := st.unvisited.erase c }

theorem dijkstraLoop_zero (g : Graph) (st : DState) : dijkstraLoop g 0 st = st := rfl

theorem dijkstraLoop_succ (g : Graph) (fuel : Nat) (st : DState) :
    dijkstraLoop g (fuel + 1) st =
      if st.unvisited = [] then st
      else
        match findNodeWithSmallestDistance st.unvisited st.dist with
        | none => st
        | some c =>
          if curDist st.dist c = ⊤ then st
          else
            dijkstraLoop g fuel
              { dist := (relaxList c (curDist st.dist c) (st.visited ++ [c])
                  (neighborsOf g c) (st.dist, st.prev)).1,
                prev := (relaxList c (curDist st.dist c) (st.visited ++ [c])
                  (neighborsOf g c) (st.dist, st.prev)).2,
                visited := st.visited ++ [c],
                unvisited := st.unvisited.erase c } := rfl

/-- The inductive invariant of the main loop. -/
structure DInv (g : Graph) (s : String) (st : DState) : Prop where
  dkeys : st.dist.map Prod.fst = g.nodes.map Node.id
  pkeys : st.prev.map Prod.fst = g.nodes.map Node.id
  perm : (st.visited ++ st.unvisited).Perm (g.nodes.map Node.id)
  ds0 : mapGet st.dist s = some 0
  vu : ∀ v ∈ st.visited, ∀ dv, mapGet st.dist v = some dv →
       ∀ u ∈ st.unvisited, ∀ du, mapGet st.dist u = some du → dv ≤ du
  relaxed : ∀ v ∈ st.visited, ∀ dv, mapGet st.dist v = some dv →
       ∀ p ∈ neighborsOf g v, ∀ dp, mapGet st.dist p.1 = some dp →
       dp ≤ dv + (p.2 : WithTop Nat)
  attain : ∀ x (n : Nat), mapGet st.dist x = some ((n : Nat) : WithTop Nat) →
       WalkW g s x n
  prevspec : ∀ x p, mapGet st.prev x = some (some p) →
       p ∈ st.visited ∧ ∃ (w np : Nat),
         (∃ e ∈ storedEdges g,
           ((e.from_id = p ∧ e.to_id = x) ∨ (e.from_id = x ∧ e.to_id = p)) ∧
           e.data = w) ∧
         mapGet st.dist p = some ((np : Nat) : WithTop Nat) ∧
         mapGet st.dist x = some (((np + w : Nat)) : WithTop Nat)
  previdx : ∀ x ∈ st.visited, x ≠ s →
       ∃ p, mapGet st.prev x = some (some p) ∧
         st.visited.indexOf p < st.visited.indexOf x
  pnone : ∀ x, x ≠ s → ∀ (n : Nat), mapGet st.dist x = some ((n : Nat) : WithTop Nat) →
       ∃ p, mapGet st.prev x = some (some p)

theorem dijkstraLoop_stop_none (g : Graph) (fuel : Nat) (st : DState)
    (hne : ¬ st.unvisited = [])
    (hfind : findNodeWithSmallestDistance st.unvisited st.dist = none) :
    dijkstraLoop g (fuel + 1) st = st := by
  rw [dijkstraLoop_succ, if_neg hne, hfind]

theorem dijkstraLoop_step (g : Graph) (fuel : Nat) (st : DState) (c : String)
    (hne : ¬ st.unvisited = [])
    (hfind : findNodeWithSmallestDistance st.unvisited st.dist = some c)
    (htop : ¬ curDist st.dist c = ⊤) :
    dijkstraLoop g (fuel + 1) st =
      dijkstraLoop g fuel
        { dist := (relaxList c (curDist st.dist c) (st.visited ++ [c])
            (neighborsOf g c) (st.dist, st.prev)).1,
          prev := (relaxList c (curDist st.dist c) (st.visited ++ [c])
            (neighborsOf g c) (st.dist, st.prev)).2,
          visited := st.visited ++ [c],
          unvisited := st.unvisited.erase c } := by
  rw [dijkstraLoop_succ, if_neg hne, hfind]
  show (if curDist st.dist c = ⊤ then st
        else dijkstraLoop g fuel
          { dist := (relaxList c (curDist st.dist c) (st.visited ++ [c])
              (neighborsOf g c) (st.dist, st.prev)).1,
            prev := (relaxList c (curDist st.dist c) (st.visited ++ [c])
              (neighborsOf g c) (st.dist, st.prev)).2,
            visited := st.visited ++ [c],
            unvisited := st.unvisited.erase c }) = _
  rw [if_neg htop]

theorem dijkstraLoop_spec (g : Graph) (hwf : WF g) (s : String) (fuel : Nat) :
    ∀ st : DState, DInv g s st → st.unvisited.length ≤ fuel →
    DInv g s (dijkstraLoop g fuel st) ∧
    ∀ u ∈ (dijkstraLoop g fuel st).unvisited,
      mapGet (dijkstraLoop g fuel st).dist u = some ⊤ := by
  induction fuel with
  | zero =>
    intro st hinv hlen
    have hnil : st.unvisited = [] := List.eq_nil_of_length_eq_zero (Nat.le_zero.mp hlen)
    rw [dijkstraLoop_zero]
    refine ⟨hinv, ?_⟩
    intro u hu
    rw [hnil] at hu
    cases hu
  | succ fuel ih =>
    intro st hinv hlen
    by_cases hempty : st.unvisited = []
    · rw [dijkstraLoop_succ, if_pos hempty]
      refine ⟨hinv, ?_⟩
      intro u hu
      rw [hempty] at hu
      cases hu
    · cases hfind : findNodeWithSmallestDistance st.unvisited st.dist with
      | none =>
        rw [dijkstraLoop_stop_none g fuel st hempty hfind]
        refine ⟨hinv, ?_⟩
        intro u hu
        have hukey : u ∈ st.dist.map Prod.fst := by
          rw [hinv.dkeys]
          exact hinv.perm.mem_iff.mp (List.mem_append_right _ hu)
        obtain ⟨du, hdu⟩ := Option.isSome_iff_exists.mp ((mapGet_isSome_iff _ _).mpr hukey)
        rw [hdu, findSmallest_none st.unvisited st.dist hfind u hu du hdu]
      | some c =>
        obtain ⟨hcmem, dc, hdc, hdctop, hmin⟩ := findSmallest_some _ _ c hfind
        obtain ⟨nc, rfl⟩ : ∃ n : Nat, dc = ((n : Nat) : WithTop Nat) := by
          cases dc with
          | top => exact absurd hdctop (lt_irrefl _)
          | coe n => exact ⟨n, rfl⟩
        have hcur : curDist st.dist c = ((nc : Nat) : WithTop Nat) := by
          unfold curDist
          rw [hdc]
        rw [dijkstraLoop_step g fuel st c hempty hfind
          (by rw [hcur]; exact WithTop.coe_ne_top), hcur]
        have hkd : ∀ p ∈ neighborsOf g c, p.1 ∈ st.dist.map Prod.fst := by
          intro p hp
          obtain ⟨e, he, hor, hw⟩ := neighborsOf_sound g hwf c p hp
          rw [hinv.dkeys]
          rcases hor with ⟨h1, h2⟩ | ⟨h1, h2⟩
          · rw [← h2]
            exact (hasNode_iff_map g _).mp (hwf.endpointTo e he)
          · rw [← h1]
            exact (hasNode_iff_map g _).mp (hwf.edge_from_node he)
        have hkp : ∀ p ∈ neighborsOf g c, p.1 ∈ st.prev.map Prod.fst := by
          intro p hp
          rw [hinv.pkeys, ← hinv.dkeys]
          exact hkd p hp
        have hvle : ∀ v ∈ st.visited ++ [c], ∀ dv, mapGet st.dist v = some dv →
            dv ≤ ((nc : Nat) : WithTop Nat) := by
          intro v hv dv hdv
          rcases List.mem_append.mp hv with h | h
          · exact hinv.vu v h dv hdv c hcmem _ hdc
          · simp only [List.mem_singleton] at h
            subst h
            cases (hdv.symm.trans hdc)
            exact le_refl _
        obtain ⟨⟨k1, k2⟩, vst, upd, mono, bound⟩ :=
          relaxList_spec c nc (st.visited ++ [c]) (neighborsOf g c) st.dist st.prev
            _ rfl hkd hkp hvle
        have hcv2 : c ∈ st.visited ++ [c] := List.mem_append_right _ (by simp)
        have hnd2 : (st.visited ++ st.unvisited).Nodup :=
          hinv.perm.nodup_iff.mpr hwf.nodupIds
        have hcnotv : c ∉ st.visited := fun hcv =>
          (List.disjoint_of_nodup_append hnd2) hcv hcmem
        have hinv2 : DInv g s
            { dist := (relaxList c ((nc : Nat) : WithTop Nat) (st.visited ++ [c])
                (neighborsOf g c) (st.dist, st.prev)).1,
              prev := (relaxList c ((nc : Nat) : WithTop Nat) (st.visited ++ [c])
                (neighborsOf g c) (st.dist, st.prev)).2,
              visited := st.visited ++ [c],
              unvisited := st.unvisited.erase c } := by
          refine ⟨k1.trans hinv.dkeys, k2.trans hinv.pkeys, ?_, ?_, ?_, ?_, ?_, ?_, ?_, ?_⟩
          · show ((st.visited ++ [c]) ++ st.unvisited.erase c).Perm _
            rw [List.append_assoc]
            exact (List.Perm.append_left st.visited
              (List.perm_cons_erase hcmem).symm).trans hinv.perm
          · show mapGet _ s = some 0
            rcases upd s with ⟨h1, -⟩ | ⟨-, -, p, -, -, h3, dx0, hdx0, hlt0⟩
            · rw [h1]
              exact hinv.ds0
            · rw [hinv.ds0] at hdx0
              cases hdx0
              exact absurd hlt0 (not_lt_of_le (zero_le _))
          · intro v hv dv hdv u hu du hdu
            rw [vst v hv] at hdv
            have humem : u ∈ st.unvisited := List.mem_of_mem_erase hu
            have hdvle : dv ≤ ((nc : Nat) : WithTop Nat) := hvle v hv dv hdv
            rcases upd u with ⟨h1, -⟩ | ⟨-, -, p, hp, hpx, h3, -⟩
            · rw [h1] at hdu
              rcases List.mem_append.mp hv with hvold | hvc
              · exact hinv.vu v hvold dv hdv u humem du hdu
              · simp only [List.mem_singleton] at hvc
                subst hvc
                cases (hdv.symm.trans hdc)
                exact hmin u humem du hdu
            · cases (hdu.symm.trans h3)
              exact le_trans hdvle le_self_add
          · intro v hv dv hdv q hq dq hdq
            rw [vst v hv] at hdv
            rcases List.mem_append.mp hv with hvold | hvc
            · obtain ⟨dq0, hdq0, hle⟩ := mono q.1 dq hdq
              exact le_trans hle (hinv.relaxed v hvold dv hdv q hq dq0 hdq0)
            · simp only [List.mem_singleton] at hvc
              subst hvc
              cases (hdv.symm.trans hdc)
              exact bound q hq dq hdq
          · intro x n hx
            rcases upd x with ⟨h1, -⟩ | ⟨-, -, p, hp, hpx, h3, -⟩
            · rw [h1] at hx
              exact hinv.attain x n hx
            · have hval : ((n : Nat) : WithTop Nat) =
                  ((nc : Nat) : WithTop Nat) + ((p.2 : Nat) : WithTop Nat) :=
                Option.some.inj (hx.symm.trans h3)
              have hn : n = nc + p.2 := by exact_mod_cast hval
              obtain ⟨e, he, hor, hw⟩ := neighborsOf_sound g hwf c p hp
              rw [hpx] at hor
              have hwalk := WalkW.snoc e (hinv.attain c nc hdc) he hor
              rw [hw] at hwalk
              rw [hn]
              exact hwalk
          · intro x p hp2
            rcases upd x with ⟨h1, h2⟩ | ⟨hnv, h2, q, hq, hqx, h3, -⟩
            · rw [h2] at hp2
              obtain ⟨hpv, w, np, hedge, hdp, hdx⟩ := hinv.prevspec x p hp2
              refine ⟨List.mem_append_left _ hpv, w, np, hedge, ?_, ?_⟩
              · rw [vst p (List.mem_append_left _ hpv)]
                exact hdp
              · rw [h1]
                exact hdx
            · cases (hp2.symm.trans h2)
              obtain ⟨e, he, hor, hw⟩ := neighborsOf_sound g hwf c q hq
              rw [hqx] at hor
              refine ⟨hcv2, q.2, nc, ⟨e, he, ?_, hw⟩, ?_, ?_⟩
              · rcases hor with ⟨ha, hb⟩ | ⟨ha, hb⟩
                · exact Or.inl ⟨ha, hb⟩
                · exact Or.inr ⟨ha, hb⟩
              · rw [vst c hcv2]
                exact hdc
              · rw [h3]
                norm_cast
          · intro x hx hxs
            rcases List.mem_append.mp hx with hxold | hxc
            · obtain ⟨p, hp2, hidx⟩ := hinv.previdx x hxold hxs
              have hpv : p ∈ st.visited := (hinv.prevspec x p hp2).1
              refine ⟨p, ?_, ?_⟩
              · rcases upd x with ⟨-, h2⟩ | ⟨hnv, -⟩
                · rw [h2]
                  exact hp2
                · exact absurd (List.mem_append_left _ hxold) hnv
              · rw [List.indexOf_append_of_mem hpv, List.indexOf_append_of_mem hxold]
                exact hidx
            · simp only [List.mem_singleton] at hxc
              subst hxc
              obtain ⟨p, hp2⟩ := hinv.pnone x hxs nc hdc
              have hpv : p ∈ st.visited := (hinv.prevspec x p hp2).1
              refine ⟨p, ?_, ?_⟩
              · rcases upd x with ⟨-, h2⟩ | ⟨hnv, -⟩
                · rw [h2]
                  exact hp2
                · exact absurd hcv2 hnv
              · rw [List.indexOf_append_of_mem hpv, indexOf_append_fresh x st.visited hcnotv]
                exact List.indexOf_lt_length.mpr hpv
          · intro x hxs n hx
            rcases upd x with ⟨h1, h2⟩ | ⟨-, h2, -⟩
            · rw [h1] at hx
              obtain ⟨p, hp2⟩ := hinv.pnone x hxs n hx
              refine ⟨p, ?_⟩
              rw [h2]
              exact hp2
            · exact ⟨c, h2⟩
        have hlen2 : (st.unvisited.erase c).length ≤ fuel := by
          rw [List.length_erase_of_mem hcmem]
          have hpos : 0 < st.unvisited.length := List.length_pos.mpr hempty
          omega
        exact ih _ hinv2 hlen2

/-- The initialization: all nodes get distance `Infinity` except the start
node's `0`, `previous` all `null`, all nodes unvisited, in `Object.keys`
(insertion) order. -/
def dijkstraInit (g : Graph) (s : String) : DState :=
  { dist := g.nodes.map (fun n => (n.id, if n.id = s then (0 : WithTop Nat) else ⊤)),
    prev := g.nodes.map (fun n => (n.id, (none : Option String))),
    visited := [],
    unvisited := g.nodes.map Node.id }

/-- `dijkstra(graph, startNodeId)`: validate the start node, then run the main
loop; the fuel `g.nodes.length` dominates the loop's iteration count. -/
def dijkstra (g : Graph) (s : String) : Except String DState :=
  if (g.find? s).isSome then
    Except.ok (dijkstraLoop g g.nodes.length (dijkstraInit g s))
  else
    Except.error ("Start node " ++ s ++ " not found in the graph")

theorem mapGet_node_init {α : Type} (l : List Node) (F : String → α) (x : String) :
    mapGet (l.map (fun n => (n.id, F n.id))) x =
      if x ∈ l.map Node.id then some (F x) else none := by
  induction l with
  | nil => simp [mapGet]
  | cons n rest ih =>
    by_cases hn : n.id = x
    · unfold mapGet
      simp only [List.map_cons, List.find?_cons]
      have hd : (decide ((n.id, F n.id).1 = x)) = true := by simp [hn]
      rw [hd]
      have hmem : x ∈ n.id :: rest.map Node.id := by simp [hn]
      rw [if_pos (by simpa using hmem)]
      simp [hn]
    · unfold mapGet
      simp only [List.map_cons, List.find?_cons]
      have hd : (decide ((n.id, F n.id).1 = x)) = false := by simp [hn]
      rw [hd]
      have hx : (x ∈ n.id :: List.map Node.id rest) ↔ (x ∈ List.map Node.id rest) := by
        simp only [List.mem_cons]
        constructor
        · intro h
          rcases h with h | h
          · exact absurd h.symm hn
          · exact h
        · exact fun h => Or.inr h
      rw [if_congr hx rfl rfl]
      exact ih

theorem init_keys {α : Type} (l : List Node) (F : String → α) :
    (l.map (fun n => (n.id, F n.id))).map Prod.fst = l.map Node.id := by
  rw [List.map_map]
  apply List.map_congr_left
  intro n _
  rfl

theorem dijkstraInit_inv (g : Graph) (s : String) (hs : g.hasNode s) :
    DInv g s (dijkstraInit g s) := by
  have hdist : ∀ x, mapGet (dijkstraInit g s).dist x =
      if x ∈ g.nodes.map Node.id then some (if x = s then (0 : WithTop Nat) else ⊤)
      else none := by
    intro x
    show mapGet (g.nodes.map (fun n =>
      (n.id, if n.id = s then (0 : WithTop Nat) else ⊤))) x = _
    exact mapGet_node_init g.nodes (fun i => if i = s then (0 : WithTop Nat) else ⊤) x
  have hprev : ∀ x, mapGet (dijkstraInit g s).prev x =
      if x ∈ g.nodes.map Node.id then some (none : Option String) else none := by
    intro x
    show mapGet (g.nodes.map (fun n => (n.id, (none : Option String)))) x = _
    exact mapGet_node_init g.nodes (fun _ => (none : Option String)) x
  refine ⟨?_, ?_, ?_, ?_, ?_, ?_, ?_, ?_, ?_, ?_⟩
  · show (g.nodes.map (fun n =>
      (n.id, if n.id = s then (0 : WithTop Nat) else ⊤))).map Prod.fst = _
    exact init_keys g.nodes (fun i => if i = s then (0 : WithTop Nat) else ⊤)
  · show (g.nodes.map (fun n => (n.id, (none : Option String)))).map Prod.fst = _
    exact init_keys g.nodes (fun _ => (none : Option String))
  · show (([] : List String) ++ g.nodes.map Node.id).Perm (g.nodes.map Node.id)
    simp
  · rw [hdist s, if_pos ((hasNode_iff_map g s).mp hs), if_pos rfl]
  · intro v hv
    cases hv
  · intro v hv
    cases hv
  · intro x n hx
    rw [hdist x] at hx
    by_cases hmem : x ∈ g.nodes.map Node.id
    · rw [if_pos hmem] at hx
      by_cases hxs : x = s
      · subst hxs
        rw [if_pos rfl] at hx
        have h0 : ((n : Nat) : WithTop Nat) = 0 := (Option.some.inj hx).symm
        have hn0 : n = 0 := by exact_mod_cast h0
        rw [hn0]
        exact WalkW.refl
      · rw [if_neg hxs] at hx
        exact absurd (Option.some.inj hx).symm WithTop.coe_ne_top
    · rw [if_neg hmem] at hx
      cases hx
  · intro x p hp
    rw [hprev x] at hp
    by_cases hmem : x ∈ g.nodes.map Node.id
    · rw [if_pos hmem] at hp
      cases Option.some.inj hp
    · rw [if_neg hmem] at hp
      cases hp
  · intro x hx
    cases hx
  · intro x hxs n hx
    rw [hdist x] at hx
    by_cases hmem : x ∈ g.nodes.map Node.id
    · rw [if_pos hmem, if_neg hxs] at hx
      exact absurd (Option.some.inj hx) (fun h => WithTop.coe_ne_top (h.symm))
    · rw [if_neg hmem] at hx
      cases hx

theorem dijkstra_run (g : Graph) (hwf : WF g) (s : String) (hs : g.hasNode s) :
    dijkstra g s = Except.ok (dijkstraLoop g g.nodes.length (dijkstraInit g s)) ∧
    DInv g s (dijkstraLoop g g.nodes.length (dijkstraInit g s)) ∧
    ∀ u ∈ (dijkstraLoop g g.nodes.length (dijkstraInit g s)).unvisited,
      mapGet (dijkstraLoop g g.nodes.length (dijkstraInit g s)).dist u = some ⊤ := by
  have hfuel : (dijkstraInit g s).unvisited.length ≤ g.nodes.length := by
    show (g.nodes.map Node.id).length ≤ g.nodes.length
    rw [List.length_map]
  obtain ⟨h1, h2⟩ := dijkstraLoop_spec g hwf s g.nodes.length (dijkstraInit g s)
    (dijkstraInit_inv g s hs) hfuel
  refine ⟨?_, h1, h2⟩
  unfold dijkstra
  rw [if_pos ((find?_isSome_iff g s).mpr hs)]

theorem final_lower_bound (g : Graph) (hwf : WF g) (s : String) (F : DState)
    (hinv : DInv g s F) (htop : ∀ u ∈ F.unvisited, mapGet F.dist u = some ⊤) :
    ∀ (v : String) (m : Nat), WalkW g s v m →
    ∀ dv, mapGet F.dist v = some dv → dv ≤ ((m : Nat) : WithTop Nat) := by
  intro v m hw
  induction hw with
  | refl =>
    intro dv hdv
    cases (hdv.symm.trans hinv.ds0)
    exact le_of_eq (by norm_cast)
  | snoc e hw2 he hor ih =>
    intro dv hdv
    rename_i u v0 m0
    have huNode : g.hasNode u := by
      rcases hor with ⟨h1, h2⟩ | ⟨h1, h2⟩
      · rw [← h1]
        exact hwf.edge_from_node he
      · rw [← h2]
        exact hwf.endpointTo e he
    have hukey : u ∈ F.dist.map Prod.fst := by
      rw [hinv.dkeys]
      exact (hasNode_iff_map g u).mp huNode
    obtain ⟨du, hdu⟩ := Option.isSome_iff_exists.mp ((mapGet_isSome_iff _ _).mpr hukey)
    have hdule := ih du hdu
    by_cases huv : u ∈ F.visited
    · have hpair : (v0, e.data) ∈ neighborsOf g u := by
        rcases hor with ⟨h1, h2⟩ | ⟨h1, h2⟩
        · rw [← h2]
          exact (neighborsOf_complete g hwf u e he).1 h1
        · rw [← h1]
          exact (neighborsOf_complete g hwf u e he).2 h2
      have hrel := hinv.relaxed u huv du hdu (v0, e.data) hpair dv hdv
      calc dv ≤ du + ((e.data : Nat) : WithTop Nat) := hrel
        _ ≤ ((m0 : Nat) : WithTop Nat) + ((e.data : Nat) : WithTop Nat) :=
          add_le_add_right hdule _
        _ = (((m0 + e.data : Nat)) : WithTop Nat) := by norm_cast
    · have humem : u ∈ F.unvisited := by
        have : u ∈ F.visited ++ F.unvisited :=
          hinv.perm.mem_iff.mpr ((hasNode_iff_map g u).mp huNode)
        rcases List.mem_append.mp this with h | h
        · exact absurd h huv
        · exact h
      have : du = ⊤ := Option.some.inj ((hdu.symm.trans (htop u humem)))
      rw [this] at hdule
      exact absurd (top_le_iff.mp hdule) WithTop.coe_ne_top

/-- C1: for every well-formed graph and start node in it, `dijkstra` assigns
distance `0` to the start node, and to every node the exact undirected
shortest-walk distance along stored edges (relaxing both outgoing and incoming
lists), with the `Infinity` sentinel exactly on the nodes unreachable from the
start by undirected traversal. -/
theorem C1_dijkstra (g : Graph) (hwf : WF g) (s : String) (hs : g.hasNode s) :
    ∃ F : DState, dijkstra g s = Except.ok F ∧
      mapGet F.dist s = some 0 ∧
      ∀ v, g.hasNode v → ∃ dv, mapGet F.dist v = some dv ∧
        (∀ m : Nat, WalkW g s v m → dv ≤ ((m : Nat) : WithTop Nat)) ∧
        (∀ n : Nat, dv = ((n : Nat) : WithTop Nat) → WalkW g s v n) ∧
        (dv = ⊤ ↔ ¬ Reach g s v) := by
  obtain ⟨hrun, hinv, htop⟩ := dijkstra_run g hwf s hs
  refine ⟨_, hrun, hinv.ds0, ?_⟩
  intro v hv
  have hvkey : v ∈ (dijkstraLoop g g.nodes.length (dijkstraInit g s)).dist.map
      Prod.fst := by
    rw [hinv.dkeys]
    exact (hasNode_iff_map g v).mp hv
  obtain ⟨dv, hdv⟩ := Option.isSome_iff_exists.mp ((mapGet_isSome_iff _ _).mpr hvkey)
  refine ⟨dv, hdv, ?_, ?_, ?_⟩
  · intro m hw
    exact final_lower_bound g hwf s _ hinv htop v m hw dv hdv
  · intro n hn
    rw [hn] at hdv
    exact hinv.attain v n hdv
  · constructor
    · intro hdvtop hreach
      obtain ⟨m, hw⟩ := (reach_iff_walkW g s v).mp hreach
      have := final_lower_bound g hwf s _ hinv htop v m hw dv hdv
      rw [hdvtop] at this
      exact absurd (top_le_iff.mp this) WithTop.coe_ne_top
    · intro hnr
      by_contra hne
      obtain ⟨n, rfl⟩ : ∃ n : Nat, dv = ((n : Nat) : WithTop Nat) := by
        cases dv with
        | top => exact absurd rfl hne
        | coe n => exact ⟨n, rfl⟩
      exact hnr ((reach_iff_walkW g s v).mpr ⟨n, hinv.attain v n hdv⟩)

theorem C1_dijkstra_witness :
    ∃ F : DState, dijkstra gw1 "a" = Except.ok F ∧ mapGet F.dist "a" = some 0 := by
  obtain ⟨F, h1, h2, -⟩ := C1_dijkstra gw1 gw1_wf "a" (by decide)
  exact ⟨F, h1, h2⟩

/-! ## Grid dynamic programming (`dynamic_common.ts`) -/

/-- `dpValues[r][c]` (0 outside the grid; the claims only cover in-bounds
cells of rectangular grids). -/
def gridVal (grid : List (List Nat)) (r c : Nat) : Nat :=
  (grid.getD r []).getD c 0

/-- The DP distance array: each cell is filled once, from its up/left
neighbors, in row-major order; `Infinity` is absorbed by `WithTop`
arithmetic exactly as in the source's `distance < minDistance` scan. -/
def dpDist (grid : List (List Nat)) : Nat → Nat → WithTop Nat
  | 0, 0 => ((gridVal grid 0 0 : Nat) : WithTop Nat)
  | 0, c + 1 => dpDist grid 0 c + ((gridVal grid 0 (c + 1) : Nat) : WithTop Nat)
  | r + 1, 0 => dpDist grid r 0 + ((gridVal grid (r + 1) 0 : Nat) : WithTop Nat)
  | r + 1, c + 1 =>
    min (dpDist grid r (c + 1) + ((gridVal grid (r + 1) (c + 1) : Nat) : WithTop Nat))
        (dpDist grid (r + 1) c + ((gridVal grid (r + 1) (c + 1) : Nat) : WithTop Nat))

/-- The `previous` array: the up candidate is scanned first, the left candidate
replaces it only when strictly smaller; `null` when no candidate is finite. -/
def dpPrev (grid : List (List Nat)) : Nat → Nat → Option (Nat × Nat)
  | 0, 0 => none
  | 0, c + 1 =>
    if dpDist grid 0 c + ((gridVal grid 0 (c + 1) : Nat) : WithTop Nat) = ⊤ then none
    else some (0, c)
  | r + 1, 0 =>
    if dpDist grid r 0 + ((gridVal grid (r + 1) 0 : Nat) : WithTop Nat) = ⊤ then none
    else some (r, 0)
  | r + 1, c + 1 =>
    if dpDist grid (r + 1) c + ((gridVal grid (r + 1) (c + 1) : Nat) : WithTop Nat) <
        dpDist grid r (c + 1) + ((gridVal grid (r + 1) (c + 1) : Nat) : WithTop Nat) then
      some (r + 1, c)
    else if dpDist grid r (c + 1) +
        ((gridVal grid (r + 1) (c + 1) : Nat) : WithTop Nat) = ⊤ then none
    else some (r, c + 1)

/-- The `while (current)` backward reconstruction, fueled; every `previous`
link decreases `row + col` by one, so `rows + cols` fuel always suffices. -/
def walkGrid (grid : List (List Nat)) :
    Nat → Nat × Nat → List (Nat × Nat) → Option (List (Nat × Nat))
  | 0, _, _ => none
  | fuel + 1, cur, acc =>
    if cur = (0, 0) then some (cur :: acc)
    else
      match dpPrev grid cur.1 cur.2 with
      | some p => walkGrid grid fuel p (cur :: acc)
      | none => some (cur :: acc)

/-- `computeShortestPath(dpValues)`: throw on an empty grid, otherwise run the
DP and reconstruct the path from the bottom-right cell. -/
def computeShortestPath (grid : List (List Nat)) :
    Except String (List (Nat × Nat)) :=
  if grid.length = 0 then Except.error "Grid cannot be empty"
  else
    match walkGrid grid (grid.length + (grid.headD []).length)
        (grid.length - 1, (grid.headD []).length - 1) [] with
    | some path => Except.ok path
    | none => Except.ok []

/-- C5: both algorithm entry points fail fast exactly on their invalid
preconditions, with descriptive messages, and return normally otherwise:
`dijkstra` errors iff the start node is missing (naming it), and
`computeShortestPath` errors iff the grid has no rows. -/
theorem C5_entry_points (g : Graph) (s : String) (grid : List (List Nat)) :
    ((g.hasNode s → ∃ F, dijkstra g s = Except.ok F) ∧
     (¬ g.hasNode s → dijkstra g s =
        Except.error ("Start node " ++ s ++ " not found in the graph"))) ∧
    ((grid = [] → computeShortestPath grid = Except.error "Grid cannot be empty") ∧
     (grid ≠ [] → ∃ path, computeShortestPath grid = Except.ok path)) := by
  refine ⟨⟨?_, ?_⟩, ?_, ?_⟩
  · intro hs
    refine ⟨dijkstraLoop g g.nodes.length (dijkstraInit g s), ?_⟩
    unfold dijkstra
    rw [if_pos ((find?_isSome_iff g s).mpr hs)]
  · intro hs
    unfold dijkstra
    rw [if_neg (fun h => hs ((find?_isSome_iff g s).mp h))]
  · intro hg
    subst hg
    rfl
  · intro hg
    unfold computeShortestPath
    rw [if_neg (fun h => hg (List.eq_nil_of_length_eq_zero h))]
    cases hw : walkGrid grid (grid.length + (grid.headD []).length)
        (grid.length - 1, (grid.headD []).length - 1) [] with
    | some path => exact ⟨path, rfl⟩
    | none => exact ⟨[], rfl⟩

theorem C5_entry_points_witness :
    dijkstra gw1 "zz" =
      Except.error ("Start node " ++ "zz" ++ " not found in the graph") ∧
    computeShortestPath [] = Except.error "Grid cannot be empty" ∧
    ∃ path, computeShortestPath [[1, 3], [2, 1]] = Except.ok path := by
  obtain ⟨⟨-, h2⟩, -, -⟩ := C5_entry_points gw1 "zz" ([] : List (List Nat))
  obtain ⟨-, h3, -⟩ := C5_entry_points gw1 "zz" ([] : List (List Nat))
  obtain ⟨-, -, h4⟩ := C5_entry_points gw1 "zz" [[1, 3], [2, 1]]
  exact ⟨h2 (by decide), h3 rfl, h4 (by decide)⟩

/-- Monotone (right/down) grid paths from `(0,0)` with their summed entered
cost (start cell included once). -/
inductive GPath (grid : List (List Nat)) : Nat → Nat → Nat → Prop where
  | start : GPath grid 0 0 (gridVal grid 0 0)
  | down {r c n : Nat} (h : GPath grid r c n) :
      GPath grid (r + 1) c (n + gridVal grid (r + 1) c)
  | right {r c n : Nat} (h : GPath grid r c n) :
      GPath grid r (c + 1) (n + gridVal grid r (c + 1))

/-- One right/down move between cells. -/
def gridStep (a b : Nat × Nat) : Prop :=
  (b.1 = a.1 + 1 ∧ b.2 = a.2) ∨ (b.1 = a.1 ∧ b.2 = a.2 + 1)

/-- Total cost of a cell list. -/
def pathCostG (grid : List (List Nat)) (l : List (Nat × Nat)) : Nat :=
  (l.map (fun p => gridVal grid p.1 p.2)).sum

theorem dpDist_le (grid : List (List Nat)) :
    ∀ (r c n : Nat), GPath grid r c n → dpDist grid r c ≤ ((n : Nat) : WithTop Nat) := by
  intro r c n hp
  induction hp with
  | start => exact le_of_eq (by simp [dpDist])
  | down h ih =>
    rename_i r0 c0 n0
    cases c0 with
    | zero =>
      show dpDist grid (r0 + 1) 0 ≤ _
      have heq : dpDist grid (r0 + 1) 0 =
          dpDist grid r0 0 + ((gridVal grid (r0 + 1) 0 : Nat) : WithTop Nat) := by
        simp [dpDist]
      rw [heq]
      calc dpDist grid r0 0 + ((gridVal grid (r0 + 1) 0 : Nat) : WithTop Nat)
          ≤ ((n0 : Nat) : WithTop Nat) + ((gridVal grid (r0 + 1) 0 : Nat) : WithTop Nat) :=
            add_le_add_right ih _
        _ = (((n0 + gridVal grid (r0 + 1) 0 : Nat)) : WithTop Nat) := by norm_cast
    | succ c1 =>
      have heq : dpDist grid (r0 + 1) (c1 + 1) =
          min (dpDist grid r0 (c1 + 1) +
            ((gridVal grid (r0 + 1) (c1 + 1) : Nat) : WithTop Nat))
          (dpDist grid (r0 + 1) c1 +
            ((gridVal grid (r0 + 1) (c1 + 1) : Nat) : WithTop Nat)) := by
        simp [dpDist]
      rw [heq]
      apply le_trans (min_le_left _ _)
      calc dpDist grid r0 (c1 + 1) + ((gridVal grid (r0 + 1) (c1 + 1) : Nat) : WithTop Nat)
          ≤ ((n0 : Nat) : WithTop Nat) +
            ((gridVal grid (r0 + 1) (c1 + 1) : Nat) : WithTop Nat) := add_le_add_right ih _
        _ = (((n0 + gridVal grid (r0 + 1) (c1 + 1) : Nat)) : WithTop Nat) := by norm_cast
  | right h ih =>
    rename_i r0 c0 n0
    cases r0 with
    | zero =>
      have heq : dpDist grid 0 (c0 + 1) =
          dpDist grid 0 c0 + ((gridVal grid 0 (c0 + 1) : Nat) : WithTop Nat) := by
        simp [dpDist]
      rw [heq]
      calc dpDist grid 0 c0 + ((gridVal grid 0 (c0 + 1) : Nat) : WithTop Nat)
          ≤ ((n0 : Nat) : WithTop Nat) + ((gridVal grid 0 (c0 + 1) : Nat) : WithTop Nat) :=
            add_le_add_right ih _
        _ = (((n0 + gridVal grid 0 (c0 + 1) : Nat)) : WithTop Nat) := by norm_cast
    | succ r1 =>
      have heq : dpDist grid (r1 + 1) (c0 + 1) =
          min (dpDist grid r1 (c0 + 1) +
            ((gridVal grid (r1 + 1) (c0 + 1) : Nat) : WithTop Nat))
          (dpDist grid (r1 + 1) c0 +
            ((gridVal grid (r1 + 1) (c0 + 1) : Nat) : WithTop Nat)) := by
        simp [dpDist]
      rw [heq]
      apply le_trans (min_le_right _ _)
      calc dpDist grid (r1 + 1) c0 + ((gridVal grid (r1 + 1) (c0 + 1) : Nat) : WithTop Nat)
          ≤ ((n0 : Nat) : WithTop Nat) +
            ((gridVal grid (r1 + 1) (c0 + 1) : Nat) : WithTop Nat) := add_le_add_right ih _
        _ = (((n0 + gridVal grid (r1 + 1) (c0 + 1) : Nat)) : WithTop Nat) := by norm_cast

theorem dpDist_fin (grid : List (List Nat)) :
    ∀ (r c : Nat), ∃ n : Nat, dpDist grid r c = ((n : Nat) : WithTop Nat) ∧
      GPath grid r c n := by
  intro r
  induction r with
  | zero =>
    intro c
    induction c with
    | zero => exact ⟨gridVal grid 0 0, by simp [dpDist], GPath.start⟩
    | succ c1 ih =>
      obtain ⟨n, hd, hp⟩ := ih
      refine ⟨n + gridVal grid 0 (c1 + 1), ?_, GPath.right hp⟩
      have heq : dpDist grid 0 (c1 + 1) =
          dpDist grid 0 c1 + ((gridVal grid 0 (c1 + 1) : Nat) : WithTop Nat) := by
        simp [dpDist]
      rw [heq, hd]
      norm_cast
  | succ r1 ihr =>
    intro c
    induction c with
    | zero =>
      obtain ⟨n, hd, hp⟩ := ihr 0
      refine ⟨n + gridVal grid (r1 + 1) 0, ?_, GPath.down hp⟩
      have heq : dpDist grid (r1 + 1) 0 =
          dpDist grid r1 0 + ((gridVal grid (r1 + 1) 0 : Nat) : WithTop Nat) := by
        simp [dpDist]
      rw [heq, hd]
      norm_cast
    | succ c1 ihc =>
      obtain ⟨nu, hdu, hpu⟩ := ihr (c1 + 1)
      obtain ⟨nl, hdl, hpl⟩ := ihc
      have heq : dpDist grid (r1 + 1) (c1 + 1) =
          min (dpDist grid r1 (c1 + 1) +
            ((gridVal grid (r1 + 1) (c1 + 1) : Nat) : WithTop Nat))
          (dpDist grid (r1 + 1) c1 +
            ((gridVal grid (r1 + 1) (c1 + 1) : Nat) : WithTop Nat)) := by
        simp [dpDist]
      by_cases hle : nu + gridVal grid (r1 + 1) (c1 + 1) ≤ nl + gridVal grid (r1 + 1) (c1 + 1)
      · refine ⟨nu + gridVal grid (r1 + 1) (c1 + 1), ?_, GPath.down hpu⟩
        rw [heq, hdu, hdl]
        rw [min_eq_left]
        · norm_cast
        · exact_mod_cast hle
      · refine ⟨nl + gridVal grid (r1 + 1) (c1 + 1), ?_, GPath.right hpl⟩
        rw [heq, hdu, hdl]
        rw [min_eq_right]
        · norm_cast
        · push_neg at hle
          exact_mod_cast le_of_lt hle

theorem dpPrev_spec (grid : List (List Nat)) :
    ∀ (r c : Nat), ¬(r = 0 ∧ c = 0) →
    ∃ p : Nat × Nat, dpPrev grid r c = some p ∧
      ((p.1 + 1 = r ∧ p.2 = c) ∨ (p.1 = r ∧ p.2 + 1 = c)) ∧
      dpDist grid r c =
        dpDist grid p.1 p.2 + ((gridVal grid r c : Nat) : WithTop Nat) := by
  intro r c hne
  obtain ⟨n00, hd00, -⟩ := dpDist_fin grid 0 0
  cases r with
  | zero =>
    cases c with
    | zero => exact absurd ⟨rfl, rfl⟩ hne
    | succ c1 =>
      obtain ⟨n, hd, -⟩ := dpDist_fin grid 0 c1
      refine ⟨(0, c1), ?_, Or.inr ⟨rfl, rfl⟩, by simp [dpDist]⟩
      show dpPrev grid 0 (c1 + 1) = some (0, c1)
      have heq : dpPrev grid 0 (c1 + 1) =
          if dpDist grid 0 c1 + ((gridVal grid 0 (c1 + 1) : Nat) : WithTop Nat) = ⊤
          then none else some (0, c1) := by
        simp [dpPrev]
      rw [heq, hd, if_neg]
      intro h
      simp [WithTop.add_eq_top] at h
  | succ r1 =>
    cases c with
    | zero =>
      obtain ⟨n, hd, -⟩ := dpDist_fin grid r1 0
      refine ⟨(r1, 0), ?_, Or.inl ⟨rfl, rfl⟩, by simp [dpDist]⟩
      have heq : dpPrev grid (r1 + 1) 0 =
          if dpDist grid r1 0 + ((gridVal grid (r1 + 1) 0 : Nat) : WithTop Nat) = ⊤
          then none else some (r1, 0) := by
        simp [dpPrev]
      rw [heq, hd, if_neg]
      intro h
      simp [WithTop.add_eq_top] at h
    | succ c1 =>
      obtain ⟨nu, hdu, -⟩ := dpDist_fin grid r1 (c1 + 1)
      have heqd : dpDist grid (r1 + 1) (c1 + 1) =
          min (dpDist grid r1 (c1 + 1) +
            ((gridVal grid (r1 + 1) (c1 + 1) : Nat) : WithTop Nat))
          (dpDist grid (r1 + 1) c1 +
            ((gridVal grid (r1 + 1) (c1 + 1) : Nat) : WithTop Nat)) := by
        simp [dpDist]
      have heqp : dpPrev grid (r1 + 1) (c1 + 1) =
          if dpDist grid (r1 + 1) c1 +
              ((gridVal grid (r1 + 1) (c1 + 1) : Nat) : WithTop Nat) <
              dpDist grid r1 (c1 + 1) +
              ((gridVal grid (r1 + 1) (c1 + 1) : Nat) : WithTop Nat) then
            some (r1 + 1, c1)
          else if dpDist grid r1 (c1 + 1) +
              ((gridVal grid (r1 + 1) (c1 + 1) : Nat) : WithTop Nat) = ⊤ then none
          else some (r1, c1 + 1) := by
        simp [dpPrev]
      by_cases hlt : dpDist grid (r1 + 1) c1 +
          ((gridVal grid (r1 + 1) (c1 + 1) : Nat) : WithTop Nat) <
          dpDist grid r1 (c1 + 1) +
          ((gridVal grid (r1 + 1) (c1 + 1) : Nat) : WithTop Nat)
      · refine ⟨(r1 + 1, c1), ?_, Or.inr ⟨rfl, rfl⟩, ?_⟩
        · rw [heqp, if_pos hlt]
        · rw [heqd, min_eq_right (le_of_lt hlt)]
      · refine ⟨(r1, c1 + 1), ?_, Or.inl ⟨rfl, rfl⟩, ?_⟩
        · rw [heqp, if_neg hlt, if_neg]
          rw [hdu]
          simp [WithTop.add_eq_top]
        · push_neg at hlt
          rw [heqd, min_eq_left hlt]

theorem walkGrid_zero (grid : List (List Nat)) (cur : Nat × Nat)
    (acc : List (Nat × Nat)) : walkGrid grid 0 cur acc = none := rfl

theorem walkGrid_succ_start (grid : List (List Nat)) (fuel : Nat)
    (acc : List (Nat × Nat)) :
    walkGrid grid (fuel + 1) (0, 0) acc = some ((0, 0) :: acc) := rfl

theorem walkGrid_succ_step (grid : List (List Nat)) (fuel : Nat) (cur : Nat × Nat)
    (acc : List (Nat × Nat)) (hne : ¬ cur = (0, 0)) (p : Nat × Nat)
    (hp : dpPrev grid cur.1 cur.2 = some p) :
    walkGrid grid (fuel + 1) cur acc = walkGrid grid fuel p (cur :: acc) := by
  have hstep : walkGrid grid (fuel + 1) cur acc =
      if cur = (0, 0) then some (cur :: acc)
      else
        match dpPrev grid cur.1 cur.2 with
        | some p => walkGrid grid fuel p (cur :: acc)
        | none => some (cur :: acc) := rfl
  rw [hstep, if_neg hne, hp]

theorem walkGrid_spec (grid : List (List Nat)) :
    ∀ (fuel r c : Nat) (acc : List (Nat × Nat)), r + c < fuel →
    ∃ (chain : List (Nat × Nat)) (n : Nat),
      walkGrid grid fuel (r, c) acc = some (chain ++ acc) ∧
      chain.head? = some (0, 0) ∧ chain.getLast? = some (r, c) ∧
      List.Chain' gridStep chain ∧
      pathCostG grid chain = n ∧
      dpDist grid r c = ((n : Nat) : WithTop Nat) ∧
      ∀ q ∈ chain, q.1 ≤ r ∧ q.2 ≤ c := by
  intro fuel
  induction fuel with
  | zero =>
    intro r c acc h
    exact absurd h (by omega)
  | succ fuel ih =>
    intro r c acc hlt
    by_cases h00 : (r, c) = ((0, 0) : Nat × Nat)
    · obtain ⟨h1, h2⟩ := Prod.mk.injEq .. ▸ h00
      subst h1
      subst h2
      obtain ⟨n0, hd0, -⟩ := dpDist_fin grid 0 0
      refine ⟨[(0, 0)], n0, ?_, rfl, rfl, ?_, ?_, hd0, ?_⟩
      · rw [walkGrid_succ_start]
        rfl
      · exact List.chain'_singleton _
      · show gridVal grid 0 0 + 0 = n0
        have heq0 : dpDist grid 0 0 = ((gridVal grid 0 0 : Nat) : WithTop Nat) := by
          simp [dpDist]
        rw [heq0] at hd0
        have h2 : gridVal grid 0 0 = n0 := by exact_mod_cast hd0
        omega
      · intro q hq
        simp only [List.mem_singleton] at hq
        subst hq
        exact ⟨le_refl _, le_refl _⟩
    · have hne : ¬(r = 0 ∧ c = 0) := by
        intro ⟨h1, h2⟩
        exact h00 (by rw [h1, h2])
      obtain ⟨p, hp, hdisj, hdist⟩ := dpPrev_spec grid r c hne
      have hsum : p.1 + p.2 + 1 = r + c := by
        rcases hdisj with ⟨h1, h2⟩ | ⟨h1, h2⟩ <;> omega
      obtain ⟨chain0, n0, hwalk, hhead, hlast, hchain, hcost, hdp, hbound⟩ :=
        ih p.1 p.2 ((r, c) :: acc) (by omega)
      refine ⟨chain0 ++ [(r, c)], n0 + gridVal grid r c, ?_, ?_, ?_, ?_, ?_, ?_, ?_⟩
      · rw [walkGrid_succ_step grid fuel (r, c) acc h00 p hp]
        have hpe : ((p.1, p.2) : Nat × Nat) = p := rfl
        rw [← hpe] at hwalk
        rw [hwalk]
        rw [List.append_assoc]
        rfl
      · cases chain0 with
        | nil => cases hhead
        | cons x rest => simpa using hhead
      · exact List.getLast?_concat chain0
      · rw [List.chain'_append]
        refine ⟨hchain, List.chain'_singleton _, ?_⟩
        intro x hx y hy
        rw [hlast] at hx
        simp only [Option.mem_def, Option.some.injEq] at hx
        simp only [List.head?_cons, Option.mem_def, Option.some.injEq] at hy
        subst hx
        subst hy
        rcases hdisj with ⟨h1, h2⟩ | ⟨h1, h2⟩
        · exact Or.inl ⟨by omega, by omega⟩
        · exact Or.inr ⟨by omega, by omega⟩
      · show pathCostG grid (chain0 ++ [(r, c)]) = _
        unfold pathCostG at hcost ⊢
        rw [List.map_append, List.sum_append]
        simp only [List.map_cons, List.map_nil, List.sum_cons, List.sum_nil]
        omega
      · rw [hdist, hdp]
        norm_cast
      · intro q hq
        rcases List.mem_append.mp hq with h | h
        · obtain ⟨hb1, hb2⟩ := hbound q h
          rcases hdisj with ⟨h1, h2⟩ | ⟨h1, h2⟩ <;> constructor <;> omega
        · simp only [List.mem_singleton] at h
          subst h
          exact ⟨le_refl _, le_refl _⟩

theorem chain_to_gpath (grid : List (List Nat)) :
    ∀ (l : List (Nat × Nat)) (r c : Nat),
    l.head? = some (0, 0) → l.getLast? = some (r, c) → List.Chain' gridStep l →
    GPath grid r c (pathCostG grid l) := by
  intro l
  induction l using List.reverseRecOn with
  | nil =>
    intro r c hh
    cases hh
  | append_singleton l0 a ih =>
    intro r c hh hl hc
    rw [List.getLast?_concat] at hl
    have ha : a = (r, c) := by
      simpa using hl
    subst ha
    cases hl0 : l0 with
    | nil =>
      subst hl0
      have h00 : ((r, c) : Nat × Nat) = (0, 0) := by
        simpa using hh
      obtain ⟨h1, h2⟩ := Prod.mk.injEq .. ▸ h00
      subst h1
      subst h2
      have : pathCostG grid ([] ++ [((0 : Nat), (0 : Nat))]) = gridVal grid 0 0 := by
        unfold pathCostG
        simp
      rw [this]
      exact GPath.start
    | cons x rest =>
      subst hl0
      have hh0 : (x :: rest).head? = some ((0 : Nat), (0 : Nat)) := by
        simpa using hh
      obtain ⟨q, hq⟩ : ∃ q, (x :: rest).getLast? = some q :=
        ⟨(x :: rest).getLast (by simp), List.getLast?_eq_getLast _ _⟩
      obtain ⟨hc0, -, hstep⟩ := List.chain'_append.mp hc
      have hqstep : gridStep q (r, c) := by
        apply hstep q _ (r, c) _
        · rw [hq]
          rfl
        · rfl
      have hgp := ih q.1 q.2 hh0 (by rw [hq]) hc0
      have hcost : pathCostG grid ((x :: rest) ++ [(r, c)]) =
          pathCostG grid (x :: rest) + gridVal grid r c := by
        unfold pathCostG
        rw [List.map_append, List.sum_append]
        simp
      rw [hcost]
      rcases hqstep with ⟨h1, h2⟩ | ⟨h1, h2⟩
      · have hr : r = q.1 + 1 := h1
        have hc2 : c = q.2 := h2
        subst hr
        subst hc2
        exact GPath.down hgp
      · have hr : r = q.1 := h1
        have hc2 : c = q.2 + 1 := h2
        subst hr
        subst hc2
        exact GPath.right hgp

theorem grid2_d00 : dpDist [[1, 3], [2, 1]] 0 0 = ((1 : Nat) : WithTop Nat) := by
  simp [dpDist, gridVal]

theorem grid2_d01 : dpDist [[1, 3], [2, 1]] 0 1 = ((4 : Nat) : WithTop Nat) := by
  have heq : dpDist [[1, 3], [2, 1]] 0 1 =
      dpDist [[1, 3], [2, 1]] 0 0 +
        ((gridVal [[1, 3], [2, 1]] 0 1 : Nat) : WithTop Nat) := by
    simp [dpDist]
  rw [heq, grid2_d00]
  decide

theorem grid2_d10 : dpDist [[1, 3], [2, 1]] 1 0 = ((3 : Nat) : WithTop Nat) := by
  have heq : dpDist [[1, 3], [2, 1]] 1 0 =
      dpDist [[1, 3], [2, 1]] 0 0 +
        ((gridVal [[1, 3], [2, 1]] 1 0 : Nat) : WithTop Nat) := by
    simp [dpDist]
  rw [heq, grid2_d00]
  decide

theorem grid2_p11 : dpPrev [[1, 3], [2, 1]] 1 1 = some (1, 0) := by
  have heq : dpPrev [[1, 3], [2, 1]] 1 1 =
      if dpDist [[1, 3], [2, 1]] 1 0 +
          ((gridVal [[1, 3], [2, 1]] 1 1 : Nat) : WithTop Nat) <
          dpDist [[1, 3], [2, 1]] 0 1 +
          ((gridVal [[1, 3], [2, 1]] 1 1 : Nat) : WithTop Nat) then
        some (1, 0)
      else if dpDist [[1, 3], [2, 1]] 0 1 +
          ((gridVal [[1, 3], [2, 1]] 1 1 : Nat) : WithTop Nat) = ⊤ then none
      else some (0, 1) := by
    simp [dpPrev]
  rw [heq, grid2_d01, grid2_d10, if_pos (by decide)]

theorem grid2_p10 : dpPrev [[1, 3], [2, 1]] 1 0 = some (0, 0) := by
  have heq : dpPrev [[1, 3], [2, 1]] 1 0 =
      if dpDist [[1, 3], [2, 1]] 0 0 +
          ((gridVal [[1, 3], [2, 1]] 1 0 : Nat) : WithTop Nat) = ⊤ then none
      else some (0, 0) := by
    simp [dpPrev]
  rw [heq, grid2_d00, if_neg (by decide)]

theorem grid2_compute :
    computeShortestPath [[1, 3], [2, 1]] = Except.ok [(0, 0), (1, 0), (1, 1)] := by
  have hwalk : walkGrid [[1, 3], [2, 1]] 4 (1, 1) [] =
      some [(0, 0), (1, 0), (1, 1)] := by
    rw [walkGrid_succ_step [[1, 3], [2, 1]] 3 (1, 1) [] (by decide) (1, 0) grid2_p11]
    rw [walkGrid_succ_step [[1, 3], [2, 1]] 2 (1, 0) [(1, 1)] (by decide) (0, 0) grid2_p10]
    rw [walkGrid_succ_start]
  show (match walkGrid [[1, 3], [2, 1]] 4 (1, 1) [] with
        | some path => Except.ok path
        | none => Except.ok []) = Except.ok [(0, 0), (1, 0), (1, 1)]
  rw [hwalk]

theorem grid1_compute : computeShortestPath [[5]] = Except.ok [(0, 0)] := rfl

/-- C7: on a non-empty rectangular grid, `computeShortestPath` returns a
monotone right/down path from the top-left to the bottom-right cell whose
summed cell costs are minimal among all such paths; on `[[1,3],[2,1]]` it
returns `[[0,0],[1,0],[1,1]]` (total cost 4) and on `[[5]]` it returns
`[[0,0]]`. -/
theorem C7_computeShortestPath (grid : List (List Nat)) (rows cols : Nat)
    (hrows : grid.length = rows) (hrect : ∀ row ∈ grid, row.length = cols)
    (h1 : 0 < rows) (h2 : 0 < cols) :
    (∃ path, computeShortestPath grid = Except.ok path ∧
      path.head? = some (0, 0) ∧ path.getLast? = some (rows - 1, cols - 1) ∧
      List.Chain' gridStep path ∧
      (∀ q ∈ path, q.1 < rows ∧ q.2 < cols) ∧
      (∀ l, l.head? = some (0, 0) → l.getLast? = some (rows - 1, cols - 1) →
        List.Chain' gridStep l → pathCostG grid path ≤ pathCostG grid l)) ∧
    computeShortestPath [[1, 3], [2, 1]] = Except.ok [(0, 0), (1, 0), (1, 1)] ∧
    pathCostG [[1, 3], [2, 1]] [(0, 0), (1, 0), (1, 1)] = 4 ∧
    computeShortestPath [[5]] = Except.ok [(0, 0)] := by
  refine ⟨?_, grid2_compute, by decide, grid1_compute⟩
  have hgne : grid ≠ [] := by
    intro h
    rw [h] at hrows
    simp at hrows
    omega
  have hcols : (grid.headD []).length = cols := by
    cases hg : grid with
    | nil => exact absurd hg hgne
    | cons row0 rest =>
      show row0.length = cols
      exact hrect row0 (by rw [hg]; simp)
  obtain ⟨chain, n, hwalk, hhead, hlast, hchain, hcost, hdp, hbound⟩ :=
    walkGrid_spec grid (rows + cols) (rows - 1) (cols - 1) [] (by omega)
  rw [List.append_nil] at hwalk
  refine ⟨chain, ?_, hhead, hlast, hchain, ?_, ?_⟩
  · unfold computeShortestPath
    rw [if_neg (by rw [hrows]; omega), hrows, hcols]
    rw [hwalk]
  · intro q hq
    obtain ⟨hb1, hb2⟩ := hbound q hq
    constructor <;> omega
  · intro l hlh hll hlc
    have hgp := chain_to_gpath grid l (rows - 1) (cols - 1) hlh hll hlc
    have hle := dpDist_le grid (rows - 1) (cols - 1) (pathCostG grid l) hgp
    rw [hdp] at hle
    rw [hcost]
    exact_mod_cast hle

theorem C7_computeShortestPath_witness :
    computeShortestPath [[1, 3], [2, 1]] = Except.ok [(0, 0), (1, 0), (1, 1)] ∧
    pathCostG [[1, 3], [2, 1]] [(0, 0), (1, 0), (1, 1)] = 4 ∧
    computeShortestPath [[5]] = Except.ok [(0, 0)] := by
  obtain ⟨-, h1, h2, h3⟩ := C7_computeShortestPath [[1, 3], [2, 1]] 2 2 rfl
    (by decide) (by decide) (by decide)
  exact ⟨h1, h2, h3⟩

/-! ## `reconstructPath` (part_009) -/

/-- The backward `while (current !== null)` walk.  `previous.get(current) ||
null` turns a missing entry, a `null` entry and the falsy empty string into
`null` (loop exit).  The zero-fuel result `none` marks divergence: the walk
revisits a state and loops forever, which a terminating walk over a map with
`previous.length` keys can never do within `previous.length + 1` steps. -/
def walkAux (startId : String) (previous : PrevMap) :
    Nat → String → List String → Option (List String)
  | 0, _, _ => none
  | fuel + 1, current, path =>
    if current = startId then some (current :: path)
    else
      match mapGet previous current with
      | some (some p) =>
        if p = "" then some (current :: path)
        else walkAux startId previous fuel p (current :: path)
      | some none => some (current :: path)
      | none => some (current :: path)

/-- `reconstructPath(endNodeId, startNodeId, previous, distances)`.  The outer
`none` marks divergence of the backward walk; `some none` is the source's
`{path: null, distance: null}`; `some (some (path, d))` its success result. -/
def reconstructPath (endId startId : String) (previous : PrevMap)
    (distances : DistMap) : Option (Option (List String × WithTop Nat)) :=
  match mapGet distances endId with
  | some d =>
    if d = ⊤ then some none
    else
      match walkAux startId previous (previous.length + 1) endId [] with
      | none => none
      | some path =>
        if path.head? = some startId then some (some (path, d)) else some none
  | none => some none

theorem walkAux_zero (startId : String) (previous : PrevMap) (cur : String)
    (path : List String) : walkAux startId previous 0 cur path = none := rfl

theorem walkAux_succ_start (startId : String) (previous : PrevMap) (fuel : Nat)
    (path : List String) :
    walkAux startId previous (fuel + 1) startId path =
      some (startId :: path) := by
  have hstep : walkAux startId previous (fuel + 1) startId path =
      if startId = startId then some (startId :: path)
      else
        match mapGet previous startId with
        | some (some p) =>
          if p = "" then some (startId :: path)
          else walkAux startId previous fuel p (startId :: path)
        | some none => some (startId :: path)
        | none => some (startId :: path) := rfl
  rw [hstep, if_pos rfl]

theorem walkAux_succ_step (startId : String) (previous : PrevMap) (fuel : Nat)
    (cur : String) (path : List String) (hne : ¬ cur = startId) (p : String)
    (hp : mapGet previous cur = some (some p)) (hpne : ¬ p = "") :
    walkAux startId previous (fuel + 1) cur path =
      walkAux startId previous fuel p (cur :: path) := by
  have hstep : walkAux startId previous (fuel + 1) cur path =
      if cur = startId then some (cur :: path)
      else
        match mapGet previous cur with
        | some (some p) =>
          if p = "" then some (cur :: path)
          else walkAux startId previous fuel p (cur :: path)
        | some none => some (cur :: path)
        | none => some (cur :: path) := rfl
  rw [hstep, if_neg hne, hp]
  show (if p = "" then some (cur :: path)
        else walkAux startId previous fuel p (cur :: path)) = _
  rw [if_neg hpne]

theorem reconstructPath_eq_fin (endId startId : String) (previous : PrevMap)
    (dist : DistMap) (d : WithTop Nat) (hd : mapGet dist endId = some d)
    (hdt : ¬ d = ⊤) :
    reconstructPath endId startId previous dist =
      match walkAux startId previous (previous.length + 1) endId [] with
      | none => none
      | some path =>
        if path.head? = some startId then some (some (path, d))
        else some none := by
  unfold reconstructPath
  rw [hd]
  show (if d = ⊤ then some none
        else match walkAux startId previous (previous.length + 1) endId [] with
          | none => none
          | some path =>
            if path.head? = some startId then some (some (path, d))
            else some none) = _
  rw [if_neg hdt]

theorem reconstructPath_eq_top (endId startId : String) (previous : PrevMap)
    (dist : DistMap) (hd : mapGet dist endId = some ⊤) :
    reconstructPath endId startId previous dist = some none := by
  unfold reconstructPath
  rw [hd]
  show (if (⊤ : WithTop Nat) = ⊤ then some none else _) = some none
  rw [if_pos rfl]

theorem reconstructPath_eq_missing (endId startId : String) (previous : PrevMap)
    (dist : DistMap) (hd : mapGet dist endId = none) :
    reconstructPath endId startId previous dist = some none := by
  unfold reconstructPath
  rw [hd]

theorem walkC_diverge :
    ∀ (fuel : Nat) (cur : String), (cur = "a" ∨ cur = "b") →
    ∀ (path : List String),
    walkAux "s" [("a", some "b"), ("b", some "a")] fuel cur path = none := by
  intro fuel
  induction fuel with
  | zero => intro cur _ path; rfl
  | succ fuel ih =>
    intro cur hcur path
    rcases hcur with h | h
    · subst h
      rw [walkAux_succ_step "s" _ fuel "a" path (by decide) "b" (by rfl) (by decide)]
      exact ih "b" (Or.inr rfl) _
    · subst h
      rw [walkAux_succ_step "s" _ fuel "b" path (by decide) "a" (by rfl) (by decide)]
      exact ih "a" (Or.inl rfl) _

theorem C2_counterexample :
    (∀ (fuel : Nat) (path : List String),
      walkAux "s" [("a", some "b"), ("b", some "a")] fuel "a" path = none) ∧
    reconstructPath "a" "s" [("a", some "b"), ("b", some "a")]
      [("a", ((5 : Nat) : WithTop Nat))] = none := by
  refine ⟨fun fuel path => walkC_diverge fuel "a" (Or.inl rfl) path, ?_⟩
  rw [reconstructPath_eq_fin "a" "s" _ _ ((5 : Nat) : WithTop Nat) (by rfl) (by decide)]
  rw [walkC_diverge (([("a", some "b"), ("b", some "a")] : PrevMap).length + 1)
    "a" (Or.inl rfl) []]

/-- A path list that follows the `previous` links of a run, with the summed
weights of the traversed edges. -/
inductive PathSum (g : Graph) (prev : PrevMap) : List String → Nat → Prop where
  | single (x : String) : PathSum g prev [x] 0
  | cons {a b : String} {rest : List String} {m w : Nat}
      (hp : mapGet prev b = some (some a))
      (he : ∃ e ∈ storedEdges g,
        ((e.from_id = a ∧ e.to_id = b) ∨ (e.from_id = b ∧ e.to_id = a)) ∧
        e.data = w)
      (ht : PathSum g prev (b :: rest) m) :
      PathSum g prev (a :: b :: rest) (w + m)

theorem PathSum_snoc (g : Graph) (prev : PrevMap) :
    ∀ (l : List String) (m : Nat), PathSum g prev l m →
    ∀ (p : String), l.getLast? = some p → ∀ (t : String) (w : Nat),
    mapGet prev t = some (some p) →
    (∃ e ∈ storedEdges g,
      ((e.from_id = p ∧ e.to_id = t) ∨ (e.from_id = t ∧ e.to_id = p)) ∧
      e.data = w) →
    PathSum g prev (l ++ [t]) (m + w) := by
  intro l m hps
  induction hps with
  | single x =>
    intro p hlast t w hp he
    have hpx : p = x := by
      simpa using hlast.symm
    subst hpx
    have := PathSum.cons hp he (PathSum.single t)
    simpa using this
  | cons hp0 he0 ht0 ih =>
    intro p hlast t w hp he
    rename_i a b rest m0 w0
    have hlast2 : (b :: rest).getLast? = some p := by
      rw [← List.getLast?_cons_cons]
      exact hlast
    have hih := ih p hlast2 t w hp he
    have heq : (a :: b :: rest) ++ [t] = a :: ((b :: rest) ++ [t]) := rfl
    rw [heq, Nat.add_assoc]
    exact PathSum.cons hp0 he0 hih

theorem walkAux_ok (g : Graph) (hwf : WF g) (s : String) (F : DState)
    (hinv : DInv g s F) (hnoempty : ¬ g.hasNode "") :
    ∀ (fuel : Nat) (t : String), t ∈ F.visited → F.visited.indexOf t < fuel →
    ∀ (acc : List String),
    ∃ (chain : List String) (n : Nat),
      walkAux s F.prev fuel t acc = some (chain ++ acc) ∧
      chain.head? = some s ∧ chain.getLast? = some t ∧
      PathSum g F.prev chain n ∧
      mapGet F.dist t = some ((n : Nat) : WithTop Nat) := by
  intro fuel
  induction fuel with
  | zero =>
    intro t ht hidx
    exact absurd hidx (by omega)
  | succ fuel ih =>
    intro t ht hidx acc
    by_cases hts : t = s
    · subst hts
      refine ⟨[t], 0, ?_, rfl, rfl, PathSum.single t, ?_⟩
      · rw [walkAux_succ_start]
        rfl
      · rw [hinv.ds0]
        norm_cast
    · obtain ⟨p, hp, hpidx⟩ := hinv.previdx t ht hts
      obtain ⟨hpv, w, np, hedge, hdp, hdt⟩ := hinv.prevspec t p hp
      have hpne : ¬ p = "" := by
        intro hpe
        apply hnoempty
        have : p ∈ g.nodes.map Node.id :=
          hinv.perm.mem_iff.mp (List.mem_append_left _ hpv)
        rw [hpe] at this
        exact (hasNode_iff_map g "").mpr this
      obtain ⟨chain0, n0, hw0, hh0, hl0, hps0, hd0⟩ :=
        ih p hpv (by omega) (t :: acc)
      have hn0 : n0 = np := by
        have := Option.some.inj (hd0.symm.trans hdp)
        exact_mod_cast this
      refine ⟨chain0 ++ [t], n0 + w, ?_, ?_, List.getLast?_concat chain0, ?_, ?_⟩
      · rw [walkAux_succ_step s F.prev fuel t acc hts p hp hpne, hw0,
          List.append_assoc]
        rfl
      · cases chain0 with
        | nil => cases hh0
        | cons x rest => simpa using hh0
      · exact PathSum_snoc g F.prev chain0 n0 hps0 p hl0 t w hp hedge
      · rw [hdt, hn0]

/-- C2 (amended): on maps produced by a Dijkstra run over a well-formed graph
with no empty-string node id, `reconstructPath` always terminates; it returns
"no path" when the target's distance is missing or `Infinity`, and otherwise a
path from the source to the target that follows the `previous` links whose
summed traversed edge weights equal `distances[target]` (the source itself
yielding the single-element path of weight 0). -/
theorem C2_reconstructPath (g : Graph) (hwf : WF g) (s : String)
    (hs : g.hasNode s) (hnoempty : ¬ g.hasNode "") :
    ∃ F, dijkstra g s = Except.ok F ∧
      ∀ t : String,
        (mapGet F.dist t = none → reconstructPath t s F.prev F.dist = some none) ∧
        (mapGet F.dist t = some ⊤ → reconstructPath t s F.prev F.dist = some none) ∧
        (∀ n : Nat, mapGet F.dist t = some ((n : Nat) : WithTop Nat) →
          ∃ path, reconstructPath t s F.prev F.dist =
              some (some (path, ((n : Nat) : WithTop Nat))) ∧
            path.head? = some s ∧ path.getLast? = some t ∧
            PathSum g F.prev path n) := by
  obtain ⟨hrun, hinv, htop⟩ := dijkstra_run g hwf s hs
  refine ⟨_, hrun, ?_⟩
  intro t
  refine ⟨reconstructPath_eq_missing t s _ _, reconstructPath_eq_top t s _ _, ?_⟩
  intro n hdt
  have htkey : t ∈ (dijkstraLoop g g.nodes.length (dijkstraInit g s)).dist.map
      Prod.fst := (mapGet_isSome_iff _ _).mp (by rw [hdt]; rfl)
  have htid : t ∈ g.nodes.map Node.id := by
    rw [← hinv.dkeys]
    exact htkey
  have htv : t ∈ (dijkstraLoop g g.nodes.length (dijkstraInit g s)).visited := by
    rcases List.mem_append.mp (hinv.perm.mem_iff.mpr htid) with h | h
    · exact h
    · exfalso
      have := htop t h
      rw [hdt] at this
      exact WithTop.coe_ne_top (Option.some.inj this)
  have hplen : (dijkstraLoop g g.nodes.length (dijkstraInit g s)).prev.length =
      (g.nodes.map Node.id).length := by
    rw [← hinv.pkeys, List.length_map]
  have hvlen : (dijkstraLoop g g.nodes.length (dijkstraInit g s)).visited.length ≤
      (g.nodes.map Node.id).length := by
    rw [← hinv.perm.length_eq, List.length_append]
    omega
  have hidx : (dijkstraLoop g g.nodes.length (dijkstraInit g s)).visited.indexOf t <
      (dijkstraLoop g g.nodes.length (dijkstraInit g s)).prev.length + 1 := by
    have := List.indexOf_lt_length.mpr htv
    omega
  obtain ⟨chain, n0, hw, hh, hl, hps, hd⟩ :=
    walkAux_ok g hwf s _ hinv hnoempty _ t htv hidx []
  have hn : n0 = n := by
    have := Option.some.inj (hd.symm.trans hdt)
    exact_mod_cast this
  subst hn
  rw [List.append_nil] at hw
  refine ⟨chain, ?_, hh, hl, hps⟩
  rw [reconstructPath_eq_fin t s _ _ ((n0 : Nat) : WithTop Nat) hdt
    WithTop.coe_ne_top, hw]
  show (if chain.head? = some s then _ else _) = _
  rw [if_pos hh]

theorem C2_reconstructPath_witness :
    ∃ F, dijkstra gw1 "a" = Except.ok F ∧
      ∀ n : Nat, mapGet F.dist "b" = some ((n : Nat) : WithTop Nat) →
        ∃ path, reconstructPath "b" "a" F.prev F.dist =
            some (some (path, ((n : Nat) : WithTop Nat))) ∧
          path.head? = some "a" ∧ path.getLast? = some "b" ∧
          PathSum gw1 F.prev path n := by
  obtain ⟨F, h1, h2⟩ := C2_reconstructPath gw1 gw1_wf "a" (by decide) (by decide)
  exact ⟨F, h1, fun n hn => (h2 "b").2.2 n hn⟩

/-! ## Step snapshots (`createDijkstraStep`) -/

/-- One recorded visualization step: `currentNodeId`/`currentShortest` plus
copies of the four live containers. -/
structure Step6 where
  currentNodeId : Option String
  distances : DistMap
  previous : PrevMap
  visited : List String
  unvisited : List String
  currentShortest : Option String
deriving DecidableEq, Repr

/-- `createDijkstraStep`: builds a step from fresh copies (`new Map(...)`,
`new Set(...)`) of the live containers. -/
def createDijkstraStep (currentId nextShortest : Option String)
    (distances : DistMap) (previous : PrevMap)
    (visited unvisited : List String) : Step6 :=
  { currentNodeId := currentId,
    distances := distances,
    previous := previous,
    visited := visited,
    unvisited := unvisited,
    currentShortest := nextShortest }

/-- The mutable world of a run: the live algorithm state, the `steps` array
(references into the object store, in push order), and the append-only store
of allocated step objects. -/
structure Heap6 where
  live : DState
  steps : List Nat
  store : List Step6

/-- One observable action on the world: an arbitrary in-place mutation of the
live containers, or `steps.push(createDijkstraStep(...))`, which allocates a
fresh snapshot object. -/
inductive Op6 where
  | mutate (f : DState → DState)
  | record (currentId nextShortest : Option String)

def applyOp6 (h : Heap6) : Op6 → Heap6
  | Op6.mutate f => { h with live := f h.live }
  | Op6.record cid ns =>
    { h with
      steps := h.steps ++ [h.store.length],
      store := h.store ++ [createDijkstraStep cid ns h.live.dist h.live.prev
        h.live.visited h.live.unvisited] }

def runOps6 (h : Heap6) : List Op6 → Heap6
  | [] => h
  | op :: ops => runOps6 (applyOp6 h op) ops

theorem store_stable (ops : List Op6) :
    ∀ (h : Heap6) (i : Nat) (st : Step6), h.store.get? i = some st →
    (runOps6 h ops).store.get? i = some st := by
  induction ops with
  | nil => intro h i st hst; exact hst
  | cons op rest ih =>
    intro h i st hst
    show (runOps6 (applyOp6 h op) rest).store.get? i = some st
    apply ih
    cases op with
    | mutate f => exact hst
    | record cid ns =>
      show (h.store ++ [_]).get? i = some st
      have hi : i < h.store.length := by
        by_contra hge
        rw [List.get?_eq_none.mpr (by omega)] at hst
        cases hst
      rw [List.get?_append hi]
      exact hst

/-- C6: every recorded step is an independent deep snapshot: recording pushes a
fresh object holding the live containers' contents at that moment, and no later
mutation of the live state (nor any later recording) changes the contents seen
through any previously recorded step reference. -/
theorem C6_createDijkstraStep (h : Heap6) (ops : List Op6)
    (cid ns : Option String) :
    (∀ (i : Nat) (st : Step6), h.store.get? i = some st →
      (runOps6 h ops).store.get? i = some st) ∧
    (runOps6 (applyOp6 h (Op6.record cid ns)) ops).store.get? h.store.length =
      some (createDijkstraStep cid ns h.live.dist h.live.prev h.live.visited
        h.live.unvisited) ∧
    (applyOp6 h (Op6.record cid ns)).steps = h.steps ++ [h.store.length] := by
  refine ⟨fun i st hst => store_stable ops h i st hst, ?_, rfl⟩
  apply store_stable
  show (h.store ++ [_]).get? h.store.length = _
  rw [List.get?_concat_length]

def h60 : Heap6 :=
  { live := { dist := [("a", some 0)], prev := [("a", none)],
              visited := [], unvisited := ["a"] },
    steps := [], store := [] }

theorem C6_createDijkstraStep_witness :
    (runOps6 (applyOp6 h60 (Op6.record none (some "a")))
      [Op6.mutate (fun st => { st with dist := mapSet st.dist "a" ⊤ })]).store.get? 0 =
      some (createDijkstraStep none (some "a") [("a", some 0)] [("a", none)]
        [] ["a"]) := by
  have h2 := (C6_createDijkstraStep h60
    [Op6.mutate (fun st => { st with dist := mapSet st.dist "a" ⊤ })]
    none (some "a")).2.1
  exact h2
